import Mathlib

/-!
# Sharded vector-search service: router algorithms and write handlers

A shallow embedding of `src/cpp/algo.h` (greedy bucket fill, heap replace) and of the router
in `src/cpp/sharded_index_service.{h,cc}` (top-k merge of Search, Insert, Upsert), followed by
the properties proved about them.

Modelling conventions.

* C++ `int` values are integers of `ℤ`. Signed overflow is undefined behaviour in C++; none
  occurs in the modelled code when bucket sizes lie between 0 and the capacity and the counts
  fit in an `int`. Array indices are natural numbers.
* A C array `T *a` with its `size` is a `List T`; a read `a[i]` is `a.getD i default`. All
  reads of the modelled code are in bounds when `size ≤ a.length`.
* `float` scores are integers: the merge only compares scores with `>`, and finite floats
  under `>` are a linear order (NaN is outside the model).
* `std::map` and `std::unordered_map` are association lists with unique keys; the iteration
  order of an `unordered_map` is a parameter of the handler that iterates over it.
* The keys of `m_vector_shard_assignments_` are C++ `int`; a 64-bit vector id is converted
  with `to_int` on every access.
* A shard RPC is an oracle telling whether the call returns an ok status; the batches sent
  are collected so that properties can mention them.
* `while` loops carry fuel; `heap_sift_fuel` shows that the fuel supplied is never exhausted.
* A search RPC is an oracle giving, per shard, whether the status is ok and the neighbors of
  the response; the shards called are collected. The request field `k` is a natural number
  (a negative `k` would size the array `best_candidates` negatively).
* The shard service of `src/cpp/faiss_index_service.{h,cc}` keeps the faiss index as the list
  of its (id, vector) entries in insertion order; `add_with_ids` appends to it and
  `remove_ids` drops the entries whose id is selected.
* A cluster is the router with the shard services behind its stubs; an RPC over a healthy
  transport returns the status of the shard handler.
-/

set_option autoImplicit false

/-! ## Part I. Definitions -/

/-! ### algo.h -/

/-- The helper `swap` of algo.h, lines 15-19: exchanges `a[i]` and `a[j]`. -/
def swap {T : Type} [Inhabited T] (a : List T) (i j : Nat) : List T :=
  let temp := a.getD i default
  let a := a.set i (a.getD j default)
  a.set j temp

namespace algo

/-- The choice of `min_child_idx` in `heap_replace`, algo.h lines 44-50 (the caller has
already excluded the case where both children are out of bounds). -/
def min_child_idx {T : Type} [Inhabited T] (compare : T → T → Bool) (a : List T)
    (size idx : Nat) : Nat :=
  let left_child_idx := idx * 2 + 1
  let right_child_idx := idx * 2 + 2
  if right_child_idx ≥ size ∨
      compare (a.getD right_child_idx default) (a.getD left_child_idx default) = true
  then left_child_idx
  else right_child_idx

/-- The `while (idx < size)` loop of `heap_replace`, algo.h lines 37-59, with fuel. -/
def heap_sift {T : Type} [Inhabited T] (compare : T → T → Bool) (size : Nat) :
    Nat → List T → Nat → List T
  | 0, a, _ => a
  | fuel + 1, a, idx =>
    if idx < size then
      let left_child_idx := idx * 2 + 1
      let right_child_idx := idx * 2 + 2
      if left_child_idx ≥ size ∧ right_child_idx ≥ size then a
      else
        let min_child_idx := min_child_idx compare a size idx
        if compare (a.getD idx default) (a.getD min_child_idx default) = true then
          heap_sift compare size fuel (swap a idx min_child_idx) min_child_idx
        else a
    else a

/-- The function `heap_replace(a, size, v, compare)` of algo.h, lines 25-62: returns the
popped root and the array after the call. -/
def heap_replace {T : Type} [Inhabited T] (a : List T) (size : Nat) (v : T)
    (compare : T → T → Bool) : T × List T :=
  if size = 0 then (v, a)
  else
    let popped := a.getD 0 default
    let a := a.set 0 v
    (popped, heap_sift compare size size a 0)

/-- The comparator `std::greater<T>()`. -/
def greater {T : Type} [LT T] [DecidableRel (fun x y : T => x < y)] (x y : T) : Bool :=
  decide (y < x)

/-- The comparator `std::less<T>()`. -/
def less {T : Type} [LT T] [DecidableRel (fun x y : T => x < y)] (x y : T) : Bool :=
  decide (x < y)

/-- The overload `heap_replace(a, size, v)` of algo.h, lines 64-66. -/
def heap_replace_default {T : Type} [Inhabited T] [LT T]
    [DecidableRel (fun x y : T => x < y)] (a : List T) (size : Nat) (v : T) : T × List T :=
  heap_replace a size v greater

/-- The `for` loop of `greedy_fill`, algo.h lines 81-96, from bucket `i` on: `bucket_fills`
is returned as the list of its entries in ascending key order. -/
def greedy_fill_loop (bucket_capacity : Int) :
    Nat → List Int → Int → Int × List (Nat × Int)
  | _, [], num_elements_leftover => (num_elements_leftover, [])
  | i, size_i :: bucket_sizes, num_elements_leftover =>
    let available_capacity := bucket_capacity - size_i
    if available_capacity ≠ 0 then
      let num_to_fill := min num_elements_leftover available_capacity
      let leftover := num_elements_leftover - num_to_fill
      if leftover = 0 then
        (leftover, [(i, num_to_fill)])
      else
        let r := greedy_fill_loop bucket_capacity (i + 1) bucket_sizes leftover
        (r.1, (i, num_to_fill) :: r.2)
    else
      greedy_fill_loop bucket_capacity (i + 1) bucket_sizes num_elements_leftover

/-- The function `greedy_fill` of algo.h, lines 68-99. -/
def greedy_fill (num_elements bucket_capacity : Int) (bucket_sizes : List Int) :
    Int × List (Nat × Int) :=
  if num_elements = 0 then (0, [])
  else greedy_fill_loop bucket_capacity 0 bucket_sizes num_elements

/-- Heap property of the first `size` cells for a comparator: `compare parent child` is false
for the children at `2i+1` and `2i+2`. -/
def IsHeap {T : Type} [Inhabited T] (compare : T → T → Bool) (a : List T) (size : Nat) : Prop :=
  ∀ i < size,
    (i * 2 + 1 < size → compare (a.getD i default) (a.getD (i * 2 + 1) default) = false) ∧
    (i * 2 + 2 < size → compare (a.getD i default) (a.getD (i * 2 + 2) default) = false)

/-- A comparator that is a strict weak ordering: asymmetric and negatively transitive. -/
def StrictWeak {T : Type} (compare : T → T → Bool) : Prop :=
  (∀ x y, compare x y = true → compare y x = false) ∧
  (∀ x y z, compare x y = false → compare y z = false → compare x z = false)

/-- Loop invariant of the sift-down: the heap property holds at every node but `idx`, and the
parent of `idx` is in order with the children of `idx`. -/
def HeapExcept {T : Type} [Inhabited T] (compare : T → T → Bool) (a : List T) (size idx : Nat) :
    Prop :=
  (∀ i < size, i ≠ idx →
    (i * 2 + 1 < size → compare (a.getD i default) (a.getD (i * 2 + 1) default) = false) ∧
    (i * 2 + 2 < size → compare (a.getD i default) (a.getD (i * 2 + 2) default) = false)) ∧
  (∀ p < size, (idx = p * 2 + 1 ∨ idx = p * 2 + 2) →
    ∀ c < size, (c = idx * 2 + 1 ∨ c = idx * 2 + 2) →
      compare (a.getD p default) (a.getD c default) = false)

/-- Min-heap: every parent is at most its children at `2i+1` and `2i+2`. -/
def IsMinHeap {T : Type} [Inhabited T] [LE T] (a : List T) : Prop :=
  ∀ i < a.length,
    (i * 2 + 1 < a.length → a.getD i default ≤ a.getD (i * 2 + 1) default) ∧
    (i * 2 + 2 < a.length → a.getD i default ≤ a.getD (i * 2 + 2) default)

/-- Max-heap: every parent is at least its children at `2i+1` and `2i+2`. -/
def IsMaxHeap {T : Type} [Inhabited T] [LE T] (a : List T) : Prop :=
  ∀ i < a.length,
    (i * 2 + 1 < a.length → a.getD (i * 2 + 1) default ≤ a.getD i default) ∧
    (i * 2 + 2 < a.length → a.getD (i * 2 + 2) default ≤ a.getD i default)

instance {T : Type} [Inhabited T] [LE T] [DecidableRel (fun x y : T => x ≤ y)] (a : List T) :
    Decidable (IsMinHeap a) := by
  unfold IsMinHeap; infer_instance

instance {T : Type} [Inhabited T] [LE T] [DecidableRel (fun x y : T => x ≤ y)] (a : List T) :
    Decidable (IsMaxHeap a) := by
  unfold IsMaxHeap; infer_instance

/-- Total free room of the buckets: the sum of `capacity - sizes[i]`. -/
def total_available (capacity : Int) (sizes : List Int) : Int :=
  (sizes.map (fun s => capacity - s)).sum

/-- What remains to place once buckets `0..i-1` are filled, in the words of the spec:
`r_i = max(0, n - sum_{j<i} (capacity - sizes[j]))`. -/
def spec_remaining (n capacity : Int) (sizes : List Int) (i : Nat) : Int :=
  max 0 (n - total_available capacity (sizes.take i))

/-- The count the spec gives bucket `i`: `min(r_i, capacity - sizes[i])`. -/
def spec_count (n capacity : Int) (sizes : List Int) (i : Nat) : Int :=
  min (spec_remaining n capacity sizes i) (capacity - sizes.getD i capacity)

/-- The assignments map of the spec: bucket `i` is present, with `spec_count`, exactly when
that count is positive. -/
def spec_assignment (n capacity : Int) (sizes : List Int) (i : Nat) : Option Int :=
  if i < sizes.length ∧ 0 < spec_count n capacity sizes i then
    some (spec_count n capacity sizes i)
  else none

end algo

/-! ### Messages of the index service -/

/-- The message `Neighbor`: an id and a score (higher is better). -/
structure Neighbor where
  id : Int
  score : Int
deriving DecidableEq, Repr

instance : Inhabited Neighbor := ⟨⟨0, 0⟩⟩

/-- The message `Vector`: a 64-bit id and the raw coordinates (an uninterpreted payload). -/
structure Vector where
  id : Int
  raw : List Int
deriving DecidableEq, Repr

/-- The status codes the services return. -/
inductive StatusCode where
  | OK
  | INVALID_ARGUMENT
  | RESOURCE_EXHAUSTED
  | UNAVAILABLE
deriving DecidableEq, Repr

/-- Conversion of a 64-bit id to the 32-bit `int` key type of the router tables. -/
def to_int (x : Int) : Int := (x + 2 ^ 31) % 2 ^ 32 - 2 ^ 31

/-! ### Association lists for `std::map` and `std::unordered_map` -/

/-- The lookup `m.find(key)`. -/
def map_find {κ β : Type} [DecidableEq κ] (m : List (κ × β)) (key : κ) : Option β :=
  match m with
  | [] => none
  | (k, v) :: rest => if k = key then some v else map_find rest key

/-- The call `m.insert({key, value})`: an existing entry is kept. -/
def map_insert {κ β : Type} [DecidableEq κ] (m : List (κ × β)) (key : κ) (value : β) : List (κ × β) :=
  match m with
  | [] => [(key, value)]
  | (k, v) :: rest => if k = key then (k, v) :: rest else (k, v) :: map_insert rest key value

/-- The assignment `m[key] = value`. -/
def map_set {κ β : Type} [DecidableEq κ] (m : List (κ × β)) (key : κ) (value : β) : List (κ × β) :=
  match m with
  | [] => [(key, value)]
  | (k, v) :: rest => if k = key then (k, value) :: rest else (k, v) :: map_set rest key value

/-- The read `m[key]`, value-initialised to `dflt` when the key is absent. -/
def map_get {κ β : Type} [DecidableEq κ] (m : List (κ × β)) (key : κ) (dflt : β) : β :=
  (map_find m key).getD dflt

/-! ### sharded_index_service.h / .cc -/

/-- The router state: the members of `ShardedIndexServiceImpl` (there are as many shard stubs
as entries of `m_shard_sizes_`). -/
structure ShardedIndexServiceImpl where
  m_dimensions_ : Int
  m_shard_capacity_ : Int
  m_shard_sizes_ : List Int
  m_vector_shard_assignments_ : List (Int × Nat)
deriving DecidableEq, Repr

/-- Outcome of a write RPC to a shard: `true` when the shard, given the batch, answers with an
ok status. -/
abbrev ShardRpc := Nat → List Vector → Bool

/-- The batches sent to the shards, in the order of the calls. -/
abbrev SentBatches := List (Nat × List Vector)

namespace ShardedIndexServiceImpl

/-- The constructor, sharded_index_service.cc lines 39-54: all shards empty, no placement. -/
def init (dimensions : Int) (num_shards : Nat) (shard_capacity : Int) :
    ShardedIndexServiceImpl :=
  { m_dimensions_ := dimensions
    m_shard_capacity_ := shard_capacity
    m_shard_sizes_ := List.replicate num_shards 0
    m_vector_shard_assignments_ := [] }

/-- The comparator `is_score_greater` of Search, lines 360-363. -/
def is_score_greater (first_neighbor second_neighbor : Neighbor) : Bool :=
  decide (first_neighbor.score > second_neighbor.score)

/-- The seeding loop of Search, lines 354-356, with `i + 1` iterations left:
`best_candidates[size - i - 1] = first_shard_neighbors[i]`. -/
def seed_loop (first_shard_neighbors : List Neighbor) :
    Nat → List Neighbor → List Neighbor
  | 0, best_candidates => best_candidates
  | i + 1, best_candidates =>
    seed_loop first_shard_neighbors i
      (best_candidates.set (first_shard_neighbors.length - i - 1)
        (first_shard_neighbors.getD i default))

/-- The array `best_candidates[k]` of Search after seeding (lines 329, 352-356). -/
def seed_best_candidates (k : Nat) (first_shard_neighbors : List Neighbor) : List Neighbor :=
  seed_loop first_shard_neighbors first_shard_neighbors.length (List.replicate k default)

/-- The body of the inner loop of Search, lines 396-405, for one neighbor. -/
def merge_neighbor (k : Nat) (best_candidates : List Neighbor) (neighbor : Neighbor) :
    List Neighbor :=
  let current_worst_candidate := best_candidates.getD 0 default
  if is_score_greater neighbor current_worst_candidate then
    (algo.heap_replace best_candidates k neighbor is_score_greater).2
  else best_candidates

/-- The inner loop of Search, lines 396-405, over the neighbors of one shard response. -/
def merge_shard_neighbors (k : Nat) (best_candidates : List Neighbor)
    (neighbors : List Neighbor) : List Neighbor :=
  neighbors.foldl (merge_neighbor k) best_candidates

/-- The library call `std::sort(first, last, comp)`, by its contract: a permutation of the
range in which no element is `comp`-before an earlier one. -/
def std_sort (comp : Neighbor → Neighbor → Bool) (a : List Neighbor) : List Neighbor :=
  a.insertionSort (fun x y => comp y x = false)

/-- The merge of Search, lines 350-415: seed from the first response, merge the responses of
the other shards, sort the `k` cells and emit them. -/
def search_merge (k : Nat) (first_shard_neighbors : List Neighbor)
    (other_shard_neighbors : List (List Neighbor)) : List Neighbor :=
  let best_candidates := seed_best_candidates k first_shard_neighbors
  let best_candidates := other_shard_neighbors.foldl (merge_shard_neighbors k) best_candidates
  let best_candidates :=
    std_sort is_score_greater (best_candidates.take k) ++ best_candidates.drop k
  best_candidates.take k

/-- The `k` largest scores of a list of candidates, in non-increasing order. -/
def top_scores (k : Nat) (candidates : List Neighbor) : List Int :=
  ((candidates.map Neighbor.score).insertionSort (fun x y => x ≥ y)).take k

/-- Invariant of the merge: `best` has `k` cells, is a min-heap by score, and with the
candidates `R` dropped so far it makes up everything seen, no dropped one beating a kept one. -/
def MergeInv (k : Nat) (best seen : List Neighbor) : Prop :=
  best.length = k ∧ algo.IsHeap is_score_greater best k ∧
  ∃ R : List Neighbor, (best ++ R).Perm seen ∧ ∀ r ∈ R, ∀ h ∈ best, r.score ≤ h.score

/-- The loop `m_vector_shard_assignments_.insert({vector.id(), shard_idx})` over a batch
(Insert lines 173-174, Upsert lines 275-276). -/
def record_assignments (assignments : List (Int × Nat)) (vectors : List Vector)
    (shard_idx : Nat) : List (Int × Nat) :=
  vectors.foldl (fun m vector => map_insert m (to_int vector.id) shard_idx) assignments

/-- The update `m_shard_sizes_[shard_idx] += delta`. -/
def add_to_shard_size (shard_sizes : List Int) (shard_idx : Nat) (delta : Int) : List Int :=
  shard_sizes.set shard_idx (shard_sizes.getD shard_idx 0 + delta)

/-- The loop over `shard_fills` of Insert, lines 125-183; `offset` is the index of the next
request vector. -/
def insert_loop (vectors : List Vector) (shard_insert : ShardRpc) :
    List (Nat × Int) → Nat → ShardedIndexServiceImpl → SentBatches →
      StatusCode × ShardedIndexServiceImpl × SentBatches
  | [], _, self, sent => (StatusCode.OK, self, sent)
  | (shard_idx, num_to_fill) :: shard_fills, offset, self, sent =>
    let allocated := (vectors.drop offset).take num_to_fill.toNat
    let shard_insert_request := allocated.filter
      (fun vector => (map_find self.m_vector_shard_assignments_ (to_int vector.id)).isNone)
    let num_inserted : Int := shard_insert_request.length
    let vector_idx := offset + num_to_fill.toNat
    let sent := sent ++ [(shard_idx, shard_insert_request)]
    if shard_insert shard_idx shard_insert_request = false then
      (StatusCode.UNAVAILABLE, self, sent)
    else
      let self :=
        if num_inserted ≠ 0 then
          { self with
            m_shard_sizes_ := add_to_shard_size self.m_shard_sizes_ shard_idx num_inserted
            m_vector_shard_assignments_ :=
              record_assignments self.m_vector_shard_assignments_ shard_insert_request
                shard_idx }
        else self
      insert_loop vectors shard_insert shard_fills vector_idx self sent

/-- The handler `ShardedIndexServiceImpl::Insert`, lines 93-186: the status, the state after
the call and the batches sent. -/
def Insert (self : ShardedIndexServiceImpl) (vectors : List Vector) (shard_insert : ShardRpc) :
    StatusCode × ShardedIndexServiceImpl × SentBatches :=
  let greedy_fill_result :=
    algo.greedy_fill vectors.length self.m_shard_capacity_ self.m_shard_sizes_
  let num_unallocated_vectors := greedy_fill_result.1
  let shard_fills := greedy_fill_result.2
  if num_unallocated_vectors ≠ 0 then (StatusCode.RESOURCE_EXHAUSTED, self, [])
  else insert_loop vectors shard_insert shard_fills 0 self []

/-- The first loop of Upsert, lines 202-214: vectors with a placement go to the request of
their shard, the others to `new_vectors`. -/
def upsert_split (assignments : List (Int × Nat)) :
    List Vector → SentBatches → List Vector → SentBatches × List Vector
  | [], shard_upsert_requests, new_vectors => (shard_upsert_requests, new_vectors)
  | vector :: vectors, shard_upsert_requests, new_vectors =>
    match map_find assignments (to_int vector.id) with
    | some shard_idx =>
      upsert_split assignments vectors
        (map_set shard_upsert_requests shard_idx
          (map_get shard_upsert_requests shard_idx [] ++ [vector]))
        new_vectors
    | none =>
      upsert_split assignments vectors shard_upsert_requests (new_vectors ++ [vector])

/-- The loop over `shard_fills` of Upsert, lines 237-254: returns `shard_upsert_requests` and
`shards_num_inserted`. -/
def upsert_assign (new_vectors : List Vector) :
    List (Nat × Int) → Nat → SentBatches → List (Nat × Int) → SentBatches × List (Nat × Int)
  | [], _, shard_upsert_requests, shards_num_inserted =>
    (shard_upsert_requests, shards_num_inserted)
  | (shard_idx, num_to_fill) :: shard_fills, offset, shard_upsert_requests,
      shards_num_inserted =>
    let allocated := (new_vectors.drop offset).take num_to_fill.toNat
    let vector_idx := offset + num_to_fill.toNat
    upsert_assign new_vectors shard_fills vector_idx
      (map_set shard_upsert_requests shard_idx
        (map_get shard_upsert_requests shard_idx [] ++ allocated))
      (map_set shards_num_inserted shard_idx num_to_fill)

/-- The loop over `shard_upsert_requests` of Upsert, lines 256-296, in the order given. -/
def upsert_loop (shard_upsert : ShardRpc) (shards_num_inserted : List (Nat × Int)) :
    SentBatches → ShardedIndexServiceImpl → SentBatches →
      StatusCode × ShardedIndexServiceImpl × SentBatches
  | [], self, sent => (StatusCode.OK, self, sent)
  | (shard_idx, shard_upsert_request) :: requests, self, sent =>
    let sent := sent ++ [(shard_idx, shard_upsert_request)]
    let shard_status_ok := shard_upsert shard_idx shard_upsert_request
    let self :=
      { self with
        m_vector_shard_assignments_ :=
          record_assignments self.m_vector_shard_assignments_ shard_upsert_request shard_idx }
    if shard_status_ok = false then (StatusCode.UNAVAILABLE, self, sent)
    else
      let self :=
        { self with
          m_shard_sizes_ := add_to_shard_size self.m_shard_sizes_ shard_idx
            (map_get shards_num_inserted shard_idx 0) }
      upsert_loop shard_upsert shards_num_inserted requests self sent

/-- The handler `ShardedIndexServiceImpl::Upsert`, lines 188-299; `iteration_order` is the
order in which the `unordered_map` of per-shard requests is iterated. -/
def Upsert (self : ShardedIndexServiceImpl) (vectors : List Vector) (shard_upsert : ShardRpc)
    (iteration_order : SentBatches → SentBatches) :
    StatusCode × ShardedIndexServiceImpl × SentBatches :=
  let split := upsert_split self.m_vector_shard_assignments_ vectors [] []
  let shard_upsert_requests := split.1
  let new_vectors := split.2
  let greedy_fill_result :=
    algo.greedy_fill new_vectors.length self.m_shard_capacity_ self.m_shard_sizes_
  let num_unassigned_vectors := greedy_fill_result.1
  let shard_fills := greedy_fill_result.2
  if num_unassigned_vectors ≠ 0 then (StatusCode.RESOURCE_EXHAUSTED, self, [])
  else
    let assigned := upsert_assign new_vectors shard_fills 0 shard_upsert_requests []
    upsert_loop shard_upsert assigned.2 (iteration_order assigned.1) self []

/-- A write request to the router together with the behaviour of its environment: the outcome
of the shard RPCs and, for Upsert, the iteration order of the request map. -/
inductive Request where
  | insert (vectors : List Vector) (shard_insert : ShardRpc)
  | upsert (vectors : List Vector) (shard_upsert : ShardRpc)
      (iteration_order : SentBatches → SentBatches)

/-- An iteration order visits every entry of the map exactly once. -/
def Request.ValidOrder : Request → Prop
  | Request.insert _ _ => True
  | Request.upsert _ _ iteration_order => ∀ m, (iteration_order m).Perm m

/-- The router handling one write request. -/
def handle (self : ShardedIndexServiceImpl) :
    Request → StatusCode × ShardedIndexServiceImpl × SentBatches
  | Request.insert vectors shard_insert => self.Insert vectors shard_insert
  | Request.upsert vectors shard_upsert iteration_order =>
    self.Upsert vectors shard_upsert iteration_order

/-- The router state after a sequence of write requests. -/
def run (self : ShardedIndexServiceImpl) (requests : List Request) : ShardedIndexServiceImpl :=
  requests.foldl (fun s request => (s.handle request).2.1) self

/-- Shards whose RPCs all return ok. -/
def healthy : ShardRpc := fun _ _ => true

end ShardedIndexServiceImpl

/-! ### Definitions for Search, the Upsert batches and the shard service -/

namespace ShardedIndexServiceImpl

/-- The oracle of the shard RPCs that comes with a write request. -/
def Request.shard_rpc : Request → ShardRpc
  | Request.insert _ shard_insert => shard_insert
  | Request.upsert _ shard_upsert _ => shard_upsert

/-- The test of the placement table made for a request vector (Insert lines 142-143, Upsert
lines 203-204): true when the id of the vector has no placement. -/
def unplaced (self : ShardedIndexServiceImpl) (vector : Vector) : Bool :=
  (map_find self.m_vector_shard_assignments_ (to_int vector.id)).isNone

/-- The map `shard_upsert_requests` of Upsert when the loop over `shard_fills` is done
(line 255), before any RPC is issued. -/
def upsert_requests (self : ShardedIndexServiceImpl) (vectors : List Vector) : SentBatches :=
  let split := upsert_split self.m_vector_shard_assignments_ vectors [] []
  let shard_fills :=
    (algo.greedy_fill split.2.length self.m_shard_capacity_ self.m_shard_sizes_).2
  (upsert_assign split.2 shard_fills 0 split.1 []).1

/-- The value `num_unassigned_vectors` of Upsert (line 222): the request passes the capacity
check when it is 0. -/
def upsert_unassigned (self : ShardedIndexServiceImpl) (vectors : List Vector) : Int :=
  (algo.greedy_fill (upsert_split self.m_vector_shard_assignments_ vectors [] []).2.length
    self.m_shard_capacity_ self.m_shard_sizes_).1

/-- Number of vectors without a placement in `self` among the batches sent to shard `s`. -/
def num_new_routed (self : ShardedIndexServiceImpl) (sent : SentBatches) (s : Nat) : Int :=
  ((sent.filter (fun b => b.1 = s)).map
    (fun b => ((b.2.filter self.unplaced).length : Int))).sum

/-- The loop of `get_search_shard_idx`, sharded_index_service.h lines 43-46, from index `i`
on. -/
def non_zero_idx_loop : Nat → List Int → List Nat
  | _, [] => []
  | i, size_i :: shard_sizes =>
    if size_i ≠ 0 then i :: non_zero_idx_loop (i + 1) shard_sizes
    else non_zero_idx_loop (i + 1) shard_sizes

/-- The member function `get_search_shard_idx`, sharded_index_service.h lines 41-49. -/
def get_search_shard_idx (self : ShardedIndexServiceImpl) : List Nat :=
  non_zero_idx_loop 0 self.m_shard_sizes_

/-- The value of `std::numeric_limits<float>::max()`, `(2 - 2^-23) * 2^127`. -/
def numeric_limits_float_max : Int := 2 ^ 128 - 2 ^ 104

/-- In the integer model of scores a score stands for the float `-inf` when it lies below the
lowest finite float. -/
def is_neg_infinity (score : Int) : Prop := score < -numeric_limits_float_max

instance (score : Int) : Decidable (is_neg_infinity score) := by
  unfold is_neg_infinity; infer_instance

/-- Outcome of a search RPC to a shard: whether the status is ok, and the neighbors of the
response. -/
abbrev ShardSearch := Nat → Bool × List Neighbor

/-- The loop over the other shards of Search, lines 368-406; `calls` lists the shards a
search RPC was issued to. -/
def search_loop (k : Nat) (shard_search : ShardSearch) :
    List Nat → List Neighbor → List Nat → StatusCode × List Neighbor × List Nat
  | [], best_candidates, calls => (StatusCode.OK, best_candidates, calls)
  | shard_idx :: search_shard_idx, best_candidates, calls =>
    let shard_search_response := shard_search shard_idx
    let calls := calls ++ [shard_idx]
    if shard_search_response.1 = false then (StatusCode.UNAVAILABLE, best_candidates, calls)
    else
      search_loop k shard_search search_shard_idx
        (merge_shard_neighbors k best_candidates shard_search_response.2) calls

/-- The handler `ShardedIndexServiceImpl::Search`, lines 301-418, for a request with
`k ≥ 0`: the status, the neighbors of the response and the shards a search RPC was issued
to, in order. -/
def Search (self : ShardedIndexServiceImpl) (k : Nat) (shard_search : ShardSearch) :
    StatusCode × List Neighbor × List Nat :=
  let search_shard_idx := self.get_search_shard_idx
  if search_shard_idx.length = 0 then
    (StatusCode.OK, List.replicate k ⟨-1, -numeric_limits_float_max⟩, [])
  else
    let first_shard_search_response := shard_search 0
    let first_shard_neighbors := first_shard_search_response.2
    let best_candidates := seed_best_candidates k first_shard_neighbors
    let merged := search_loop k shard_search (search_shard_idx.drop 1) best_candidates [0]
    if merged.1 = StatusCode.UNAVAILABLE then (StatusCode.UNAVAILABLE, [], merged.2.2)
    else
      let best_candidates :=
        std_sort is_score_greater (merged.2.1.take k) ++ merged.2.1.drop k
      (StatusCode.OK, best_candidates.take k, merged.2.2)

end ShardedIndexServiceImpl

/-! ### faiss_index_service.h / .cc -/

/-- The shard state: the members of `FaissIndexServiceImpl`. The faiss index is the list of
its (id, vector) entries in insertion order; `m_ids_seen_` is an `unordered_set<int>`. -/
structure FaissIndexServiceImpl where
  m_dimensions_ : Int
  m_index_ : List (Int × List Int)
  m_ids_seen_ : List Int
deriving DecidableEq, Repr

namespace FaissIndexServiceImpl

/-- The loop of the shard Insert, faiss_index_service.cc lines 72-94: returns the status, the
set `m_ids_seen_` and the staged `ids` with their `vectors`. -/
def insert_loop (m_dimensions_ : Int) :
    List Vector → List Int → List (Int × List Int) →
      StatusCode × List Int × List (Int × List Int)
  | [], ids_seen, staged => (StatusCode.OK, ids_seen, staged)
  | vector_ :: vectors, ids_seen, staged =>
    if (vector_.raw.length : Int) ≠ m_dimensions_ then
      (StatusCode.INVALID_ARGUMENT, ids_seen, staged)
    else if to_int vector_.id ∉ ids_seen then
      insert_loop m_dimensions_ vectors (ids_seen ++ [to_int vector_.id])
        (staged ++ [(vector_.id, vector_.raw)])
    else insert_loop m_dimensions_ vectors ids_seen staged

/-- The handler `FaissIndexServiceImpl::Insert`, lines 60-99; `add_with_ids` appends the
staged entries to the index. -/
def Insert (self : FaissIndexServiceImpl) (vectors : List Vector) :
    StatusCode × FaissIndexServiceImpl :=
  let looped := insert_loop self.m_dimensions_ vectors self.m_ids_seen_ []
  if looped.1 = StatusCode.INVALID_ARGUMENT then
    (StatusCode.INVALID_ARGUMENT, { self with m_ids_seen_ := looped.2.1 })
  else
    (StatusCode.OK,
      { self with m_ids_seen_ := looped.2.1, m_index_ := self.m_index_ ++ looped.2.2 })

/-- The outcome of an insert RPC served by the shard `shard`: ok exactly when its Insert
handler returns OK. -/
def insert_ok (shard : FaissIndexServiceImpl) : ShardRpc :=
  fun _ vectors => decide ((shard.Insert vectors).1 = StatusCode.OK)

end FaissIndexServiceImpl

namespace ShardedIndexServiceImpl

/-- The new vectors that the loop over `shard_fills` of Upsert (lines 248-250) copies into the
request of shard `s`, the first fill starting at `offset`. -/
def slices_for (new_vectors : List Vector) : List (Nat × Int) → Nat → Nat → List Vector
  | [], _, _ => []
  | (shard_idx, num_to_fill) :: shard_fills, offset, s =>
    (if shard_idx = s then (new_vectors.drop offset).take num_to_fill.toNat else []) ++
      slices_for new_vectors shard_fills (offset + num_to_fill.toNat) s

end ShardedIndexServiceImpl

namespace ShardedIndexServiceImpl

/-- The consecutive slices of the request that `shard_fills` cuts, the first starting at
`offset`: for each fill the shard index and the next `num_to_fill` request vectors. -/
def insert_slices (vectors : List Vector) : List (Nat × Int) → Nat → SentBatches
  | [], _ => []
  | (shard_idx, num_to_fill) :: shard_fills, offset =>
    (shard_idx, (vectors.drop offset).take num_to_fill.toNat) ::
      insert_slices vectors shard_fills (offset + num_to_fill.toNat)

end ShardedIndexServiceImpl

/-! ### The shard Upsert and Describe, the router Describe, and the cluster -/

namespace FaissIndexServiceImpl

/-- The loop of the shard Upsert, faiss_index_service.cc lines 117-134: returns the status,
`ids_to_update` and the staged `ids` with their `vectors`. The set `m_ids_seen_` is only
read. -/
def upsert_loop (m_dimensions_ : Int) (m_ids_seen_ : List Int) :
    List Vector → List Int → List (Int × List Int) →
      StatusCode × List Int × List (Int × List Int)
  | [], ids_to_update, staged => (StatusCode.OK, ids_to_update, staged)
  | vector_ :: vectors, ids_to_update, staged =>
    if (vector_.raw.length : Int) ≠ m_dimensions_ then
      (StatusCode.INVALID_ARGUMENT, ids_to_update, staged)
    else
      let ids_to_update :=
        if to_int vector_.id ∈ m_ids_seen_ then ids_to_update ++ [vector_.id]
        else ids_to_update
      upsert_loop m_dimensions_ m_ids_seen_ vectors ids_to_update
        (staged ++ [(vector_.id, vector_.raw)])

/-- The call `m_ids_seen_.insert(ids.begin(), ids.end())` of line 136: each id is converted
to the key type `int`; a key already present is kept once. -/
def ids_seen_insert (m_ids_seen_ : List Int) (ids : List Int) : List Int :=
  ids.foldl (fun seen id => if to_int id ∈ seen then seen else seen ++ [to_int id])
    m_ids_seen_

/-- The library call `m_index_->remove_ids(IDSelectorBatch(ids))`, by its contract: every
entry whose id is one of `ids` leaves the index. -/
def remove_ids (m_index_ : List (Int × List Int)) (ids : List Int) : List (Int × List Int) :=
  m_index_.filter (fun entry => decide (entry.1 ∉ ids))

/-- The handler `FaissIndexServiceImpl::Upsert`, lines 101-150. -/
def Upsert (self : FaissIndexServiceImpl) (vectors : List Vector) :
    StatusCode × FaissIndexServiceImpl :=
  let looped := upsert_loop self.m_dimensions_ self.m_ids_seen_ vectors [] []
  if looped.1 = StatusCode.INVALID_ARGUMENT then (StatusCode.INVALID_ARGUMENT, self)
  else
    (StatusCode.OK,
      { self with
        m_ids_seen_ := ids_seen_insert self.m_ids_seen_ (looped.2.2.map Prod.fst)
        m_index_ := remove_ids self.m_index_ looped.2.1 ++ looped.2.2 })

/-- The handler `FaissIndexServiceImpl::Describe`, lines 50-58: the status, `dimensions` and
`num_vectors` (the value `ntotal` of the index). -/
def Describe (self : FaissIndexServiceImpl) : StatusCode × Int × Int :=
  (StatusCode.OK, self.m_dimensions_, self.m_index_.length)

end FaissIndexServiceImpl

/-- Outcome of a describe RPC to a shard: whether the status is ok, and `num_vectors` of the
response. -/
abbrev ShardDescribe := Nat → Bool × Int

namespace ShardedIndexServiceImpl

/-- The loop over the shard stubs of Describe, lines 63-85. -/
def describe_loop (shard_describe : ShardDescribe) : List Nat → Int → StatusCode × Int
  | [], total_num_vectors => (StatusCode.OK, total_num_vectors)
  | shard_idx :: shards, total_num_vectors =>
    let describe_response := shard_describe shard_idx
    if describe_response.1 = false then (StatusCode.UNAVAILABLE, total_num_vectors)
    else describe_loop shard_describe shards (total_num_vectors + describe_response.2)

/-- The handler `ShardedIndexServiceImpl::Describe`, lines 56-91: the status, `dimensions`
and `num_vectors` of the response (both left at 0 when a shard is unhealthy). -/
def Describe (self : ShardedIndexServiceImpl) (shard_describe : ShardDescribe) :
    StatusCode × Int × Int :=
  let looped := describe_loop shard_describe (List.range self.m_shard_sizes_.length) 0
  if looped.1 = StatusCode.UNAVAILABLE then (StatusCode.UNAVAILABLE, 0, 0)
  else (StatusCode.OK, self.m_dimensions_, looped.2)

end ShardedIndexServiceImpl

/-- The router together with the shard services behind its stubs: the stub `shard_idx` of
the router reaches `shards[shard_idx]`. -/
structure Cluster where
  router : ShardedIndexServiceImpl
  shards : List FaissIndexServiceImpl
deriving DecidableEq, Repr

namespace Cluster

/-- The upsert RPC of the router when the transport is healthy: the status is the one of the
Upsert handler of the shard. A router Upsert calls each shard at most once (its requests are
the entries of a map keyed by shard), so the shard answers from its state before the router
request. -/
def shard_upsert (shards : List FaissIndexServiceImpl) : ShardRpc :=
  fun shard_idx vectors =>
    match shards.get? shard_idx with
    | some shard => decide ((shard.Upsert vectors).1 = StatusCode.OK)
    | none => false

/-- The shards after they have served the upsert batches sent to them. -/
def serve_upserts (shards : List FaissIndexServiceImpl) (sent : SentBatches) :
    List FaissIndexServiceImpl :=
  sent.foldl
    (fun shards batch =>
      match shards.get? batch.1 with
      | some shard => shards.set batch.1 (shard.Upsert batch.2).2
      | none => shards)
    shards

/-- A router Upsert served by the cluster: the status and the cluster afterwards. -/
def Upsert (self : Cluster) (vectors : List Vector)
    (iteration_order : SentBatches → SentBatches) : StatusCode × Cluster :=
  let routed := self.router.Upsert vectors (shard_upsert self.shards) iteration_order
  (routed.1, { router := routed.2.1, shards := serve_upserts self.shards routed.2.2 })

/-- The describe RPC of the router when the transport is healthy. -/
def shard_describe (shards : List FaissIndexServiceImpl) : ShardDescribe :=
  fun shard_idx =>
    match shards.get? shard_idx with
    | some shard => (decide (shard.Describe.1 = StatusCode.OK), shard.Describe.2.2)
    | none => (false, 0)

/-- A router Describe served by the cluster. -/
def Describe (self : Cluster) : StatusCode × Int × Int :=
  self.router.Describe (shard_describe self.shards)

/-- The cluster at start: the router of the constructor and `num_shards` empty shards. -/
def init (dimensions : Int) (num_shards : Nat) (shard_capacity : Int) : Cluster :=
  { router := ShardedIndexServiceImpl.init dimensions num_shards shard_capacity
    shards := List.replicate num_shards ⟨dimensions, [], []⟩ }

end Cluster

namespace ShardedIndexServiceImpl

/-- The commit of one batch by Insert, lines 170-182: when the batch is not empty, the size
of the shard grows by its length and its ids are recorded for the shard. -/
def commit_batch (self : ShardedIndexServiceImpl) (shard_idx : Nat)
    (shard_insert_request : List Vector) : ShardedIndexServiceImpl :=
  let num_inserted : Int := shard_insert_request.length
  if num_inserted ≠ 0 then
    { self with
      m_shard_sizes_ := add_to_shard_size self.m_shard_sizes_ shard_idx num_inserted
      m_vector_shard_assignments_ :=
        record_assignments self.m_vector_shard_assignments_ shard_insert_request shard_idx }
  else self

end ShardedIndexServiceImpl

/-! ## Part II. Theorems -/

/-! ### greedy_fill -/

namespace algo

theorem total_available_cons (c s : Int) (l : List Int) :
    total_available c (s :: l) = (c - s) + total_available c l := by
  simp [total_available]

theorem total_available_nonneg (c : Int) (l : List Int) (h : ∀ s ∈ l, s ≤ c) :
    0 ≤ total_available c l := by
  induction l with
  | nil => simp [total_available]
  | cons s l ih =>
    rw [total_available_cons]
    have h1 := h s (by simp)
    have h2 := ih (fun x hx => h x (by simp [hx]))
    omega

theorem greedy_fill_loop_keys (c : Int) (sizes : List Int) :
    ∀ (i0 : Nat) (left : Int) (p : Nat × Int),
      p ∈ (greedy_fill_loop c i0 sizes left).2 → i0 ≤ p.1 ∧ p.1 < i0 + sizes.length := by
  induction sizes with
  | nil => intro i0 left p hp; simp [greedy_fill_loop] at hp
  | cons s rest ih =>
    intro i0 left p hp
    simp only [greedy_fill_loop] at hp
    split at hp
    · split at hp
      · simp at hp; subst hp; simp
      · simp only [List.mem_cons] at hp
        rcases hp with hp | hp
        · subst hp; simp
        · have := ih _ _ _ hp
          simp only [List.length_cons]; omega
    · have := ih _ _ _ hp
      simp only [List.length_cons]; omega

theorem greedy_fill_loop_sorted (c : Int) (sizes : List Int) :
    ∀ (i0 : Nat) (left : Int),
      ((greedy_fill_loop c i0 sizes left).2.map Prod.fst).Sorted (· < ·) := by
  induction sizes with
  | nil => intro i0 left; simp [greedy_fill_loop]
  | cons s rest ih =>
    intro i0 left
    simp only [greedy_fill_loop]
    split
    · split
      · simp
      · simp only [List.map_cons, List.sorted_cons]
        refine ⟨?_, ih _ _⟩
        intro b hb
        rcases List.mem_map.1 hb with ⟨p, hp, rfl⟩
        have := (greedy_fill_loop_keys c rest _ _ p hp).1
        omega
    · exact ih _ _

theorem lookup_eq_none_of_keys {l : List (Nat × Int)} {i : Nat}
    (h : ∀ p ∈ l, p.1 ≠ i) : l.lookup i = none := by
  induction l with
  | nil => rfl
  | cons p l ih =>
    obtain ⟨k, v⟩ := p
    have hk : k ≠ i := h (k, v) (by simp)
    have : (i == k) = false := by simp; exact fun e => hk e.symm
    simp only [List.lookup_cons, this]
    exact ih (fun q hq => h q (by simp [hq]))

theorem greedy_fill_loop_spec (c : Int) (sizes : List Int) :
    ∀ (i0 : Nat) (left : Int), 0 < left → (∀ s ∈ sizes, s ≤ c) →
      (greedy_fill_loop c i0 sizes left).1 = max 0 (left - total_available c sizes) ∧
      ∀ j, (greedy_fill_loop c i0 sizes left).2.lookup (i0 + j) =
        spec_assignment left c sizes j := by
  induction sizes with
  | nil =>
    intro i0 left hl _
    simp [greedy_fill_loop, total_available, spec_assignment]
    omega
  | cons s rest ih =>
    intro i0 left hl hs
    have hsc : s ≤ c := hs s (by simp)
    have hrest : ∀ x ∈ rest, x ≤ c := fun x hx => hs x (by simp [hx])
    have hta := total_available_nonneg c rest hrest
    simp only [greedy_fill_loop, total_available_cons]
    split
    · rename_i hav
      split
      · rename_i hz
        refine ⟨by omega, ?_⟩
        intro j
        cases j with
        | zero =>
          simp [spec_assignment, spec_count, spec_remaining, total_available]
          omega
        | succ j =>
          have : (i0 + (j + 1) == i0) = false := by simp
          simp only [List.lookup_cons, this, List.lookup_nil]
          simp only [spec_assignment, spec_count, spec_remaining, List.take_succ_cons,
            total_available_cons, List.length_cons, List.getD_cons_succ]
          have h3 := total_available_nonneg c (rest.take j)
            (fun x hx => hrest x (List.mem_of_mem_take hx))
          rw [if_neg]
          intro h
          omega
      · rename_i hz
        have hl' : 0 < left - min left (c - s) := by omega
        obtain ⟨ih1, ih2⟩ := ih (i0 + 1) _ hl' hrest
        refine ⟨by rw [ih1]; omega, ?_⟩
        intro j
        cases j with
        | zero =>
          simp [spec_assignment, spec_count, spec_remaining, total_available]
          omega
        | succ j =>
          have : (i0 + (j + 1) == i0) = false := by simp
          simp only [List.lookup_cons, this]
          have e : i0 + (j + 1) = i0 + 1 + j := by omega
          rw [e, ih2 j]
          simp only [spec_assignment, spec_count, spec_remaining, List.take_succ_cons,
            total_available_cons, List.length_cons, List.getD_cons_succ]
          have h3 := total_available_nonneg c (rest.take j)
            (fun x hx => hrest x (List.mem_of_mem_take hx))
          have e2 : max 0 (left - min left (c - s) - total_available c (List.take j rest))
              = max 0 (left - (c - s + total_available c (List.take j rest))) := by omega
          rw [e2]
          simp only [Nat.add_lt_add_iff_right]
    · rename_i hav
      have hcs : c - s = 0 := by omega
      obtain ⟨ih1, ih2⟩ := ih (i0 + 1) _ hl hrest
      refine ⟨by rw [ih1, hcs, zero_add], ?_⟩
      intro j
      cases j with
      | zero =>
        rw [lookup_eq_none_of_keys]
        · simp only [spec_assignment, spec_count, spec_remaining, List.getD_cons_zero]
          rw [if_neg]
          intro h
          omega
        · intro p hp
          have := (greedy_fill_loop_keys c rest _ _ p hp).1
          omega
      | succ j =>
        have e : i0 + (j + 1) = i0 + 1 + j := by omega
        rw [e, ih2 j]
        simp only [spec_assignment, spec_count, spec_remaining, List.take_succ_cons,
          total_available_cons, List.length_cons, List.getD_cons_succ, hcs, zero_add]
        simp only [Nat.add_lt_add_iff_right]

theorem greedy_fill_loop_fits (c : Int) (sizes : List Int) :
    ∀ (i0 : Nat) (left : Int) (p : Nat × Int), p ∈ (greedy_fill_loop c i0 sizes left).2 →
      i0 ≤ p.1 ∧ p.1 - i0 < sizes.length ∧ sizes.getD (p.1 - i0) 0 + p.2 ≤ c := by
  induction sizes with
  | nil => intro i0 left p hp; simp [greedy_fill_loop] at hp
  | cons s rest ih =>
    intro i0 left p hp
    have hrec : ∀ left' : Int, p ∈ (greedy_fill_loop c (i0 + 1) rest left').2 →
        i0 ≤ p.1 ∧ p.1 - i0 < (s :: rest).length ∧
          (s :: rest).getD (p.1 - i0) 0 + p.2 ≤ c := by
      intro left' hp'
      obtain ⟨h1, h2, h3⟩ := ih _ _ _ hp'
      have e : p.1 - i0 = (p.1 - (i0 + 1)) + 1 := by omega
      refine ⟨by omega, by simp only [List.length_cons]; omega, ?_⟩
      rw [e, List.getD_cons_succ]
      exact h3
    have hhead : p = (i0, min left (c - s)) →
        i0 ≤ p.1 ∧ p.1 - i0 < (s :: rest).length ∧
          (s :: rest).getD (p.1 - i0) 0 + p.2 ≤ c := by
      intro e
      subst e
      refine ⟨le_refl _, by simp, ?_⟩
      simp only [Nat.sub_self, List.getD_cons_zero]
      omega
    simp only [greedy_fill_loop] at hp
    split at hp
    · split at hp
      · simp only [List.mem_singleton] at hp
        exact hhead hp
      · simp only [List.mem_cons] at hp
        rcases hp with hp | hp
        · exact hhead hp
        · exact hrec _ hp
    · exact hrec _ hp

theorem greedy_fill_loop_pos (c : Int) (sizes : List Int) :
    ∀ (i0 : Nat) (left : Int), 0 < left → (∀ s ∈ sizes, s ≤ c) →
      ∀ p ∈ (greedy_fill_loop c i0 sizes left).2, 0 < p.2 := by
  induction sizes with
  | nil => intro i0 left _ _ p hp; simp [greedy_fill_loop] at hp
  | cons s rest ih =>
    intro i0 left hl hs p hp
    have hsc : s ≤ c := hs s (by simp)
    have hrest : ∀ x ∈ rest, x ≤ c := fun x hx => hs x (by simp [hx])
    simp only [greedy_fill_loop] at hp
    split at hp
    · rename_i hav
      split at hp
      · simp only [List.mem_singleton] at hp
        subst hp
        show 0 < min left (c - s)
        omega
      · rename_i hz
        simp only [List.mem_cons] at hp
        rcases hp with hp | hp
        · subst hp
          show 0 < min left (c - s)
          omega
        · exact ih _ _ (by omega) hrest p hp
    · exact ih _ _ hl hrest p hp

theorem greedy_fill_keys_sorted (n capacity : Int) (sizes : List Int) :
    ((greedy_fill n capacity sizes).2.map Prod.fst).Sorted (fun x y => x < y) := by
  simp only [greedy_fill]
  split
  · simp
  · exact greedy_fill_loop_sorted capacity sizes 0 n

theorem greedy_fill_fits (n capacity : Int) (sizes : List Int) :
    ∀ p ∈ (greedy_fill n capacity sizes).2,
      p.1 < sizes.length ∧ sizes.getD p.1 0 + p.2 ≤ capacity := by
  intro p hp
  simp only [greedy_fill] at hp
  split at hp
  · simp at hp
  · have := greedy_fill_loop_fits capacity sizes 0 n p hp
    simpa using this.2

theorem greedy_fill_pos (n capacity : Int) (sizes : List Int) (hn : 0 ≤ n)
    (hs : ∀ s ∈ sizes, s ≤ capacity) :
    ∀ p ∈ (greedy_fill n capacity sizes).2, 0 < p.2 := by
  intro p hp
  simp only [greedy_fill] at hp
  split at hp
  · simp at hp
  · rename_i h0
    exact greedy_fill_loop_pos capacity sizes 0 n (by omega) hs p hp

theorem greedy_fill_leftover (n capacity : Int) (sizes : List Int) (hn : 0 ≤ n)
    (hs : ∀ s ∈ sizes, s ≤ capacity) :
    (greedy_fill n capacity sizes).1 = max 0 (n - total_available capacity sizes) := by
  simp only [greedy_fill]
  split
  · rename_i h0
    have := total_available_nonneg capacity sizes hs
    show (0 : Int) = max 0 (n - total_available capacity sizes)
    omega
  · rename_i h0
    exact (greedy_fill_loop_spec capacity sizes 0 n (by omega) hs).1

theorem greedy_fill_lookup (n capacity : Int) (sizes : List Int) (hn : 0 ≤ n)
    (hs : ∀ s ∈ sizes, s ≤ capacity) (i : Nat) :
    (greedy_fill n capacity sizes).2.lookup i = spec_assignment n capacity sizes i := by
  simp only [greedy_fill]
  split
  · rename_i h0
    have := total_available_nonneg capacity (sizes.take i)
      (fun x hx => hs x (List.mem_of_mem_take hx))
    simp only [List.lookup_nil, spec_assignment, spec_count, spec_remaining]
    rw [if_neg]
    intro h
    omega
  · rename_i h0
    have := (greedy_fill_loop_spec capacity sizes 0 n (by omega) hs).2 i
    simpa using this

/-- C2: for n ≥ 0 and sizes that do not exceed the capacity, greedy_fill returns
leftover = max(0, n - sum_i (capacity - sizes[i])) and an assignments map, with ascending
keys, that holds bucket i with count min(r_i, capacity - sizes[i]) exactly when that count is
positive, r_i being what remains after buckets 0..i-1; fill(20, 8, [4,1,5]) is
(6, {0:4, 1:7, 2:3}). -/
theorem greedy_fill_spec (n capacity : Int) (sizes : List Int) (hn : 0 ≤ n)
    (hs : ∀ s ∈ sizes, s ≤ capacity) :
    (greedy_fill n capacity sizes).1 = max 0 (n - total_available capacity sizes) ∧
    ((greedy_fill n capacity sizes).2.map Prod.fst).Sorted (fun x y => x < y) ∧
    (∀ i, (greedy_fill n capacity sizes).2.lookup i = spec_assignment n capacity sizes i) ∧
    greedy_fill 20 8 [4, 1, 5] = (6, [(0, 4), (1, 7), (2, 3)]) :=
  ⟨greedy_fill_leftover n capacity sizes hn hs, greedy_fill_keys_sorted n capacity sizes,
    greedy_fill_lookup n capacity sizes hn hs, by decide⟩

theorem greedy_fill_spec_witness :
    (greedy_fill 20 8 [8, 1, 5]).1 = max 0 (20 - total_available 8 [8, 1, 5]) ∧
    (greedy_fill 20 8 [8, 1, 5]).2.lookup 0 = spec_assignment 20 8 [8, 1, 5] 0 ∧
    (greedy_fill 20 8 [8, 1, 5]).2.lookup 1 = spec_assignment 20 8 [8, 1, 5] 1 ∧
    greedy_fill 20 8 [8, 1, 5] = (10, [(1, 7), (2, 3)]) :=
  have h := greedy_fill_spec 20 8 [8, 1, 5] (by decide) (by decide)
  ⟨h.1, h.2.2.1 0, h.2.2.1 1, by decide⟩

/-- C3 (defect of the code): an over-full bucket (capacity - sizes[i] < 0) passes the test
`if (available_capacity)` and enters the assignments with a negative count:
greedy_fill(1, 1, [2]) returns leftover 2 and assignments {0: -1}. -/
theorem greedy_fill_overfull_bucket :
    greedy_fill 1 1 [2] = (2, [(0, -1)]) ∧
    ¬ (∀ p ∈ (greedy_fill 1 1 [2]).2, 0 < p.2 ∧ 0 < 1 - [(2 : Int)].getD p.1 0) := by
  decide

/-- C4: every entry (i, c) of the assignments returned by greedy_fill names a bucket of the
input and satisfies sizes[i] + c ≤ capacity, for every n, capacity and sizes. -/
theorem greedy_fill_within_capacity (n capacity : Int) (sizes : List Int) (i : Nat) (c : Int)
    (h : (i, c) ∈ (greedy_fill n capacity sizes).2) :
    i < sizes.length ∧ sizes.getD i 0 + c ≤ capacity :=
  greedy_fill_fits n capacity sizes (i, c) h

theorem greedy_fill_within_capacity_witness :
    (1, 7) ∈ (greedy_fill 20 8 [4, 1, 5]).2 ∧
    1 < [(4 : Int), 1, 5].length ∧ [(4 : Int), 1, 5].getD 1 0 + 7 ≤ 8 :=
  ⟨by decide, greedy_fill_within_capacity 20 8 [4, 1, 5] 1 7 (by decide)⟩

end algo

/-! ### heap_replace -/


theorem getD_set_default {T : Type} [Inhabited T] (a : List T) (i k : Nat) (x : T) (hi : i < a.length) :
    (a.set i x).getD k default = if k = i then x else a.getD k default := by
  simp only [List.getD_eq_getElem?_getD, List.getElem?_set]
  by_cases h : k = i
  · subst h; simp [hi]
  · have : ¬ i = k := fun e => h e.symm
    simp [h, this]

theorem length_swap {T : Type} [Inhabited T] (a : List T) (i j : Nat) : (swap a i j).length = a.length := by
  simp [swap]

theorem getD_swap {T : Type} [Inhabited T] (a : List T) (i j k : Nat) (hi : i < a.length) (hj : j < a.length) :
    (swap a i j).getD k default =
      if k = j then a.getD i default else if k = i then a.getD j default
      else a.getD k default := by
  simp only [swap]
  rw [getD_set_default _ _ _ _ (by simpa using hj), getD_set_default _ _ _ _ hi]

theorem cons_set_perm {T : Type} (x : T) : ∀ (t : List T) (j : Nat) (hj : j < t.length),
    (t[j] :: t.set j x).Perm (x :: t) := by
  intro t
  induction t with
  | nil => intro j hj; simp at hj
  | cons b u ih =>
    intro j hj
    cases j with
    | zero => simpa using List.Perm.swap x b u
    | succ k =>
      have hk : k < u.length := by simpa using hj
      simp only [List.set_cons_succ, List.getElem_cons_succ]
      exact ((List.Perm.swap b u[k] (u.set k x)).trans ((ih k hk).cons b)).trans
        (List.Perm.swap x b u)

theorem set_set_perm_lt {T : Type} : ∀ (a : List T) (i j : Nat) (hi : i < a.length) (hj : j < a.length),
    i < j → ((a.set i a[j]).set j a[i]).Perm a := by
  intro a
  induction a with
  | nil => intro i j hi; simp at hi
  | cons b u ih =>
    intro i j hi hj hij
    cases j with
    | zero => omega
    | succ j' =>
      have hj' : j' < u.length := by simpa using hj
      cases i with
      | zero =>
        simp only [List.set_cons_zero, List.set_cons_succ, List.getElem_cons_succ,
          List.getElem_cons_zero]
        exact cons_set_perm b u j' hj'
      | succ i' =>
        have hi' : i' < u.length := by simpa using hi
        simp only [List.set_cons_succ, List.getElem_cons_succ]
        exact (ih i' j' hi' hj' (by omega)).cons b

theorem swap_perm {T : Type} [Inhabited T] (a : List T) (i j : Nat) (hi : i < a.length) (hj : j < a.length) :
    (swap a i j).Perm a := by
  simp only [swap, List.getD_eq_getElem?_getD, List.getElem?_eq_getElem hi,
    List.getElem?_eq_getElem hj, Option.getD_some]
  rcases Nat.lt_trichotomy i j with h | h | h
  · exact set_set_perm_lt a i j hi hj h
  · subst h
    have e : a.set i a[i] = a := by
      apply List.ext_getElem (by simp)
      intro n h1 h2
      simp only [List.getElem_set]
      split
      · rename_i h3; subst h3; rfl
      · rfl
    simp only [List.set_set, e]
    exact List.Perm.refl a
  · rw [List.set_comm _ _ _ (by omega)]
    exact set_set_perm_lt a j i hj hi h


namespace algo

theorem StrictWeak.irrefl {T : Type} {compare : T → T → Bool} (h : StrictWeak compare) (x : T) :
    compare x x = false := by
  cases hx : compare x x with
  | false => rfl
  | true => have := h.1 x x hx; rw [hx] at this; exact this

theorem min_child_idx_spec {T : Type} [Inhabited T] (compare : T → T → Bool) (hc : StrictWeak compare) (a : List T)
    (size idx : Nat) (hl : idx * 2 + 1 < size) :
    min_child_idx compare a size idx < size ∧
    (min_child_idx compare a size idx = idx * 2 + 1 ∨
      min_child_idx compare a size idx = idx * 2 + 2) ∧
    ∀ c < size, (c = idx * 2 + 1 ∨ c = idx * 2 + 2) →
      compare (a.getD (min_child_idx compare a size idx) default) (a.getD c default) = false := by
  simp only [min_child_idx]
  by_cases hcond : idx * 2 + 2 ≥ size ∨
      compare (a.getD (idx * 2 + 2) default) (a.getD (idx * 2 + 1) default) = true
  · rw [if_pos hcond]
    refine ⟨hl, Or.inl rfl, ?_⟩
    intro c hcs hc2
    rcases hc2 with rfl | rfl
    · exact hc.irrefl _
    · rcases hcond with h | h
      · omega
      · exact hc.1 _ _ h
  · rw [if_neg hcond]
    have h1 : idx * 2 + 2 < size := by omega
    have h2 : compare (a.getD (idx * 2 + 2) default) (a.getD (idx * 2 + 1) default)
        = false := by
      cases hv : compare (a.getD (idx * 2 + 2) default) (a.getD (idx * 2 + 1) default)
      · rfl
      · exact absurd (Or.inr hv) hcond
    refine ⟨h1, Or.inr rfl, ?_⟩
    intro c hcs hc2
    rcases hc2 with rfl | rfl
    · exact h2
    · exact hc.irrefl _

theorem min_child_idx_lt {T : Type} [Inhabited T] (compare : T → T → Bool) (a : List T)
    (size idx : Nat) (hl : idx * 2 + 1 < size) :
    min_child_idx compare a size idx < size ∧ idx < min_child_idx compare a size idx := by
  simp only [min_child_idx]
  split
  · omega
  · omega

theorem heap_sift_length {T : Type} [Inhabited T] (compare : T → T → Bool) (size : Nat) :
    ∀ (fuel : Nat) (a : List T) (idx : Nat),
      (heap_sift compare size fuel a idx).length = a.length := by
  intro fuel
  induction fuel with
  | zero => intro a idx; rfl
  | succ fuel ih =>
    intro a idx
    simp only [heap_sift]
    split
    · split
      · rfl
      · split
        · rw [ih, length_swap]
        · rfl
    · rfl

theorem heap_sift_perm {T : Type} [Inhabited T] (compare : T → T → Bool) (size : Nat) :
    ∀ (fuel : Nat) (a : List T) (idx : Nat), size ≤ a.length →
      (heap_sift compare size fuel a idx).Perm a := by
  intro fuel
  induction fuel with
  | zero => intro a idx _; exact List.Perm.refl a
  | succ fuel ih =>
    intro a idx hsize
    simp only [heap_sift]
    split
    · rename_i hidx
      split
      · exact List.Perm.refl a
      · rename_i hch
        split
        · have hm := min_child_idx_lt compare a size idx (by omega)
          exact (ih _ _ (by rw [length_swap]; exact hsize)).trans
            (swap_perm a _ _ (by omega) (by omega))
        · exact List.Perm.refl a
    · exact List.Perm.refl a

theorem heap_sift_fuel {T : Type} [Inhabited T] (compare : T → T → Bool) (size : Nat) :
    ∀ (fuel : Nat) (a : List T) (idx : Nat), size ≤ idx + fuel →
      heap_sift compare size (fuel + 1) a idx = heap_sift compare size fuel a idx := by
  intro fuel
  induction fuel with
  | zero =>
    intro a idx hf
    simp only [heap_sift]
    rw [if_neg (by omega)]
  | succ fuel ih =>
    intro a idx hf
    rw [heap_sift, heap_sift]
    by_cases hidx : idx < size
    · simp only [if_pos hidx]
      by_cases hch : idx * 2 + 1 ≥ size ∧ idx * 2 + 2 ≥ size
      · simp only [if_pos hch]
      · simp only [if_neg hch]
        have hm := min_child_idx_lt compare a size idx (by omega)
        rw [ih _ _ (by omega)]
    · simp only [if_neg hidx]

theorem heap_sift_heap {T : Type} [Inhabited T] (compare : T → T → Bool) (hc : StrictWeak compare) (size : Nat) :
    ∀ (fuel : Nat) (a : List T) (idx : Nat), size ≤ idx + fuel → size ≤ a.length →
      HeapExcept compare a size idx → IsHeap compare (heap_sift compare size fuel a idx) size := by
  intro fuel
  induction fuel with
  | zero =>
    intro a idx hf _ hex i hi
    exact hex.1 i hi (by omega)
  | succ fuel ih =>
    intro a idx hf hsize hex
    simp only [heap_sift]
    by_cases hidx : idx < size
    swap
    · rw [if_neg hidx]
      intro i hi
      exact hex.1 i hi (by omega)
    rw [if_pos hidx]
    by_cases hch : idx * 2 + 1 ≥ size ∧ idx * 2 + 2 ≥ size
    · rw [if_pos hch]
      intro i hi
      by_cases hii : i = idx
      · subst hii
        exact ⟨fun h => by omega, fun h => by omega⟩
      · exact hex.1 i hi hii
    rw [if_neg hch]
    have hl : idx * 2 + 1 < size := by omega
    obtain ⟨hmlt, hmch, hmmin⟩ := min_child_idx_spec compare hc a size idx hl
    generalize min_child_idx compare a size idx = m at hmlt hmch hmmin ⊢
    by_cases hcmp : compare (a.getD idx default) (a.getD m default) = true
    · rw [if_pos hcmp]
      have hidxlen : idx < a.length := by omega
      have hmlen : m < a.length := by omega
      apply ih _ _ (by omega) (by rw [length_swap]; exact hsize)
      constructor
      · intro i hi him
        by_cases hii : i = idx
        · subst hii
          constructor
          · intro h1
            rw [getD_swap a _ _ _ hidxlen hmlen, getD_swap a _ _ _ hidxlen hmlen]
            rw [if_neg him, if_pos rfl]
            by_cases hcm : i * 2 + 1 = m
            · rw [if_pos hcm]; exact hc.1 _ _ hcmp
            · rw [if_neg hcm, if_neg (by omega)]
              exact hmmin _ h1 (Or.inl rfl)
          · intro h1
            rw [getD_swap a _ _ _ hidxlen hmlen, getD_swap a _ _ _ hidxlen hmlen]
            rw [if_neg him, if_pos rfl]
            by_cases hcm : i * 2 + 2 = m
            · rw [if_pos hcm]; exact hc.1 _ _ hcmp
            · rw [if_neg hcm, if_neg (by omega)]
              exact hmmin _ h1 (Or.inr rfl)
        · have hi1 := hex.1 i hi hii
          constructor
          · intro h1
            rw [getD_swap a _ _ _ hidxlen hmlen, getD_swap a _ _ _ hidxlen hmlen]
            rw [if_neg him, if_neg hii, if_neg (by omega)]
            by_cases hci : i * 2 + 1 = idx
            · rw [if_pos hci]
              exact hex.2 i hi (Or.inl hci.symm) m hmlt hmch
            · rw [if_neg hci]; exact hi1.1 h1
          · intro h1
            rw [getD_swap a _ _ _ hidxlen hmlen, getD_swap a _ _ _ hidxlen hmlen]
            rw [if_neg him, if_neg hii, if_neg (by omega)]
            by_cases hci : i * 2 + 2 = idx
            · rw [if_pos hci]
              exact hex.2 i hi (Or.inr hci.symm) m hmlt hmch
            · rw [if_neg hci]; exact hi1.2 h1
      · intro p hp hpm c hcs hcc
        have hpidx : p = idx := by omega
        subst hpidx
        rw [getD_swap a _ _ _ hidxlen hmlen, getD_swap a _ _ _ hidxlen hmlen]
        rw [if_neg (by omega), if_pos rfl, if_neg (by omega), if_neg (by omega)]
        have hm1 := hex.1 m hmlt (by omega)
        rcases hcc with rfl | rfl
        · exact hm1.1 hcs
        · exact hm1.2 hcs
    · rw [if_neg hcmp]
      have hcmpf : compare (a.getD idx default) (a.getD m default) = false := by
        cases hv : compare (a.getD idx default) (a.getD m default)
        · rfl
        · exact absurd hv hcmp
      intro i hi
      by_cases hii : i = idx
      · subst hii
        exact ⟨fun h => hc.2 _ _ _ hcmpf (hmmin _ h (Or.inl rfl)),
          fun h => hc.2 _ _ _ hcmpf (hmmin _ h (Or.inr rfl))⟩
      · exact hex.1 i hi hii

theorem heap_root_min {T : Type} [Inhabited T] (compare : T → T → Bool) (hc : StrictWeak compare) (a : List T)
    (size : Nat) (h : IsHeap compare a size) :
    ∀ i < size, compare (a.getD 0 default) (a.getD i default) = false := by
  intro i
  induction i using Nat.strong_induction_on with
  | _ i ih =>
    intro hi
    cases i with
    | zero => exact hc.irrefl _
    | succ n =>
      have hp : n / 2 < size := by omega
      have h0 := ih (n / 2) (by omega) hp
      have hh := h (n / 2) hp
      rcases Nat.mod_two_eq_zero_or_one n with hn | hn
      · have e : n / 2 * 2 + 1 = n + 1 := by omega
        have := hh.1 (by omega)
        rw [e] at this
        exact hc.2 _ _ _ h0 this
      · have e : n / 2 * 2 + 2 = n + 1 := by omega
        have := hh.2 (by omega)
        rw [e] at this
        exact hc.2 _ _ _ h0 this

end algo

namespace algo

theorem heap_replace_length {T : Type} [Inhabited T] (a : List T) (size : Nat) (v : T) (compare : T → T → Bool) :
    (heap_replace a size v compare).2.length = a.length := by
  simp only [heap_replace]
  split
  · rfl
  · simp [heap_sift_length]

theorem heap_replace_perm {T : Type} [Inhabited T] (a : List T) (size : Nat) (v : T) (compare : T → T → Bool)
    (hpos : 0 < size) (hsize : size ≤ a.length) :
    (heap_replace a size v compare).2.Perm (a.set 0 v) := by
  simp only [heap_replace]
  rw [if_neg (by omega)]
  exact heap_sift_perm compare size size _ 0 (by simpa using hsize)

theorem heap_replace_heap {T : Type} [Inhabited T] (a : List T) (size : Nat) (v : T) (compare : T → T → Bool)
    (hc : StrictWeak compare) (hsize : size ≤ a.length) (h : IsHeap compare a size) :
    IsHeap compare (heap_replace a size v compare).2 size := by
  simp only [heap_replace]
  split
  · exact h
  · rename_i hne
    have hlen : 0 < a.length := by omega
    apply heap_sift_heap compare hc size size _ 0 (by omega) (by simpa using hsize)
    constructor
    · intro i hi hi0
      have hh := h i hi
      constructor
      · intro h1
        rw [getD_set_default _ _ _ _ hlen, getD_set_default _ _ _ _ hlen,
          if_neg hi0, if_neg (by omega)]
        exact hh.1 h1
      · intro h1
        rw [getD_set_default _ _ _ _ hlen, getD_set_default _ _ _ _ hlen,
          if_neg hi0, if_neg (by omega)]
        exact hh.2 h1
    · intro p _ hp
      omega


theorem strictWeak_greater {T : Type} [LinearOrder T] :
    StrictWeak (greater : T → T → Bool) := by
  constructor
  · intro x y h
    simp only [greater, decide_eq_true_eq, decide_eq_false_iff_not, not_lt] at *
    exact le_of_lt h
  · intro x y z h1 h2
    simp only [greater, decide_eq_false_iff_not, not_lt] at *
    exact le_trans h1 h2

theorem strictWeak_less {T : Type} [LinearOrder T] :
    StrictWeak (less : T → T → Bool) := by
  constructor
  · intro x y h
    simp only [less, decide_eq_true_eq, decide_eq_false_iff_not, not_lt] at *
    exact le_of_lt h
  · intro x y z h1 h2
    simp only [less, decide_eq_false_iff_not, not_lt] at *
    exact le_trans h2 h1

theorem isMinHeap_iff {T : Type} [LinearOrder T] [Inhabited T] (a : List T) :
    IsMinHeap a ↔ IsHeap greater a a.length := by
  simp only [IsMinHeap, IsHeap, greater, decide_eq_false_iff_not, not_lt]

theorem isMaxHeap_iff {T : Type} [LinearOrder T] [Inhabited T] (a : List T) :
    IsMaxHeap a ↔ IsHeap less a a.length := by
  simp only [IsMaxHeap, IsHeap, less, decide_eq_false_iff_not, not_lt]

/-- C5: heap_replace on an array that satisfies the heap property of the comparator in use
leaves an array that satisfies it again: with the default comparator (std::greater) a min-heap
stays a min-heap, and with std::less a max-heap stays a max-heap. -/
theorem heap_replace_preserves_heap {T : Type} [LinearOrder T] [Inhabited T]
    (a : List T) (v : T) :
    (IsMinHeap a → IsMinHeap (heap_replace_default a a.length v).2) ∧
    (IsMaxHeap a → IsMaxHeap (heap_replace a a.length v less).2) := by
  constructor
  · intro h
    have := heap_replace_heap a a.length v greater strictWeak_greater (le_refl _)
      ((isMinHeap_iff a).1 h)
    rw [isMinHeap_iff, heap_replace_default, heap_replace_length]
    exact this
  · intro h
    have := heap_replace_heap a a.length v less strictWeak_less (le_refl _)
      ((isMaxHeap_iff a).1 h)
    rw [isMaxHeap_iff, heap_replace_length]
    exact this

theorem heap_replace_preserves_heap_witness :
    IsMinHeap [(1 : Int), 2, 3] ∧ IsMinHeap (heap_replace_default [(1 : Int), 2, 3] 3 4).2 ∧
    (heap_replace_default [(1 : Int), 2, 3] 3 4).2 = [2, 4, 3] ∧
    IsMaxHeap [(3 : Int), 2, 1] ∧ IsMaxHeap (heap_replace [(3 : Int), 2, 1] 3 1 less).2 ∧
    (heap_replace [(3 : Int), 2, 1] 3 1 less).2 = [2, 1, 1] :=
  ⟨by decide, (heap_replace_preserves_heap [(1 : Int), 2, 3] 4).1 (by decide), by decide,
   by decide, (heap_replace_preserves_heap [(3 : Int), 2, 1] 1).2 (by decide), by decide⟩

end algo


/-! ### The top-k merge of Search -/

namespace ShardedIndexServiceImpl

theorem strictWeak_is_score_greater : algo.StrictWeak is_score_greater := by
  constructor
  · intro x y h
    simp only [is_score_greater, decide_eq_true_eq, decide_eq_false_iff_not] at *
    omega
  · intro x y z h1 h2
    simp only [is_score_greater, decide_eq_false_iff_not] at *
    omega

theorem seed_loop_spec (first : List Neighbor) :
    ∀ (c : Nat) (best : List Neighbor), c ≤ first.length → best.length = first.length →
      (seed_loop first c best).length = first.length ∧
      ∀ j < first.length, (seed_loop first c best).getD j default =
        if first.length - c ≤ j then first.getD (first.length - 1 - j) default
        else best.getD j default := by
  intro c
  induction c with
  | zero =>
    intro best _ hb
    refine ⟨hb, ?_⟩
    intro j hj
    rw [if_neg (by omega)]
    rfl
  | succ c ih =>
    intro best hc hb
    simp only [seed_loop]
    obtain ⟨h1, h2⟩ := ih (best.set (first.length - c - 1) (first.getD c default))
      (by omega) (by simpa using hb)
    refine ⟨h1, ?_⟩
    intro j hj
    rw [h2 j hj, getD_set_default _ _ _ _ (by omega)]
    by_cases hjc : first.length - c ≤ j
    · rw [if_pos hjc, if_pos (by omega)]
    · rw [if_neg hjc]
      by_cases hje : j = first.length - c - 1
      · rw [if_pos hje, if_pos (by omega)]
        congr 1
        omega
      · rw [if_neg hje, if_neg (by omega)]

theorem seed_best_candidates_eq_reverse (k : Nat) (first : List Neighbor)
    (hlen : first.length = k) : seed_best_candidates k first = first.reverse := by
  obtain ⟨h1, h2⟩ := seed_loop_spec first first.length (List.replicate k default)
    (le_refl _) (by simp [hlen])
  apply List.ext_getElem (by simpa [seed_best_candidates] using h1)
  intro j hj1 hj2
  have hj : j < first.length := by simpa using hj2
  have := h2 j hj
  rw [if_pos (by omega)] at this
  simp only [seed_best_candidates]
  rw [← List.getD_eq_getElem _ default, this, List.getElem_reverse,
    List.getD_eq_getElem _ default (by omega)]

theorem isHeap_reverse_of_sorted (first : List Neighbor)
    (hsorted : first.Sorted (fun x y => x.score ≥ y.score)) :
    algo.IsHeap is_score_greater first.reverse first.length := by
  have hp : first.reverse.Pairwise (fun x y => x.score ≤ y.score) := by
    rw [List.pairwise_reverse]
    exact hsorted
  rw [List.pairwise_iff_getElem] at hp
  intro i hi
  constructor
  · intro hc
    have := hp i (i * 2 + 1) (by simpa using hi) (by simpa using hc) (by omega)
    rw [List.getD_eq_getElem _ default (by simpa using hi),
      List.getD_eq_getElem _ default (by simpa using hc)]
    simp only [is_score_greater, decide_eq_false_iff_not]
    omega
  · intro hc
    have := hp i (i * 2 + 2) (by simpa using hi) (by simpa using hc) (by omega)
    rw [List.getD_eq_getElem _ default (by simpa using hi),
      List.getD_eq_getElem _ default (by simpa using hc)]
    simp only [is_score_greater, decide_eq_false_iff_not]
    omega

theorem heap_root_le (best : List Neighbor)
    (h : algo.IsHeap is_score_greater best best.length) :
    ∀ x ∈ best, (best.getD 0 default).score ≤ x.score := by
  intro x hx
  obtain ⟨n, hn, rfl⟩ := List.mem_iff_getElem.1 hx
  have := algo.heap_root_min is_score_greater strictWeak_is_score_greater best best.length h n hn
  rw [List.getD_eq_getElem _ default hn] at this
  simp only [is_score_greater, decide_eq_false_iff_not] at this
  omega

theorem mergeInv_neighbor (k : Nat) (hk : 1 ≤ k) (best seen : List Neighbor) (c : Neighbor)
    (h : MergeInv k best seen) : MergeInv k (merge_neighbor k best c) (seen ++ [c]) := by
  obtain ⟨hlen, hheap, R, hperm, hR⟩ := h
  have hroot := heap_root_le best (by rw [hlen]; exact hheap)
  simp only [merge_neighbor]
  by_cases hgt : is_score_greater c (best.getD 0 default) = true
  · rw [if_pos hgt]
    have hgt' : (best.getD 0 default).score < c.score := by
      simpa [is_score_greater] using hgt
    have hp := algo.heap_replace_perm best k c is_score_greater (by omega) (by omega)
    refine ⟨by rw [algo.heap_replace_length]; exact hlen,
      algo.heap_replace_heap best k c is_score_greater strictWeak_is_score_greater
        (by omega) hheap, best.getD 0 default :: R, ?_, ?_⟩
    · cases best with
      | nil => simp at hlen; omega
      | cons b t =>
        simp only [List.set_cons_zero] at hp
        simp only [List.getD_cons_zero]
        have h1 : ((algo.heap_replace (b :: t) k c is_score_greater).2 ++ b :: R).Perm
            ((c :: t) ++ b :: R) := hp.append_right _
        refine h1.trans ?_
        have h2 : ((c :: t) ++ b :: R).Perm (c :: ((b :: t) ++ R)) := by
          simp only [List.cons_append]
          exact (List.perm_middle).cons c
        refine h2.trans ?_
        have h3 : (c :: ((b :: t) ++ R)).Perm (c :: seen) := hperm.cons c
        refine h3.trans ?_
        exact (List.perm_append_singleton c seen).symm
    · intro r hr x hx
      have hx' : x ∈ best.set 0 c := hp.subset hx
      have hx'' : x = c ∨ x ∈ best := by
        cases best with
        | nil => simp at hlen; omega
        | cons b t =>
          simp only [List.set_cons_zero, List.mem_cons] at hx'
          rcases hx' with rfl | hx'
          · exact Or.inl rfl
          · exact Or.inr (List.mem_cons_of_mem _ hx')
      have hb0 : best.getD 0 default ∈ best := by
        cases best with
        | nil => simp at hlen; omega
        | cons b t => simp
      simp only [List.mem_cons] at hr
      rcases hr with rfl | hr
      · rcases hx'' with rfl | hx''
        · omega
        · exact hroot x hx''
      · rcases hx'' with rfl | hx''
        · have := hR r hr _ hb0
          omega
        · exact hR r hr x hx''
  · rw [if_neg hgt]
    have hle : c.score ≤ (best.getD 0 default).score := by
      simpa [is_score_greater] using hgt
    refine ⟨hlen, hheap, c :: R, ?_, ?_⟩
    · exact (List.perm_middle.trans (hperm.cons c)).trans (List.perm_append_singleton c seen).symm
    · intro r hr x hx
      simp only [List.mem_cons] at hr
      rcases hr with rfl | hr
      · have := hroot x hx
        omega
      · exact hR r hr x hx

theorem mergeInv_shard (k : Nat) (hk : 1 ≤ k) (neighbors : List Neighbor) :
    ∀ (best seen : List Neighbor), MergeInv k best seen →
      MergeInv k (merge_shard_neighbors k best neighbors) (seen ++ neighbors) := by
  induction neighbors with
  | nil => intro best seen h; simpa [merge_shard_neighbors] using h
  | cons c rest ih =>
    intro best seen h
    have := ih _ _ (mergeInv_neighbor k hk best seen c h)
    simpa [merge_shard_neighbors] using this

theorem mergeInv_shards (k : Nat) (hk : 1 ≤ k) (batches : List (List Neighbor)) :
    ∀ (best seen : List Neighbor), MergeInv k best seen →
      MergeInv k (batches.foldl (merge_shard_neighbors k) best) (seen ++ batches.flatten) := by
  induction batches with
  | nil => intro best seen h; simpa using h
  | cons b rest ih =>
    intro best seen h
    have := ih _ _ (mergeInv_shard k hk b best seen h)
    simpa using this


theorem std_sort_perm (a : List Neighbor) : (std_sort is_score_greater a).Perm a :=
  List.perm_insertionSort _ a

theorem std_sort_sorted (a : List Neighbor) :
    (std_sort is_score_greater a).Sorted (fun x y => x.score ≥ y.score) := by
  have ht : IsTotal Neighbor (fun x y => is_score_greater y x = false) :=
    ⟨fun x y => by
      simp only [is_score_greater, decide_eq_false_iff_not]
      omega⟩
  have htr : IsTrans Neighbor (fun x y => is_score_greater y x = false) :=
    ⟨fun x y z h1 h2 => by
      simp only [is_score_greater, decide_eq_false_iff_not] at *
      omega⟩
  have := @List.sorted_insertionSort Neighbor (fun x y => is_score_greater y x = false) _ ht htr a
  refine List.Pairwise.imp ?_ this
  intro x y h
  simp only [is_score_greater, decide_eq_false_iff_not] at h
  omega

theorem topk_of_mergeInv (k : Nat) (best seen : List Neighbor) (h : MergeInv k best seen) :
    let out := (std_sort is_score_greater (best.take k) ++ best.drop k).take k
    out.length = k ∧ out.Sorted (fun x y => x.score ≥ y.score) ∧ out.Subperm seen ∧
      out.map Neighbor.score = top_scores k seen := by
  obtain ⟨hlen, _, R, hperm, hR⟩ := h
  have e1 : best.take k = best := List.take_of_length_le (by omega)
  have e2 : best.drop k = [] := List.drop_of_length_le (by omega)
  have hsl : (std_sort is_score_greater best).length = k := by
    rw [(std_sort_perm best).length_eq, hlen]
  have e3 : (std_sort is_score_greater best ++ []).take k = std_sort is_score_greater best := by
    rw [List.append_nil]
    exact List.take_of_length_le (by omega)
  simp only [e1, e2, e3]
  refine ⟨hsl, std_sort_sorted best, ?_, ?_⟩
  · have h1 : (std_sort is_score_greater best).Subperm best := (std_sort_perm best).subperm
    have h2 : best.Subperm (best ++ R) := (List.sublist_append_left best R).subperm
    exact (h1.trans h2).trans hperm.subperm
  · simp only [top_scores]
    have hs1 : ((std_sort is_score_greater best).map Neighbor.score).Sorted (fun x y => x ≥ y) := by
      have := std_sort_sorted best
      simp only [List.Sorted, List.pairwise_map]
      exact this
    have hs2 : ((R.map Neighbor.score).insertionSort (fun x y => x ≥ y)).Sorted
        (fun x y => x ≥ y) := List.sorted_insertionSort _ _
    have hs : ((std_sort is_score_greater best).map Neighbor.score ++
        (R.map Neighbor.score).insertionSort (fun x y => x ≥ y)).Sorted (fun x y => x ≥ y) := by
      simp only [List.Sorted, List.pairwise_append]
      refine ⟨hs1, hs2, ?_⟩
      intro a ha b hb
      obtain ⟨x, hx, rfl⟩ := List.mem_map.1 ha
      have hb' : b ∈ R.map Neighbor.score := (List.perm_insertionSort _ _).subset hb
      obtain ⟨r, hr, rfl⟩ := List.mem_map.1 hb'
      exact hR r hr x ((std_sort_perm best).subset hx)
    have hp : ((std_sort is_score_greater best).map Neighbor.score ++
        (R.map Neighbor.score).insertionSort (fun x y => x ≥ y)).Perm
        ((seen.map Neighbor.score).insertionSort (fun x y => x ≥ y)) := by
      have p1 : ((std_sort is_score_greater best).map Neighbor.score).Perm
          (best.map Neighbor.score) := (std_sort_perm best).map _
      have p2 := List.perm_insertionSort (fun x y : Int => x ≥ y) (R.map Neighbor.score)
      have p3 : (best.map Neighbor.score ++ R.map Neighbor.score).Perm
          (seen.map Neighbor.score) := by
        rw [← List.map_append]
        exact hperm.map _
      exact ((p1.append p2).trans p3).trans
        (List.perm_insertionSort (fun x y : Int => x ≥ y) _).symm
    have heq := List.eq_of_perm_of_sorted hp hs (List.sorted_insertionSort _ _)
    rw [← heq]
    exact (List.take_left' (by simpa using hsl)).symm

/-- C1: for k ≥ 1, a seed batch of exactly k neighbors sorted by descending score and any list
of further shard batches, the Search merge emits exactly k neighbors, in non-increasing score
order, all taken from the candidates, whose scores are the k largest scores of the multiset of
all candidates. -/
theorem search_merge_topk (k : Nat) (hk : 1 ≤ k) (first_shard_neighbors : List Neighbor)
    (other_shard_neighbors : List (List Neighbor))
    (hlen : first_shard_neighbors.length = k)
    (hsorted : first_shard_neighbors.Sorted (fun x y => x.score ≥ y.score)) :
    (search_merge k first_shard_neighbors other_shard_neighbors).length = k ∧
    (search_merge k first_shard_neighbors other_shard_neighbors).Sorted
      (fun x y => x.score ≥ y.score) ∧
    (search_merge k first_shard_neighbors other_shard_neighbors).Subperm
      (first_shard_neighbors ++ other_shard_neighbors.flatten) ∧
    (search_merge k first_shard_neighbors other_shard_neighbors).map Neighbor.score =
      top_scores k (first_shard_neighbors ++ other_shard_neighbors.flatten) := by
  have h0 : MergeInv k (seed_best_candidates k first_shard_neighbors) first_shard_neighbors := by
    rw [seed_best_candidates_eq_reverse k _ hlen]
    refine ⟨by simpa using hlen, ?_, [], ?_, ?_⟩
    · rw [← hlen]; exact isHeap_reverse_of_sorted _ hsorted
    · simp
    · intro r hr; simp at hr
  exact topk_of_mergeInv k _ _ (mergeInv_shards k hk other_shard_neighbors _ _ h0)

theorem search_merge_topk_witness :
    (search_merge 2 [⟨10, 5⟩, ⟨11, 3⟩] [[⟨20, 4⟩, ⟨21, 1⟩], [⟨30, 9⟩, ⟨31, 5⟩]]).length = 2 ∧
    (search_merge 2 [⟨10, 5⟩, ⟨11, 3⟩] [[⟨20, 4⟩, ⟨21, 1⟩], [⟨30, 9⟩, ⟨31, 5⟩]]).map
      Neighbor.score =
      top_scores 2 ([⟨10, 5⟩, ⟨11, 3⟩] ++ [[⟨20, 4⟩, ⟨21, 1⟩], [⟨30, 9⟩, ⟨31, 5⟩]].flatten) ∧
    search_merge 2 [⟨10, 5⟩, ⟨11, 3⟩] [[⟨20, 4⟩, ⟨21, 1⟩], [⟨30, 9⟩, ⟨31, 5⟩]] =
      [⟨30, 9⟩, ⟨10, 5⟩] :=
  have h := search_merge_topk 2 (by decide) [⟨10, 5⟩, ⟨11, 3⟩]
    [[⟨20, 4⟩, ⟨21, 1⟩], [⟨30, 9⟩, ⟨31, 5⟩]] (by decide) (by decide)
  ⟨h.1, h.2.2.2, by decide⟩

end ShardedIndexServiceImpl

/-! ### Router write handlers -/

/-! ### Association lists -/

theorem map_find_map_insert_of_some {κ β : Type} [DecidableEq κ] (m : List (κ × β))
    (key key' : κ) (v v' : β) (h : map_find m key = some v) :
    map_find (map_insert m key' v') key = some v := by
  induction m with
  | nil => simp [map_find] at h
  | cons p rest ih =>
    obtain ⟨k, w⟩ := p
    simp only [map_find] at h
    simp only [map_insert]
    by_cases hk' : k = key'
    · rw [if_pos hk']
      simpa only [map_find] using h
    · rw [if_neg hk']
      simp only [map_find]
      by_cases hk : k = key
      · rw [if_pos hk] at h ⊢
        exact h
      · rw [if_neg hk] at h ⊢
        exact ih h

theorem map_find_map_set {κ β : Type} [DecidableEq κ] (m : List (κ × β))
    (key key' : κ) (v' : β) :
    map_find (map_set m key' v') key = if key' = key then some v' else map_find m key := by
  induction m with
  | nil => simp [map_set, map_find]
  | cons p rest ih =>
    obtain ⟨k, w⟩ := p
    simp only [map_set]
    by_cases hk' : k = key'
    · rw [if_pos hk']
      simp only [map_find]
      subst hk'
      by_cases hk : k = key
      · simp only [if_pos hk]
      · simp only [if_neg hk]
    · rw [if_neg hk']
      simp only [map_find]
      by_cases hk : k = key
      · have hne : ¬ key' = key := by rw [← hk]; exact fun e => hk' e.symm
        simp only [if_pos hk, if_neg hne]
      · simp only [if_neg hk, ih]

theorem map_set_keys {κ β : Type} [DecidableEq κ] (m : List (κ × β)) (key : κ) (v : β) :
    (map_set m key v).map Prod.fst =
      if key ∈ m.map Prod.fst then m.map Prod.fst else m.map Prod.fst ++ [key] := by
  induction m with
  | nil => simp [map_set]
  | cons p rest ih =>
    obtain ⟨k, w⟩ := p
    simp only [map_set]
    by_cases hk : k = key
    · rw [if_pos hk]
      subst hk
      simp
    · rw [if_neg hk]
      simp only [List.map_cons, ih, List.mem_cons]
      have hk2 : ¬ key = k := fun e => hk e.symm
      by_cases hmem : key ∈ rest.map Prod.fst
      · rw [if_pos hmem, if_pos (Or.inr hmem)]
      · rw [if_neg hmem, if_neg (by simp only [not_or]; exact ⟨hk2, hmem⟩)]
        rfl

theorem map_set_keys_nodup {κ β : Type} [DecidableEq κ] (m : List (κ × β)) (key : κ) (v : β)
    (h : (m.map Prod.fst).Nodup) : ((map_set m key v).map Prod.fst).Nodup := by
  rw [map_set_keys]
  split
  · exact h
  · rename_i hmem
    rw [List.nodup_append]
    refine ⟨h, List.nodup_singleton _, ?_⟩
    intro a ha hb
    simp only [List.mem_singleton] at hb
    subst hb
    exact hmem ha

namespace ShardedIndexServiceImpl

/-! ### Placement is never removed or changed -/

theorem record_assignments_find (vectors : List Vector) (shard_idx : Nat) :
    ∀ (assignments : List (Int × Nat)) (key : Int) (s : Nat),
      map_find assignments key = some s →
      map_find (record_assignments assignments vectors shard_idx) key = some s := by
  induction vectors with
  | nil => intro a key s h; exact h
  | cons v rest ih =>
    intro a key s h
    simp only [record_assignments, List.foldl_cons]
    exact ih _ key s (map_find_map_insert_of_some a key _ s _ h)

theorem insert_loop_find (vectors : List Vector) (shard_insert : ShardRpc) (key : Int)
    (s : Nat) :
    ∀ (shard_fills : List (Nat × Int)) (offset : Nat) (self : ShardedIndexServiceImpl)
      (sent : SentBatches), map_find self.m_vector_shard_assignments_ key = some s →
      map_find (insert_loop vectors shard_insert shard_fills offset self sent).2.1.m_vector_shard_assignments_
        key = some s := by
  intro shard_fills
  induction shard_fills with
  | nil => intro offset self sent h; exact h
  | cons p rest ih =>
    intro offset self sent h
    obtain ⟨shard_idx, num_to_fill⟩ := p
    simp only [insert_loop]
    split
    · exact h
    · apply ih
      split
      · exact record_assignments_find _ _ _ key s h
      · exact h

theorem upsert_loop_find (shard_upsert : ShardRpc) (shards_num_inserted : List (Nat × Int))
    (key : Int) (s : Nat) :
    ∀ (requests : SentBatches) (self : ShardedIndexServiceImpl) (sent : SentBatches),
      map_find self.m_vector_shard_assignments_ key = some s →
      map_find (upsert_loop shard_upsert shards_num_inserted requests self sent).2.1.m_vector_shard_assignments_
        key = some s := by
  intro requests
  induction requests with
  | nil => intro self sent h; exact h
  | cons p rest ih =>
    intro self sent h
    obtain ⟨shard_idx, request⟩ := p
    simp only [upsert_loop]
    split
    · exact record_assignments_find _ _ _ key s h
    · apply ih
      exact record_assignments_find _ _ _ key s h

/-- C8: for every router state and every Insert or Upsert request, whatever the outcome of
the request and of its shard RPCs, a key that is in the placement table before the request is
still there afterwards with the same shard index. -/
theorem placement_stable (self : ShardedIndexServiceImpl) (request : Request) (key : Int)
    (shard_idx : Nat) (h : map_find self.m_vector_shard_assignments_ key = some shard_idx) :
    map_find (self.handle request).2.1.m_vector_shard_assignments_ key = some shard_idx := by
  cases request with
  | insert vectors shard_insert =>
    simp only [handle, Insert]
    split
    · exact h
    · exact insert_loop_find _ _ key shard_idx _ _ _ _ h
  | upsert vectors shard_upsert iteration_order =>
    simp only [handle, Upsert]
    split
    · exact h
    · exact upsert_loop_find _ _ key shard_idx _ _ _ h

end ShardedIndexServiceImpl

namespace ShardedIndexServiceImpl

/-! ### Shard sizes stay within the capacity -/

theorem add_to_shard_size_length (sizes : List Int) (i : Nat) (d : Int) :
    (add_to_shard_size sizes i d).length = sizes.length := by
  simp [add_to_shard_size]

theorem add_to_shard_size_getD_ne (sizes : List Int) (i j : Nat) (d : Int) (h : j ≠ i) :
    (add_to_shard_size sizes i d).getD j 0 = sizes.getD j 0 := by
  simp only [add_to_shard_size, List.getD_eq_getElem?_getD, List.getElem?_set]
  rw [if_neg (fun e => h e.symm)]

theorem add_to_shard_size_le (cap : Int) (sizes : List Int) (i : Nat) (d : Int)
    (hinv : ∀ s ∈ sizes, s ≤ cap) (hd : i < sizes.length → sizes.getD i 0 + d ≤ cap) :
    ∀ s ∈ add_to_shard_size sizes i d, s ≤ cap := by
  intro s hs
  simp only [add_to_shard_size] at hs
  by_cases hi : i < sizes.length
  · rcases List.mem_or_eq_of_mem_set hs with h | h
    · exact hinv s h
    · rw [h]; exact hd hi
  · rw [List.set_eq_of_length_le (by omega)] at hs
    exact hinv s hs

theorem getD_le_of_forall (cap : Int) (sizes : List Int) (i : Nat)
    (hinv : ∀ s ∈ sizes, s ≤ cap) (hi : i < sizes.length) : sizes.getD i 0 ≤ cap := by
  rw [List.getD_eq_getElem _ 0 hi]
  exact hinv _ (List.getElem_mem hi)

theorem insert_loop_capacity (vectors : List Vector) (shard_insert : ShardRpc) :
    ∀ (shard_fills : List (Nat × Int)) (offset : Nat) (self : ShardedIndexServiceImpl)
      (sent : SentBatches),
      (insert_loop vectors shard_insert shard_fills offset self sent).2.1.m_shard_capacity_ =
        self.m_shard_capacity_ := by
  intro shard_fills
  induction shard_fills with
  | nil => intro offset self sent; rfl
  | cons p rest ih =>
    intro offset self sent
    obtain ⟨shard_idx, num_to_fill⟩ := p
    simp only [insert_loop]
    split
    · rfl
    · rw [ih]
      split
      · rfl
      · rfl

theorem insert_loop_sizes (vectors : List Vector) (shard_insert : ShardRpc) (cap : Int) :
    ∀ (shard_fills : List (Nat × Int)) (offset : Nat) (self : ShardedIndexServiceImpl)
      (sent : SentBatches),
      (shard_fills.map Prod.fst).Nodup →
      (∀ p ∈ shard_fills, self.m_shard_sizes_.getD p.1 0 + p.2 ≤ cap) →
      (∀ s ∈ self.m_shard_sizes_, s ≤ cap) →
      (insert_loop vectors shard_insert shard_fills offset self sent).2.1.m_shard_sizes_.length
          = self.m_shard_sizes_.length ∧
        ∀ s ∈ (insert_loop vectors shard_insert shard_fills offset self sent).2.1.m_shard_sizes_,
          s ≤ cap := by
  intro shard_fills
  induction shard_fills with
  | nil => intro offset self sent _ _ hinv; exact ⟨rfl, hinv⟩
  | cons p rest ih =>
    intro offset self sent hnd hfit hinv
    obtain ⟨shard_idx, num_to_fill⟩ := p
    simp only [List.map_cons, List.nodup_cons] at hnd
    simp only [insert_loop]
    split
    · exact ⟨rfl, hinv⟩
    · split
      · rename_i hne
        have hlen : ((List.filter
            (fun vector => (map_find self.m_vector_shard_assignments_ (to_int vector.id)).isNone)
            (List.take num_to_fill.toNat (List.drop offset vectors))).length : Int)
            ≤ num_to_fill.toNat := by
          have h1 := List.length_filter_le
            (fun vector : Vector =>
              (map_find self.m_vector_shard_assignments_ (to_int vector.id)).isNone)
            (List.take num_to_fill.toNat (List.drop offset vectors))
          have h2 := List.length_take_le num_to_fill.toNat (List.drop offset vectors)
          omega
        have hstep := ih (offset + num_to_fill.toNat)
          { self with
            m_shard_sizes_ := add_to_shard_size self.m_shard_sizes_ shard_idx
              ((List.filter
                (fun vector =>
                  (map_find self.m_vector_shard_assignments_ (to_int vector.id)).isNone)
                (List.take num_to_fill.toNat (List.drop offset vectors))).length : Int)
            m_vector_shard_assignments_ :=
              record_assignments self.m_vector_shard_assignments_
                (List.filter
                  (fun vector =>
                    (map_find self.m_vector_shard_assignments_ (to_int vector.id)).isNone)
                  (List.take num_to_fill.toNat (List.drop offset vectors))) shard_idx }
          (sent ++ [(shard_idx, List.filter
            (fun vector => (map_find self.m_vector_shard_assignments_ (to_int vector.id)).isNone)
            (List.take num_to_fill.toNat (List.drop offset vectors)))])
          hnd.2
          (by
            intro q hq
            have hq1 : q.1 ≠ shard_idx := by
              intro e
              exact hnd.1 (e ▸ List.mem_map_of_mem Prod.fst hq)
            show (add_to_shard_size self.m_shard_sizes_ shard_idx _).getD q.1 0 + q.2 ≤ cap
            rw [add_to_shard_size_getD_ne _ _ _ _ hq1]
            exact hfit q (List.mem_cons_of_mem _ hq))
          (by
            apply add_to_shard_size_le cap _ _ _ hinv
            intro hi
            have h1 := hfit (shard_idx, num_to_fill) (List.mem_cons_self _ _)
            have h2 := getD_le_of_forall cap _ _ hinv hi
            simp only at h1
            omega)
        refine ⟨?_, hstep.2⟩
        rw [hstep.1]
        exact add_to_shard_size_length _ _ _
      · exact ih _ self _ hnd.2 (fun q hq => hfit q (List.mem_cons_of_mem _ hq)) hinv

theorem Insert_sizes (self : ShardedIndexServiceImpl) (vectors : List Vector)
    (shard_insert : ShardRpc) (hinv : ∀ s ∈ self.m_shard_sizes_, s ≤ self.m_shard_capacity_) :
    (self.Insert vectors shard_insert).2.1.m_shard_capacity_ = self.m_shard_capacity_ ∧
    (self.Insert vectors shard_insert).2.1.m_shard_sizes_.length = self.m_shard_sizes_.length ∧
    ∀ s ∈ (self.Insert vectors shard_insert).2.1.m_shard_sizes_, s ≤ self.m_shard_capacity_ := by
  simp only [Insert]
  split
  · exact ⟨rfl, rfl, hinv⟩
  · refine ⟨insert_loop_capacity _ _ _ _ _ _, ?_⟩
    apply insert_loop_sizes
    · exact (algo.greedy_fill_keys_sorted _ _ _).nodup
    · intro p hp
      exact (algo.greedy_fill_fits _ _ _ p hp).2
    · exact hinv

end ShardedIndexServiceImpl

namespace ShardedIndexServiceImpl

theorem upsert_split_keys_nodup (assignments : List (Int × Nat)) :
    ∀ (vectors : List Vector) (requests : SentBatches) (new_vectors : List Vector),
      (requests.map Prod.fst).Nodup →
      ((upsert_split assignments vectors requests new_vectors).1.map Prod.fst).Nodup := by
  intro vectors
  induction vectors with
  | nil => intro requests nv h; exact h
  | cons v rest ih =>
    intro requests nv h
    simp only [upsert_split]
    split
    · exact ih _ _ (map_set_keys_nodup _ _ _ h)
    · exact ih _ _ h

theorem upsert_assign_keys_nodup (new_vectors : List Vector) :
    ∀ (shard_fills : List (Nat × Int)) (offset : Nat) (requests : SentBatches)
      (num_inserted : List (Nat × Int)), (requests.map Prod.fst).Nodup →
      ((upsert_assign new_vectors shard_fills offset requests num_inserted).1.map
        Prod.fst).Nodup := by
  intro shard_fills
  induction shard_fills with
  | nil => intro offset requests ni h; exact h
  | cons p rest ih =>
    intro offset requests ni h
    obtain ⟨shard_idx, num_to_fill⟩ := p
    simp only [upsert_assign]
    exact ih _ _ _ (map_set_keys_nodup _ _ _ h)

theorem upsert_assign_num_inserted (new_vectors : List Vector) (i : Nat) (c : Int) :
    ∀ (shard_fills : List (Nat × Int)) (offset : Nat) (requests : SentBatches)
      (num_inserted : List (Nat × Int)),
      map_find (upsert_assign new_vectors shard_fills offset requests num_inserted).2 i
        = some c →
      (i, c) ∈ shard_fills ∨ map_find num_inserted i = some c := by
  intro shard_fills
  induction shard_fills with
  | nil => intro offset requests ni h; exact Or.inr h
  | cons p rest ih =>
    intro offset requests ni h
    obtain ⟨shard_idx, num_to_fill⟩ := p
    simp only [upsert_assign] at h
    rcases ih _ _ _ h with h1 | h1
    · exact Or.inl (List.mem_cons_of_mem _ h1)
    · rw [map_find_map_set] at h1
      by_cases he : shard_idx = i
      · rw [if_pos he] at h1
        simp only [Option.some.injEq] at h1
        subst he; subst h1
        exact Or.inl (List.mem_cons_self _ _)
      · rw [if_neg he] at h1
        exact Or.inr h1

theorem upsert_loop_capacity (shard_upsert : ShardRpc) (num_inserted : List (Nat × Int)) :
    ∀ (requests : SentBatches) (self : ShardedIndexServiceImpl) (sent : SentBatches),
      (upsert_loop shard_upsert num_inserted requests self sent).2.1.m_shard_capacity_ =
        self.m_shard_capacity_ := by
  intro requests
  induction requests with
  | nil => intro self sent; rfl
  | cons p rest ih =>
    intro self sent
    obtain ⟨shard_idx, request⟩ := p
    simp only [upsert_loop]
    split
    · rfl
    · rw [ih]

theorem upsert_loop_sizes (shard_upsert : ShardRpc) (num_inserted : List (Nat × Int))
    (cap : Int) :
    ∀ (requests : SentBatches) (self : ShardedIndexServiceImpl) (sent : SentBatches),
      (requests.map Prod.fst).Nodup →
      (∀ p ∈ requests, p.1 < self.m_shard_sizes_.length →
        self.m_shard_sizes_.getD p.1 0 + map_get num_inserted p.1 0 ≤ cap) →
      (∀ s ∈ self.m_shard_sizes_, s ≤ cap) →
      (upsert_loop shard_upsert num_inserted requests self sent).2.1.m_shard_sizes_.length
          = self.m_shard_sizes_.length ∧
        ∀ s ∈ (upsert_loop shard_upsert num_inserted requests self sent).2.1.m_shard_sizes_,
          s ≤ cap := by
  intro requests
  induction requests with
  | nil => intro self sent _ _ hinv; exact ⟨rfl, hinv⟩
  | cons p rest ih =>
    intro self sent hnd hfit hinv
    obtain ⟨shard_idx, request⟩ := p
    simp only [List.map_cons, List.nodup_cons] at hnd
    simp only [upsert_loop]
    split
    · exact ⟨rfl, hinv⟩
    · have hstep := ih
        { m_dimensions_ := self.m_dimensions_
          m_shard_capacity_ := self.m_shard_capacity_
          m_shard_sizes_ := add_to_shard_size self.m_shard_sizes_ shard_idx
            (map_get num_inserted shard_idx 0)
          m_vector_shard_assignments_ :=
            record_assignments self.m_vector_shard_assignments_ request shard_idx }
        (sent ++ [(shard_idx, request)])
        hnd.2
        (by
          intro q hq hlt
          have hq1 : q.1 ≠ shard_idx := by
            intro e
            exact hnd.1 (e ▸ List.mem_map_of_mem Prod.fst hq)
          show (add_to_shard_size self.m_shard_sizes_ shard_idx _).getD q.1 0 + _ ≤ cap
          rw [add_to_shard_size_getD_ne _ _ _ _ hq1]
          apply hfit q (List.mem_cons_of_mem _ hq)
          simpa [add_to_shard_size_length] using hlt)
        (add_to_shard_size_le cap _ _ _ hinv
          (fun hi => hfit (shard_idx, request) (List.mem_cons_self _ _) hi))
      refine ⟨?_, hstep.2⟩
      rw [hstep.1]
      exact add_to_shard_size_length _ _ _

theorem Upsert_sizes (self : ShardedIndexServiceImpl) (vectors : List Vector)
    (shard_upsert : ShardRpc) (iteration_order : SentBatches → SentBatches)
    (horder : ∀ m, (iteration_order m).Perm m)
    (hinv : ∀ s ∈ self.m_shard_sizes_, s ≤ self.m_shard_capacity_) :
    (self.Upsert vectors shard_upsert iteration_order).2.1.m_shard_capacity_
      = self.m_shard_capacity_ ∧
    (self.Upsert vectors shard_upsert iteration_order).2.1.m_shard_sizes_.length
      = self.m_shard_sizes_.length ∧
    ∀ s ∈ (self.Upsert vectors shard_upsert iteration_order).2.1.m_shard_sizes_,
      s ≤ self.m_shard_capacity_ := by
  simp only [Upsert]
  split
  · exact ⟨rfl, rfl, hinv⟩
  · refine ⟨upsert_loop_capacity _ _ _ _ _, ?_⟩
    apply upsert_loop_sizes
    · have h1 := upsert_assign_keys_nodup
        (upsert_split self.m_vector_shard_assignments_ vectors [] []).2
        (algo.greedy_fill
          (upsert_split self.m_vector_shard_assignments_ vectors [] []).2.length
          self.m_shard_capacity_ self.m_shard_sizes_).2 0
        (upsert_split self.m_vector_shard_assignments_ vectors [] []).1 []
        (upsert_split_keys_nodup _ vectors [] [] (by simp))
      exact ((horder _).map Prod.fst).nodup_iff.2 h1
    · intro p _ hlt
      cases hfind : map_find (upsert_assign
          (upsert_split self.m_vector_shard_assignments_ vectors [] []).2
          (algo.greedy_fill
            (upsert_split self.m_vector_shard_assignments_ vectors [] []).2.length
            self.m_shard_capacity_ self.m_shard_sizes_).2 0
          (upsert_split self.m_vector_shard_assignments_ vectors [] []).1 []).2 p.1 with
      | none =>
        have := getD_le_of_forall _ _ _ hinv hlt
        simp only [map_get, hfind, Option.getD_none]
        omega
      | some c =>
        rcases upsert_assign_num_inserted _ _ _ _ _ _ _ hfind with h | h
        · have := (algo.greedy_fill_fits _ _ _ _ h).2
          simp only [map_get, hfind, Option.getD_some]
          exact this
        · simp [map_find] at h
    · exact hinv

theorem handle_sizes (self : ShardedIndexServiceImpl) (request : Request)
    (horder : request.ValidOrder)
    (hinv : ∀ s ∈ self.m_shard_sizes_, s ≤ self.m_shard_capacity_) :
    (self.handle request).2.1.m_shard_capacity_ = self.m_shard_capacity_ ∧
    (self.handle request).2.1.m_shard_sizes_.length = self.m_shard_sizes_.length ∧
    ∀ s ∈ (self.handle request).2.1.m_shard_sizes_, s ≤ self.m_shard_capacity_ := by
  cases request with
  | insert vectors shard_insert => exact Insert_sizes self vectors shard_insert hinv
  | upsert vectors shard_upsert iteration_order =>
    exact Upsert_sizes self vectors shard_upsert iteration_order horder hinv

theorem run_sizes (requests : List Request) :
    ∀ (self : ShardedIndexServiceImpl), (∀ r ∈ requests, r.ValidOrder) →
      (∀ s ∈ self.m_shard_sizes_, s ≤ self.m_shard_capacity_) →
      (self.run requests).m_shard_capacity_ = self.m_shard_capacity_ ∧
      (self.run requests).m_shard_sizes_.length = self.m_shard_sizes_.length ∧
      ∀ s ∈ (self.run requests).m_shard_sizes_, s ≤ self.m_shard_capacity_ := by
  induction requests with
  | nil => intro self _ hinv; exact ⟨rfl, rfl, hinv⟩
  | cons r rest ih =>
    intro self horder hinv
    obtain ⟨h1, h2, h3⟩ := handle_sizes self r (horder r (List.mem_cons_self _ _)) hinv
    obtain ⟨g1, g2, g3⟩ := ih (self.handle r).2.1
      (fun q hq => horder q (List.mem_cons_of_mem _ hq)) (by rw [h1]; exact h3)
    simp only [run, List.foldl_cons] at *
    exact ⟨by rw [g1, h1], by rw [g2, h2], by rw [← h1]; exact g3⟩

/-- C7: starting from the empty router state with shard_capacity ≥ 0, after every sequence of
Insert and Upsert requests, whatever the outcome of each request and of each shard RPC, there
are as many shard sizes as shards and every one is at most shard_capacity. -/
theorem shard_sizes_within_capacity (dimensions : Int) (num_shards : Nat)
    (shard_capacity : Int) (hcap : 0 ≤ shard_capacity) (requests : List Request)
    (horder : ∀ r ∈ requests, r.ValidOrder) :
    ((init dimensions num_shards shard_capacity).run requests).m_shard_sizes_.length
      = num_shards ∧
    ∀ s ∈ ((init dimensions num_shards shard_capacity).run requests).m_shard_sizes_,
      s ≤ shard_capacity := by
  have h := run_sizes requests (init dimensions num_shards shard_capacity) horder
    (by
      intro s hs
      simp only [init, List.mem_replicate] at hs
      rw [hs.2]
      exact hcap)
  refine ⟨?_, h.2.2⟩
  rw [h.2.1]
  simp [init]

end ShardedIndexServiceImpl

namespace ShardedIndexServiceImpl

theorem placement_stable_witness :
    map_find (ShardedIndexServiceImpl.mk 2 2 [2, 1] [(1, 0), (2, 0), (3, 1)]).m_vector_shard_assignments_
      2 = some 0 ∧
    map_find ((ShardedIndexServiceImpl.mk 2 2 [2, 1] [(1, 0), (2, 0), (3, 1)]).handle
      (Request.upsert [⟨2, [0, 0]⟩, ⟨4, [0, 0]⟩] healthy id)).2.1.m_vector_shard_assignments_
      2 = some 0 :=
  ⟨by decide, placement_stable (ShardedIndexServiceImpl.mk 2 2 [2, 1] [(1, 0), (2, 0), (3, 1)])
    (Request.upsert [⟨2, [0, 0]⟩, ⟨4, [0, 0]⟩] healthy id) 2 0 (by decide)⟩

theorem shard_sizes_within_capacity_witness :
    ((init 2 2 2).run
      [Request.insert [⟨1, [0, 0]⟩, ⟨2, [0, 0]⟩, ⟨3, [0, 0]⟩] healthy,
       Request.upsert [⟨2, [0, 0]⟩, ⟨4, [0, 0]⟩] (fun _ _ => false) List.reverse,
       Request.upsert [⟨2, [0, 0]⟩, ⟨4, [0, 0]⟩] healthy List.reverse]).m_shard_sizes_.length
      = 2 ∧
    ((init 2 2 2).run
      [Request.insert [⟨1, [0, 0]⟩, ⟨2, [0, 0]⟩, ⟨3, [0, 0]⟩] healthy,
       Request.upsert [⟨2, [0, 0]⟩, ⟨4, [0, 0]⟩] (fun _ _ => false) List.reverse,
       Request.upsert [⟨2, [0, 0]⟩, ⟨4, [0, 0]⟩] healthy List.reverse]).m_shard_sizes_
      = [2, 1] :=
  ⟨(shard_sizes_within_capacity 2 2 2 (by decide)
      [Request.insert [⟨1, [0, 0]⟩, ⟨2, [0, 0]⟩, ⟨3, [0, 0]⟩] healthy,
       Request.upsert [⟨2, [0, 0]⟩, ⟨4, [0, 0]⟩] (fun _ _ => false) List.reverse,
       Request.upsert [⟨2, [0, 0]⟩, ⟨4, [0, 0]⟩] healthy List.reverse]
      (by
        intro r hr
        simp only [List.mem_cons, List.mem_singleton, List.not_mem_nil, or_false] at hr
        rcases hr with rfl | rfl | rfl
        · trivial
        · exact fun m => List.reverse_perm m
        · exact fun m => List.reverse_perm m)).1,
   by decide⟩

/-- C6 (defect of the code): a successful Insert whose request repeats an id counts both
copies in shard_sizes but records one placement: from the empty router (one shard of
capacity 2), Insert of ids 1, 1 returns OK and leaves shard_sizes = [2] with a placement
table of one entry. -/
theorem insert_repeated_id_breaks_sum :
    ((init 2 1 2).Insert [⟨1, [0, 0]⟩, ⟨1, [0, 0]⟩] healthy).1 = StatusCode.OK ∧
    ((init 2 1 2).Insert [⟨1, [0, 0]⟩, ⟨1, [0, 0]⟩] healthy).2.1.m_shard_sizes_ = [2] ∧
    ((init 2 1 2).Insert [⟨1, [0, 0]⟩, ⟨1, [0, 0]⟩] healthy).2.1.m_vector_shard_assignments_
      = [(1, 0)] ∧
    ((init 2 1 2).run
      [Request.insert [⟨1, [0, 0]⟩, ⟨1, [0, 0]⟩] healthy]).m_shard_sizes_.sum ≠
    (((init 2 1 2).run
      [Request.insert [⟨1, [0, 0]⟩, ⟨1, [0, 0]⟩] healthy]).m_vector_shard_assignments_.length
        : Int) := by
  decide

/-- C9 (defect of the code): an Upsert whose request repeats an id that has no placement
sends that id to two shards: from the empty router (two shards of capacity 1), Upsert of
ids 1, 1 with healthy shards returns OK after sending id 1 to shard 0 and to shard 1, in
either iteration order. -/
theorem upsert_repeated_id_two_shards :
    (init 2 2 1).Upsert [⟨1, [0, 0]⟩, ⟨1, [0, 0]⟩] healthy id =
      (StatusCode.OK, ⟨2, 1, [1, 1], [(1, 0)]⟩,
        [(0, [⟨1, [0, 0]⟩]), (1, [⟨1, [0, 0]⟩])]) ∧
    (init 2 2 1).Upsert [⟨1, [0, 0]⟩, ⟨1, [0, 0]⟩] healthy List.reverse =
      (StatusCode.OK, ⟨2, 1, [1, 1], [(1, 1)]⟩,
        [(1, [⟨1, [0, 0]⟩]), (0, [⟨1, [0, 0]⟩])]) := by
  decide

theorem insert_loop_status (vectors : List Vector) (shard_insert : ShardRpc) :
    ∀ (shard_fills : List (Nat × Int)) (offset : Nat) (self : ShardedIndexServiceImpl)
      (sent : SentBatches),
      (insert_loop vectors shard_insert shard_fills offset self sent).1
        ≠ StatusCode.RESOURCE_EXHAUSTED := by
  intro shard_fills
  induction shard_fills with
  | nil => intro offset self sent; simp [insert_loop]
  | cons p rest ih =>
    intro offset self sent
    obtain ⟨shard_idx, num_to_fill⟩ := p
    simp only [insert_loop]
    split
    · simp
    · exact ih _ _ _

theorem Insert_resource_exhausted_iff (self : ShardedIndexServiceImpl) (vectors : List Vector)
    (shard_insert : ShardRpc) (hinv : ∀ s ∈ self.m_shard_sizes_, s ≤ self.m_shard_capacity_) :
    (self.Insert vectors shard_insert).1 = StatusCode.RESOURCE_EXHAUSTED ↔
      algo.total_available self.m_shard_capacity_ self.m_shard_sizes_ < vectors.length := by
  have hspec := algo.greedy_fill_leftover vectors.length self.m_shard_capacity_
    self.m_shard_sizes_ (by omega) hinv
  simp only [Insert]
  split
  · rename_i h
    rw [hspec] at h
    constructor
    · intro _; omega
    · intro _; rfl
  · rename_i h
    rw [hspec] at h
    constructor
    · intro hs
      exact absurd hs (insert_loop_status _ _ _ _ _ _)
    · intro hlt; omega

/-- C10 (defect of the code): Insert checks the capacity against the number of all request
vectors, placed ids included: on the full router reached by Insert of id 1 into one shard of
capacity 1, a second Insert of id 1 (no new id, remaining capacity 0) returns
RESOURCE_EXHAUSTED instead of success. -/
theorem insert_placed_id_resource_exhausted :
    ((init 2 1 1).Insert [⟨1, [0, 0]⟩] healthy).1 = StatusCode.OK ∧
    ((init 2 1 1).Insert [⟨1, [0, 0]⟩] healthy).2.1 = ⟨2, 1, [1], [(1, 0)]⟩ ∧
    (([⟨1, [0, 0]⟩] : List Vector).filter
      (fun v => (map_find [((1 : Int), 0)] (to_int v.id)).isNone)).length = 0 ∧
    algo.total_available 1 [1] = 0 ∧
    ((ShardedIndexServiceImpl.mk 2 1 [1] [(1, 0)]).Insert [⟨1, [0, 0]⟩] healthy).1
      = StatusCode.RESOURCE_EXHAUSTED := by
  decide

end ShardedIndexServiceImpl

/-! ### The dimension check of the shard -/

namespace FaissIndexServiceImpl

theorem insert_loop_invalid (m_dimensions_ : Int) :
    ∀ (vectors : List Vector) (ids_seen : List Int) (staged : List (Int × List Int)),
      (∃ v ∈ vectors, (v.raw.length : Int) ≠ m_dimensions_) →
      (insert_loop m_dimensions_ vectors ids_seen staged).1 = StatusCode.INVALID_ARGUMENT := by
  intro vectors
  induction vectors with
  | nil => intro ids_seen staged h; simp at h
  | cons v rest ih =>
    intro ids_seen staged h
    simp only [insert_loop]
    by_cases hv : (v.raw.length : Int) ≠ m_dimensions_
    · rw [if_pos hv]
    · rw [if_neg hv]
      have hrest : ∃ w ∈ rest, (w.raw.length : Int) ≠ m_dimensions_ := by
        obtain ⟨w, hw, hbad⟩ := h
        simp only [List.mem_cons] at hw
        rcases hw with rfl | hw
        · exact absurd hbad hv
        · exact ⟨w, hw, hbad⟩
      split
      · exact ih _ _ hrest
      · exact ih _ _ hrest

theorem insert_loop_valid (m_dimensions_ : Int) :
    ∀ (vectors : List Vector) (ids_seen : List Int) (staged : List (Int × List Int)),
      (∀ v ∈ vectors, (v.raw.length : Int) = m_dimensions_) →
      (insert_loop m_dimensions_ vectors ids_seen staged).1 = StatusCode.OK := by
  intro vectors
  induction vectors with
  | nil => intro ids_seen staged _; rfl
  | cons v rest ih =>
    intro ids_seen staged h
    simp only [insert_loop]
    rw [if_neg (by simpa using h v (List.mem_cons_self _ _))]
    have hrest : ∀ w ∈ rest, (w.raw.length : Int) = m_dimensions_ :=
      fun w hw => h w (List.mem_cons_of_mem _ hw)
    split
    · exact ih _ _ hrest
    · exact ih _ _ hrest

theorem insert_ok_refuses (shard : FaissIndexServiceImpl) (shard_idx : Nat)
    (batch : List Vector)
    (h : ∃ v ∈ batch, (v.raw.length : Int) ≠ shard.m_dimensions_) :
    insert_ok shard shard_idx batch = false := by
  have := insert_loop_invalid shard.m_dimensions_ batch shard.m_ids_seen_ [] h
  simp [insert_ok, Insert, this]

end FaissIndexServiceImpl

/-! ### Failure statuses of the router write handlers -/

namespace ShardedIndexServiceImpl

theorem upsert_loop_status (shard_upsert : ShardRpc) (num_inserted : List (Nat × Int)) :
    ∀ (requests : SentBatches) (self : ShardedIndexServiceImpl) (sent : SentBatches),
      (upsert_loop shard_upsert num_inserted requests self sent).1 = StatusCode.OK ∨
      (upsert_loop shard_upsert num_inserted requests self sent).1 = StatusCode.UNAVAILABLE := by
  intro requests
  induction requests with
  | nil => intro self sent; exact Or.inl rfl
  | cons p rest ih =>
    intro self sent
    obtain ⟨shard_idx, request⟩ := p
    simp only [upsert_loop]
    split
    · exact Or.inr rfl
    · exact ih _ _

theorem insert_loop_status_cases (vectors : List Vector) (shard_insert : ShardRpc) :
    ∀ (shard_fills : List (Nat × Int)) (offset : Nat) (self : ShardedIndexServiceImpl)
      (sent : SentBatches),
      (insert_loop vectors shard_insert shard_fills offset self sent).1 = StatusCode.OK ∨
      (insert_loop vectors shard_insert shard_fills offset self sent).1
        = StatusCode.UNAVAILABLE := by
  intro shard_fills
  induction shard_fills with
  | nil => intro offset self sent; exact Or.inl rfl
  | cons p rest ih =>
    intro offset self sent
    obtain ⟨shard_idx, num_to_fill⟩ := p
    simp only [insert_loop]
    split
    · exact Or.inr rfl
    · exact ih _ _ _

theorem insert_loop_ok_sent (vectors : List Vector) (shard_insert : ShardRpc) :
    ∀ (shard_fills : List (Nat × Int)) (offset : Nat) (self : ShardedIndexServiceImpl)
      (sent : SentBatches),
      (insert_loop vectors shard_insert shard_fills offset self sent).1 = StatusCode.OK →
      ∀ b ∈ (insert_loop vectors shard_insert shard_fills offset self sent).2.2,
        b ∈ sent ∨ shard_insert b.1 b.2 = true := by
  intro shard_fills
  induction shard_fills with
  | nil => intro offset self sent _ b hb; exact Or.inl hb
  | cons p rest ih =>
    intro offset self sent hok b hb
    obtain ⟨shard_idx, num_to_fill⟩ := p
    simp only [insert_loop] at hok hb
    split at hok
    · simp at hok
    · rename_i hrpc
      rw [if_neg hrpc] at hb
      rcases ih _ _ _ hok b hb with h | h
      · simp only [List.mem_append, List.mem_singleton] at h
        rcases h with h | h
        · exact Or.inl h
        · subst h
          right
          simpa using hrpc
      · exact Or.inr h

theorem upsert_loop_ok_sent (shard_upsert : ShardRpc) (num_inserted : List (Nat × Int)) :
    ∀ (requests : SentBatches) (self : ShardedIndexServiceImpl) (sent : SentBatches),
      (upsert_loop shard_upsert num_inserted requests self sent).1 = StatusCode.OK →
      ∀ b ∈ (upsert_loop shard_upsert num_inserted requests self sent).2.2,
        b ∈ sent ∨ shard_upsert b.1 b.2 = true := by
  intro requests
  induction requests with
  | nil => intro self sent _ b hb; exact Or.inl hb
  | cons p rest ih =>
    intro self sent hok b hb
    obtain ⟨shard_idx, request⟩ := p
    simp only [upsert_loop] at hok hb
    split at hok
    · simp at hok
    · rename_i hrpc
      rw [if_neg hrpc] at hb
      rcases ih _ _ hok b hb with h | h
      · simp only [List.mem_append, List.mem_singleton] at h
        rcases h with h | h
        · exact Or.inl h
        · subst h
          right
          simpa using hrpc
      · exact Or.inr h

theorem handle_status_cases (self : ShardedIndexServiceImpl) (request : Request) :
    ((self.handle request).1 = StatusCode.RESOURCE_EXHAUSTED ∧
      (self.handle request).2.1 = self ∧ (self.handle request).2.2 = []) ∨
    ((self.handle request).1 = StatusCode.OK ∧
      ∀ b ∈ (self.handle request).2.2, request.shard_rpc b.1 b.2 = true) ∨
    (self.handle request).1 = StatusCode.UNAVAILABLE := by
  cases request with
  | insert vectors shard_insert =>
    simp only [handle, Insert, Request.shard_rpc]
    split
    · exact Or.inl ⟨rfl, rfl, rfl⟩
    · right
      rcases insert_loop_status_cases vectors shard_insert
        (algo.greedy_fill vectors.length self.m_shard_capacity_ self.m_shard_sizes_).2 0 self []
        with h | h
      · left
        refine ⟨h, ?_⟩
        intro b hb
        rcases insert_loop_ok_sent _ _ _ _ _ _ h b hb with h1 | h1
        · simp at h1
        · exact h1
      · exact Or.inr h
  | upsert vectors shard_upsert iteration_order =>
    simp only [handle, Upsert, Request.shard_rpc]
    split
    · exact Or.inl ⟨rfl, rfl, rfl⟩
    · right
      rcases upsert_loop_status shard_upsert
        (upsert_assign (upsert_split self.m_vector_shard_assignments_ vectors [] []).2
          (algo.greedy_fill
            (upsert_split self.m_vector_shard_assignments_ vectors [] []).2.length
            self.m_shard_capacity_ self.m_shard_sizes_).2 0
          (upsert_split self.m_vector_shard_assignments_ vectors [] []).1 []).2
        (iteration_order
          (upsert_assign (upsert_split self.m_vector_shard_assignments_ vectors [] []).2
            (algo.greedy_fill
              (upsert_split self.m_vector_shard_assignments_ vectors [] []).2.length
              self.m_shard_capacity_ self.m_shard_sizes_).2 0
            (upsert_split self.m_vector_shard_assignments_ vectors [] []).1 []).1) self []
        with h | h
      · left
        refine ⟨h, ?_⟩
        intro b hb
        rcases upsert_loop_ok_sent _ _ _ _ _ h b hb with h1 | h1
        · simp at h1
        · exact h1
      · exact Or.inr h

/-- C11: whenever the router Insert or Upsert returns RESOURCE_EXHAUSTED, the router state
(shard_of, shard_sizes) is exactly what it was before the request and no batch was sent to
any shard. -/
theorem resource_exhausted_no_effect (self : ShardedIndexServiceImpl) (request : Request)
    (h : (self.handle request).1 = StatusCode.RESOURCE_EXHAUSTED) :
    (self.handle request).2.1 = self ∧ (self.handle request).2.2 = [] := by
  rcases handle_status_cases self request with h1 | h1 | h1
  · exact h1.2
  · rw [h1.1] at h; simp at h
  · rw [h1] at h; simp at h

theorem resource_exhausted_no_effect_witness :
    ((ShardedIndexServiceImpl.mk 2 2 [2, 1] [(1, 0), (2, 0), (3, 1)]).handle
      (Request.insert [⟨4, [0, 0]⟩, ⟨5, [0, 0]⟩, ⟨6, [0, 0]⟩] healthy)).1
      = StatusCode.RESOURCE_EXHAUSTED ∧
    ((ShardedIndexServiceImpl.mk 2 2 [2, 1] [(1, 0), (2, 0), (3, 1)]).handle
      (Request.insert [⟨4, [0, 0]⟩, ⟨5, [0, 0]⟩, ⟨6, [0, 0]⟩] healthy)).2.1
      = ShardedIndexServiceImpl.mk 2 2 [2, 1] [(1, 0), (2, 0), (3, 1)] ∧
    ((ShardedIndexServiceImpl.mk 2 2 [2, 1] [(1, 0), (2, 0), (3, 1)]).handle
      (Request.insert [⟨4, [0, 0]⟩, ⟨5, [0, 0]⟩, ⟨6, [0, 0]⟩] healthy)).2.2 = [] :=
  ⟨by decide,
   resource_exhausted_no_effect (ShardedIndexServiceImpl.mk 2 2 [2, 1] [(1, 0), (2, 0), (3, 1)])
    (Request.insert [⟨4, [0, 0]⟩, ⟨5, [0, 0]⟩, ⟨6, [0, 0]⟩] healthy) (by decide)⟩

/-- C12 (as stated, refuted): with D = 2 the router forwards the one-coordinate vector of id 1
to shard 0; when the shard refuses it the router answers UNAVAILABLE, and when the shard
accepts it the router answers OK and records the placement. In neither case does it answer
INVALID_ARGUMENT or send nothing. -/
theorem wrong_dimension_not_rejected_by_router :
    (([0] : List Int).length : Int) ≠ (init 2 1 1).m_dimensions_ ∧
    (init 2 1 1).Insert [⟨1, [0]⟩] (FaissIndexServiceImpl.insert_ok ⟨2, [], []⟩) =
      (StatusCode.UNAVAILABLE, init 2 1 1, [(0, [⟨1, [0]⟩])]) ∧
    (init 2 1 1).Insert [⟨1, [0]⟩] healthy =
      (StatusCode.OK, ⟨2, 1, [1], [(1, 0)]⟩, [(0, [⟨1, [0]⟩])]) ∧
    (init 2 1 1).Upsert [⟨1, [0]⟩] healthy id =
      (StatusCode.OK, ⟨2, 1, [1], [(1, 0)]⟩, [(0, [⟨1, [0]⟩])]) :=
  ⟨by decide, by decide, by decide, by decide⟩

/-- C12 (amended): the router does not check vector lengths and never answers
INVALID_ARGUMENT to an Insert or Upsert; a vector whose length differs from D is forwarded
like any other, and when the shards refuse every batch that holds such a vector, a request
that sends one is answered UNAVAILABLE. -/
theorem wrong_dimension_forwarded (self : ShardedIndexServiceImpl) (request : Request)
    (hrefuse : ∀ (shard_idx : Nat) (batch : List Vector),
      (∃ v ∈ batch, (v.raw.length : Int) ≠ self.m_dimensions_) →
      request.shard_rpc shard_idx batch = false) :
    (self.handle request).1 ≠ StatusCode.INVALID_ARGUMENT ∧
    ((∃ b ∈ (self.handle request).2.2, ∃ v ∈ b.2, (v.raw.length : Int) ≠ self.m_dimensions_) →
      (self.handle request).1 = StatusCode.UNAVAILABLE) := by
  rcases handle_status_cases self request with h1 | h1 | h1
  · refine ⟨by rw [h1.1]; simp, ?_⟩
    rintro ⟨b, hb, _⟩
    rw [h1.2.2] at hb
    simp at hb
  · refine ⟨by rw [h1.1]; simp, ?_⟩
    rintro ⟨b, hb, hv⟩
    have h2 := h1.2 b hb
    rw [hrefuse b.1 b.2 hv] at h2
    simp at h2
  · exact ⟨by rw [h1]; simp, fun _ => h1⟩

theorem wrong_dimension_forwarded_witness :
    (init 2 1 1).handle
      (Request.insert [⟨1, [0]⟩] (FaissIndexServiceImpl.insert_ok ⟨2, [], []⟩)) =
      (StatusCode.UNAVAILABLE, init 2 1 1, [(0, [⟨1, [0]⟩])]) ∧
    ((init 2 1 1).handle
      (Request.insert [⟨1, [0]⟩] (FaissIndexServiceImpl.insert_ok ⟨2, [], []⟩))).1
      ≠ StatusCode.INVALID_ARGUMENT :=
  ⟨by decide,
   (wrong_dimension_forwarded (init 2 1 1)
    (Request.insert [⟨1, [0]⟩] (FaissIndexServiceImpl.insert_ok ⟨2, [], []⟩))
    (fun shard_idx batch hv =>
      FaissIndexServiceImpl.insert_ok_refuses ⟨2, [], []⟩ shard_idx batch hv)).1⟩

end ShardedIndexServiceImpl

/-! ### Router Search -/

namespace ShardedIndexServiceImpl

theorem non_zero_idx_loop_all_zero (shard_sizes : List Int) :
    ∀ (i : Nat), (∀ s ∈ shard_sizes, s = 0) → non_zero_idx_loop i shard_sizes = [] := by
  induction shard_sizes with
  | nil => intro i _; rfl
  | cons s rest ih =>
    intro i h
    simp only [non_zero_idx_loop]
    rw [if_neg (by simpa using h s (List.mem_cons_self _ _))]
    exact ih _ (fun x hx => h x (List.mem_cons_of_mem _ hx))

/-- C17 (defect of the code): the status of the first search RPC is discarded. With shard 0
the only non-empty shard and its search RPC failing with an empty response, Search answers OK
with the k = 1 default-constructed neighbor {id 0, score 0} instead of UNAVAILABLE. -/
theorem search_first_rpc_failure_ignored :
    (ShardedIndexServiceImpl.mk 2 1 [1] [(1, 0)]).Search 1 (fun _ => (false, [])) =
      (StatusCode.OK, [⟨0, 0⟩], [0]) := by
  decide

/-- C18 (defect of the code): the first search RPC always goes to shard 0 and the loop over
the other shards starts at the second non-empty one. In the state with shard_sizes [0, 1],
reached from the empty router by an Upsert of id 1 whose RPC fails and an Insert of ids 1, 2,
Search queries the empty shard 0 only and never the non-empty shard 1. -/
theorem search_queries_shard_zero :
    (init 2 2 1).run
      [Request.upsert [⟨1, [0, 0]⟩] (fun _ _ => false) id,
       Request.insert [⟨1, [0, 0]⟩, ⟨2, [0, 0]⟩] healthy] =
      ⟨2, 1, [0, 1], [(1, 0), (2, 1)]⟩ ∧
    (ShardedIndexServiceImpl.mk 2 1 [0, 1] [(1, 0), (2, 1)]).get_search_shard_idx = [1] ∧
    (ShardedIndexServiceImpl.mk 2 1 [0, 1] [(1, 0), (2, 1)]).Search 1
      (fun shard_idx => if shard_idx = 1 then (true, [⟨2, 5⟩]) else (true, [⟨-1, -9⟩])) =
      (StatusCode.OK, [⟨-1, -9⟩], [0]) := by
  decide

/-- C19 (as stated, refuted): on the empty router the neighbor emitted for k = 1 has the
score -(2^128 - 2^104), the lowest finite float, which is not -infinity. -/
theorem empty_search_score_is_finite :
    (init 2 2 1).Search 1 (fun _ => (true, [])) =
      (StatusCode.OK, [⟨-1, -(2 ^ 128 - 2 ^ 104)⟩], []) ∧
    ¬ is_neg_infinity (-(2 ^ 128 - 2 ^ 104)) :=
  ⟨rfl, by simp [is_neg_infinity, numeric_limits_float_max]⟩

/-- C19 (amended): for every k ≥ 0 and every router state in which all shard sizes are 0,
Search returns OK with exactly k neighbors, each the sentinel {id: -1, score: -FLT_MAX}
(FLT_MAX = std::numeric_limits<float>::max()), and issues no shard RPC. -/
theorem empty_search_sentinels (self : ShardedIndexServiceImpl) (k : Nat)
    (shard_search : ShardSearch) (hempty : ∀ s ∈ self.m_shard_sizes_, s = 0) :
    self.Search k shard_search =
      (StatusCode.OK, List.replicate k ⟨-1, -numeric_limits_float_max⟩, []) ∧
    (List.replicate k (⟨-1, -numeric_limits_float_max⟩ : Neighbor)).length = k := by
  refine ⟨?_, by simp⟩
  simp only [Search, get_search_shard_idx, non_zero_idx_loop_all_zero _ 0 hempty]
  rfl

theorem empty_search_sentinels_witness :
    (init 2 3 4).Search 2 (fun _ => (true, [])) =
      (StatusCode.OK, List.replicate 2 ⟨-1, -numeric_limits_float_max⟩, []) :=
  (empty_search_sentinels (init 2 3 4) 2 (fun _ => (true, [])) (by decide)).1

/-- C14 (defect of the code): two distinct ids that agree modulo 2^32 share one key of the
placement table. With two empty shards of capacity 1, Insert of ids 1 and 2^32 + 1 sends
id 1 to shard 0 and then drops id 2^32 + 1 as already placed: shard 1 receives an empty
batch instead of the second slice, and its size stays 0. -/
theorem insert_distinct_ids_same_key :
    (1 : Int) ≠ 4294967297 ∧ to_int 4294967297 = 1 ∧
    (algo.greedy_fill 2 1 [0, 0]) = (0, [(0, 1), (1, 1)]) ∧
    (init 2 2 1).Insert [⟨1, [0, 0]⟩, ⟨4294967297, [0, 0]⟩] healthy =
      (StatusCode.OK, ⟨2, 1, [1, 0], [(1, 0)]⟩, [(0, [⟨1, [0, 0]⟩]), (1, [])]) := by
  decide

end ShardedIndexServiceImpl

namespace FaissIndexServiceImpl

/-- C20 (defect of the code): the shard Insert records an id in m_ids_seen_ as soon as it
meets it, before a later vector of the request fails the dimension check. With D = 2, Insert
of [id 1 (two coordinates), id 2 (one coordinate)] is rejected with INVALID_ARGUMENT and
leaves ids_seen = {1} with an empty index; a later Insert of id 1 returns OK and adds
nothing. -/
theorem insert_rejected_marks_seen :
    (FaissIndexServiceImpl.mk 2 [] []).Insert [⟨1, [0, 0]⟩, ⟨2, [0]⟩] =
      (StatusCode.INVALID_ARGUMENT, ⟨2, [], [1]⟩) ∧
    (FaissIndexServiceImpl.mk 2 [] [1]).Insert [⟨1, [0, 0]⟩] = (StatusCode.OK, ⟨2, [], [1]⟩) ∧
    (FaissIndexServiceImpl.mk 2 [] []).Insert [⟨1, [0, 0]⟩] =
      (StatusCode.OK, ⟨2, [(1, [0, 0])], [1]⟩) := by
  decide

end FaissIndexServiceImpl

namespace algo

theorem greedy_fill_loop_sum (c : Int) (sizes : List Int) :
    ∀ (i0 : Nat) (left : Int),
      (greedy_fill_loop c i0 sizes left).1 +
        ((greedy_fill_loop c i0 sizes left).2.map Prod.snd).sum = left := by
  induction sizes with
  | nil => intro i0 left; simp [greedy_fill_loop]
  | cons s rest ih =>
    intro i0 left
    simp only [greedy_fill_loop]
    split
    · split
      · rename_i hz
        simp only [List.map_cons, List.map_nil, List.sum_cons, List.sum_nil]
        omega
      · have := ih (i0 + 1) (left - min left (c - s))
        simp only [List.map_cons, List.sum_cons]
        omega
    · exact ih _ _

theorem greedy_fill_sum (n capacity : Int) (sizes : List Int) :
    (greedy_fill n capacity sizes).1 + ((greedy_fill n capacity sizes).2.map Prod.snd).sum
      = n := by
  simp only [greedy_fill]
  split
  · rename_i h0
    simp [h0]
  · exact greedy_fill_loop_sum capacity sizes 0 n

end algo

namespace ShardedIndexServiceImpl

/-- Total number of request positions the fills reach: the sum of the counts, a negative
count reaching none. -/
theorem sum_toNat_ge (fills : List (Nat × Int)) :
    (fills.map Prod.snd).sum ≤ ((fills.map (fun p => p.2.toNat)).sum : Nat) := by
  induction fills with
  | nil => simp
  | cons p rest ih =>
    simp only [List.map_cons, List.sum_cons, Nat.cast_add]
    have := Int.self_le_toNat p.2
    omega

theorem map_find_map_insert_self {κ β : Type} [DecidableEq κ] (m : List (κ × β)) (key : κ)
    (v : β) : (map_find (map_insert m key v) key).isSome = true := by
  induction m with
  | nil => simp [map_insert, map_find]
  | cons p rest ih =>
    obtain ⟨k, w⟩ := p
    simp only [map_insert]
    by_cases hk : k = key
    · rw [if_pos hk]
      simp [map_find, hk]
    · rw [if_neg hk]
      simp only [map_find, if_neg hk]
      exact ih

theorem record_assignments_placed (vectors : List Vector) (shard_idx : Nat) :
    ∀ (assignments : List (Int × Nat)), ∀ v ∈ vectors,
      (map_find (record_assignments assignments vectors shard_idx) (to_int v.id)).isSome
        = true := by
  induction vectors with
  | nil => intro a v hv; simp at hv
  | cons w rest ih =>
    intro a v hv
    simp only [List.mem_cons] at hv
    rcases hv with rfl | hv
    · simp only [record_assignments, List.foldl_cons]
      have h1 := map_find_map_insert_self a (to_int v.id) shard_idx
      obtain ⟨s, hs⟩ := Option.isSome_iff_exists.1 h1
      have := record_assignments_find rest shard_idx _ (to_int v.id) s hs
      simp only [record_assignments] at this
      rw [this]
      rfl
    · simp only [record_assignments, List.foldl_cons]
      exact ih _ v hv

theorem insert_loop_keeps_placed (vectors : List Vector) (shard_insert : ShardRpc)
    (shard_fills : List (Nat × Int)) (offset : Nat) (self : ShardedIndexServiceImpl)
    (sent : SentBatches) (v : Vector) (h : self.unplaced v = false) :
    (insert_loop vectors shard_insert shard_fills offset self sent).2.1.unplaced v = false := by
  simp only [unplaced, Option.isNone_eq_false_iff, Option.isSome_iff_exists] at h ⊢
  obtain ⟨s, hs⟩ := h
  exact ⟨s, insert_loop_find vectors shard_insert (to_int v.id) s _ _ _ _ hs⟩

theorem insert_loop_placed (vectors : List Vector) (shard_insert : ShardRpc) :
    ∀ (shard_fills : List (Nat × Int)) (offset : Nat) (self : ShardedIndexServiceImpl)
      (sent : SentBatches),
      (insert_loop vectors shard_insert shard_fills offset self sent).1 = StatusCode.OK →
      ∀ v ∈ (vectors.drop offset).take (shard_fills.map (fun p => p.2.toNat)).sum,
        (insert_loop vectors shard_insert shard_fills offset self sent).2.1.unplaced v
          = false := by
  intro shard_fills
  induction shard_fills with
  | nil => intro offset self sent _ v hv; simp at hv
  | cons p rest ih =>
    intro offset self sent hok v hv
    obtain ⟨shard_idx, num_to_fill⟩ := p
    simp only [List.map_cons, List.sum_cons, List.take_add, List.mem_append,
      List.drop_drop] at hv
    simp only [insert_loop] at hok ⊢
    split at hok
    · simp at hok
    · rename_i hrpc
      rw [if_neg hrpc]
      rcases hv with hv | hv
      · apply insert_loop_keeps_placed
        by_cases hpl : self.unplaced v = false
        · split
          · simp only [unplaced, Option.isNone_eq_false_iff, Option.isSome_iff_exists]
              at hpl ⊢
            obtain ⟨s, hs⟩ := hpl
            exact ⟨s, record_assignments_find _ _ _ _ s hs⟩
          · exact hpl
        · have hmem : v ∈ List.filter
              (fun vector =>
                (map_find self.m_vector_shard_assignments_ (to_int vector.id)).isNone)
              (List.take num_to_fill.toNat (List.drop offset vectors)) := by
            rw [List.mem_filter]
            refine ⟨hv, ?_⟩
            simpa [unplaced] using hpl
          have hne : ((List.filter
              (fun vector =>
                (map_find self.m_vector_shard_assignments_ (to_int vector.id)).isNone)
              (List.take num_to_fill.toNat (List.drop offset vectors))).length : Int) ≠ 0 := by
            have := List.length_pos_of_mem hmem
            omega
          rw [if_pos hne]
          simp only [unplaced, Option.isNone_eq_false_iff]
          exact record_assignments_placed _ _ _ v hmem
      · exact ih _ _ _ hok v hv

theorem insert_loop_noop (vectors : List Vector) (shard_insert : ShardRpc)
    (self : ShardedIndexServiceImpl) (hall : ∀ v ∈ vectors, self.unplaced v = false) :
    ∀ (shard_fills : List (Nat × Int)) (offset : Nat) (sent : SentBatches),
      (insert_loop vectors shard_insert shard_fills offset self sent).2.1 = self ∧
      ∀ b ∈ (insert_loop vectors shard_insert shard_fills offset self sent).2.2,
        b ∈ sent ∨ b.2 = [] := by
  intro shard_fills
  induction shard_fills with
  | nil => intro offset sent; exact ⟨rfl, fun b hb => Or.inl hb⟩
  | cons p rest ih =>
    intro offset sent
    obtain ⟨shard_idx, num_to_fill⟩ := p
    have hnil : List.filter
        (fun vector => (map_find self.m_vector_shard_assignments_ (to_int vector.id)).isNone)
        (List.take num_to_fill.toNat (List.drop offset vectors)) = [] := by
      rw [List.filter_eq_nil_iff]
      intro v hv
      have := hall v (List.mem_of_mem_drop (List.mem_of_mem_take hv))
      simp only [unplaced] at this
      simp [this]
    simp only [insert_loop, hnil, List.length_nil, Nat.cast_zero, ne_eq, not_true_eq_false,
      if_false]
    split
    · refine ⟨rfl, ?_⟩
      intro b hb
      simp only [List.mem_append, List.mem_singleton] at hb
      rcases hb with hb | hb
      · exact Or.inl hb
      · right; rw [hb]
    · obtain ⟨h1, h2⟩ := ih (offset + num_to_fill.toNat) (sent ++ [(shard_idx, [])])
      refine ⟨h1, ?_⟩
      intro b hb
      rcases h2 b hb with h | h
      · simp only [List.mem_append, List.mem_singleton] at h
        rcases h with h | h
        · exact Or.inl h
        · right; rw [h]
      · exact Or.inr h

/-- C13: if Insert(V) succeeds, a second Insert(V) leaves the router state (shard_of and
shard_sizes) unchanged and every batch it sends is empty: each id of V is ignored as a
duplicate. The shard RPC outcomes of the two requests are arbitrary. -/
theorem insert_twice_no_change (self : ShardedIndexServiceImpl) (vectors : List Vector)
    (shard_insert shard_insert_again : ShardRpc)
    (hok : (self.Insert vectors shard_insert).1 = StatusCode.OK) :
    ((self.Insert vectors shard_insert).2.1.Insert vectors shard_insert_again).2.1 =
      (self.Insert vectors shard_insert).2.1 ∧
    ∀ b ∈ ((self.Insert vectors shard_insert).2.1.Insert vectors shard_insert_again).2.2,
      b.2 = [] := by
  have hall : ∀ v ∈ vectors, (self.Insert vectors shard_insert).2.1.unplaced v = false := by
    intro v hv
    simp only [Insert] at hok ⊢
    split at hok
    · simp at hok
    · rename_i hleft
      rw [if_neg hleft]
      apply insert_loop_placed vectors shard_insert _ 0 self [] hok v
      have hsum := algo.greedy_fill_sum vectors.length self.m_shard_capacity_
        self.m_shard_sizes_
      have hge := sum_toNat_ge
        (algo.greedy_fill vectors.length self.m_shard_capacity_ self.m_shard_sizes_).2
      have hz : (algo.greedy_fill vectors.length self.m_shard_capacity_
          self.m_shard_sizes_).1 = 0 := by
        simpa using hleft
      rw [List.drop_zero, List.take_of_length_le (by omega)]
      exact hv
  generalize (self.Insert vectors shard_insert).2.1 = s1 at hall
  simp only [Insert]
  split
  · exact ⟨rfl, fun b hb => by simp at hb⟩
  · obtain ⟨h1, h2⟩ := insert_loop_noop vectors shard_insert_again s1 hall
      (algo.greedy_fill vectors.length s1.m_shard_capacity_ s1.m_shard_sizes_).2 0 []
    refine ⟨h1, ?_⟩
    intro b hb
    rcases h2 b hb with h | h
    · simp at h
    · exact h

theorem insert_twice_no_change_witness :
    ((init 2 2 2).Insert [⟨1, [0, 0]⟩, ⟨2, [0, 0]⟩, ⟨3, [0, 0]⟩] healthy).1 = StatusCode.OK ∧
    (((init 2 2 2).Insert [⟨1, [0, 0]⟩, ⟨2, [0, 0]⟩, ⟨3, [0, 0]⟩] healthy).2.1.Insert
      [⟨1, [0, 0]⟩, ⟨2, [0, 0]⟩, ⟨3, [0, 0]⟩] healthy).2.1 =
      ((init 2 2 2).Insert [⟨1, [0, 0]⟩, ⟨2, [0, 0]⟩, ⟨3, [0, 0]⟩] healthy).2.1 :=
  ⟨by decide,
   (insert_twice_no_change (init 2 2 2) [⟨1, [0, 0]⟩, ⟨2, [0, 0]⟩, ⟨3, [0, 0]⟩]
    healthy healthy (by decide)).1⟩

end ShardedIndexServiceImpl

/-! ### The per-shard requests of Upsert -/

theorem map_get_map_set {κ β : Type} [DecidableEq κ] (m : List (κ × β))
    (key key' : κ) (v' d : β) :
    map_get (map_set m key' v') key d = if key' = key then v' else map_get m key d := by
  simp only [map_get, map_find_map_set]
  split
  · rfl
  · rfl

theorem map_find_of_mem {κ β : Type} [DecidableEq κ] (m : List (κ × β))
    (hnd : (m.map Prod.fst).Nodup) (b : κ × β) (hb : b ∈ m) : map_find m b.1 = some b.2 := by
  induction m with
  | nil => simp at hb
  | cons p rest ih =>
    obtain ⟨k, w⟩ := p
    simp only [List.map_cons, List.nodup_cons] at hnd
    simp only [List.mem_cons] at hb
    simp only [map_find]
    rcases hb with rfl | hb
    · simp
    · have hne : ¬ k = b.1 := by
        intro e
        exact hnd.1 (e ▸ List.mem_map_of_mem Prod.fst hb)
      rw [if_neg hne]
      exact ih hnd.2 hb

theorem map_get_of_mem {κ β : Type} [DecidableEq κ] (m : List (κ × β))
    (hnd : (m.map Prod.fst).Nodup) (b : κ × β) (hb : b ∈ m) (d : β) :
    map_get m b.1 d = b.2 := by
  simp [map_get, map_find_of_mem m hnd b hb]

theorem map_find_none_of_not_mem {κ β : Type} [DecidableEq κ] (m : List (κ × β)) (key : κ)
    (h : key ∉ m.map Prod.fst) : map_find m key = none := by
  induction m with
  | nil => rfl
  | cons p rest ih =>
    obtain ⟨k, w⟩ := p
    simp only [List.map_cons, List.mem_cons, not_or] at h
    simp only [map_find]
    rw [if_neg (fun e => h.1 e.symm)]
    exact ih h.2

theorem flatten_map_set_append {κ α : Type} [DecidableEq κ] (m : List (κ × List α)) (key : κ)
    (x : List α) :
    (((map_set m key (map_get m key [] ++ x)).map Prod.snd).flatten).Perm
      ((m.map Prod.snd).flatten ++ x) := by
  induction m with
  | nil => simp [map_set, map_get, map_find]
  | cons p rest ih =>
    obtain ⟨k, w⟩ := p
    by_cases hk : k = key
    · simp only [map_set, map_get, map_find, if_pos hk, Option.getD_some, List.map_cons,
        List.flatten_cons, List.append_assoc]
      exact (List.perm_append_comm).append_left w
    · have e : map_get ((k, w) :: rest) key [] = map_get rest key [] := by
        simp [map_get, map_find, hk]
      rw [e]
      simp only [map_set, if_neg hk, List.map_cons, List.flatten_cons, List.append_assoc]
      exact ih.append_left w

namespace ShardedIndexServiceImpl

theorem upsert_split_new (assignments : List (Int × Nat)) :
    ∀ (vectors : List Vector) (requests : SentBatches) (new_vectors : List Vector),
      (upsert_split assignments vectors requests new_vectors).2 =
        new_vectors ++ vectors.filter
          (fun v => (map_find assignments (to_int v.id)).isNone) := by
  intro vectors
  induction vectors with
  | nil => intro requests nv; simp [upsert_split]
  | cons v rest ih =>
    intro requests nv
    simp only [upsert_split]
    cases hf : map_find assignments (to_int v.id) with
    | none =>
      simp only [ih, List.filter_cons, hf, Option.isNone_none, if_true, List.append_assoc,
        List.singleton_append]
    | some s =>
      simp only [ih, List.filter_cons, hf, Option.isNone_some]
      simp

theorem upsert_split_perm (assignments : List (Int × Nat)) :
    ∀ (vectors : List Vector) (requests : SentBatches) (new_vectors : List Vector),
      (((upsert_split assignments vectors requests new_vectors).1.map Prod.snd).flatten ++
        (upsert_split assignments vectors requests new_vectors).2).Perm
        ((requests.map Prod.snd).flatten ++ new_vectors ++ vectors) := by
  intro vectors
  induction vectors with
  | nil => intro requests nv; simp [upsert_split]
  | cons v rest ih =>
    intro requests nv
    simp only [upsert_split]
    cases hf : map_find assignments (to_int v.id) with
    | none =>
      simp only []
      refine (ih _ _).trans ?_
      simp only [List.append_assoc, List.singleton_append]
      exact List.Perm.refl _
    | some s =>
      simp only []
      refine (ih _ _).trans ?_
      have h1 := flatten_map_set_append requests s [v]
      refine ((h1.append_right nv).append_right rest).trans ?_
      simp only [List.append_assoc, List.singleton_append]
      refine List.Perm.append_left _ ?_
      exact List.perm_middle.symm

theorem upsert_split_mem (assignments : List (Int × Nat)) (s : Nat) (v : Vector) :
    ∀ (vectors : List Vector) (requests : SentBatches) (new_vectors : List Vector),
      v ∈ map_get (upsert_split assignments vectors requests new_vectors).1 s [] ↔
        (v ∈ map_get requests s [] ∨
          (v ∈ vectors ∧ map_find assignments (to_int v.id) = some s)) := by
  intro vectors
  induction vectors with
  | nil => intro requests nv; simp [upsert_split]
  | cons w rest ih =>
    intro requests nv
    simp only [upsert_split]
    cases hf : map_find assignments (to_int w.id) with
    | none =>
      simp only []
      rw [ih]
      constructor
      · rintro (h | ⟨h1, h2⟩)
        · exact Or.inl h
        · exact Or.inr ⟨List.mem_cons_of_mem _ h1, h2⟩
      · rintro (h | ⟨h1, h2⟩)
        · exact Or.inl h
        · simp only [List.mem_cons] at h1
          rcases h1 with rfl | h1
          · rw [hf] at h2; simp at h2
          · exact Or.inr ⟨h1, h2⟩
    | some t =>
      simp only []
      rw [ih, map_get_map_set]
      by_cases hts : t = s
      · rw [if_pos hts]
        simp only [List.mem_append, List.mem_cons, List.not_mem_nil, or_false]
        constructor
        · rintro ((h | rfl) | ⟨h1, h2⟩)
          · left; rw [← hts]; exact h
          · right; exact ⟨Or.inl rfl, by rw [hf, hts]⟩
          · right; exact ⟨Or.inr h1, h2⟩
        · rintro (h | ⟨rfl | h1, h2⟩)
          · left; left; rw [hts]; exact h
          · left; right; rfl
          · right; exact ⟨h1, h2⟩
      · rw [if_neg hts]
        simp only [List.mem_cons]
        constructor
        · rintro (h | ⟨h1, h2⟩)
          · exact Or.inl h
          · exact Or.inr ⟨Or.inr h1, h2⟩
        · rintro (h | ⟨rfl | h1, h2⟩)
          · exact Or.inl h
          · rw [hf] at h2
            simp only [Option.some.injEq] at h2
            exact absurd h2 hts
          · exact Or.inr ⟨h1, h2⟩

theorem upsert_assign_get (new_vectors : List Vector) (s : Nat) :
    ∀ (shard_fills : List (Nat × Int)) (offset : Nat) (requests : SentBatches)
      (num_inserted : List (Nat × Int)),
      map_get (upsert_assign new_vectors shard_fills offset requests num_inserted).1 s [] =
        map_get requests s [] ++ slices_for new_vectors shard_fills offset s := by
  intro shard_fills
  induction shard_fills with
  | nil => intro offset requests ni; simp [upsert_assign, slices_for]
  | cons p rest ih =>
    intro offset requests ni
    obtain ⟨shard_idx, num_to_fill⟩ := p
    simp only [upsert_assign, slices_for]
    rw [ih, map_get_map_set]
    by_cases h : shard_idx = s
    · subst h
      simp only [if_true, List.append_assoc]
    · simp only [if_neg h, List.nil_append]

theorem upsert_assign_perm (new_vectors : List Vector) :
    ∀ (shard_fills : List (Nat × Int)) (offset : Nat) (requests : SentBatches)
      (num_inserted : List (Nat × Int)),
      (((upsert_assign new_vectors shard_fills offset requests num_inserted).1.map
        Prod.snd).flatten).Perm
        ((requests.map Prod.snd).flatten ++
          (new_vectors.drop offset).take (shard_fills.map (fun p => p.2.toNat)).sum) := by
  intro shard_fills
  induction shard_fills with
  | nil => intro offset requests ni; simp [upsert_assign]
  | cons p rest ih =>
    intro offset requests ni
    obtain ⟨shard_idx, num_to_fill⟩ := p
    simp only [upsert_assign, List.map_cons, List.sum_cons, List.take_add, List.drop_drop]
    refine (ih _ _ _).trans ?_
    have h1 := flatten_map_set_append requests shard_idx
      (List.take num_to_fill.toNat (List.drop offset new_vectors))
    refine (h1.append_right _).trans ?_
    rw [List.append_assoc]

theorem upsert_assign_counts (new_vectors : List Vector) (s : Nat) :
    ∀ (shard_fills : List (Nat × Int)) (offset : Nat) (requests : SentBatches)
      (num_inserted : List (Nat × Int)), (shard_fills.map Prod.fst).Nodup →
      map_find (upsert_assign new_vectors shard_fills offset requests num_inserted).2 s =
        if s ∈ shard_fills.map Prod.fst then map_find shard_fills s
        else map_find num_inserted s := by
  intro shard_fills
  induction shard_fills with
  | nil => intro offset requests ni _; simp [upsert_assign]
  | cons q rest ih =>
    intro offset requests ni hnd
    obtain ⟨shard_idx, num_to_fill⟩ := q
    simp only [List.map_cons, List.nodup_cons] at hnd
    simp only [upsert_assign, List.map_cons, List.mem_cons]
    rw [ih _ _ _ hnd.2, map_find_map_set]
    simp only [map_find]
    by_cases h : shard_idx = s
    · subst h
      rw [if_neg hnd.1, if_pos rfl, if_pos (Or.inl rfl), if_pos rfl]
    · have h2 : ¬ s = shard_idx := fun e => h e.symm
      by_cases hmem : s ∈ rest.map Prod.fst
      · rw [if_pos hmem, if_pos (Or.inr hmem), if_neg h]
      · rw [if_neg hmem, if_neg h, if_neg (by simp only [not_or]; exact ⟨h2, hmem⟩)]

theorem upsert_assign_count_get (new_vectors : List Vector) (s : Nat)
    (shard_fills : List (Nat × Int)) (requests : SentBatches)
    (hnd : (shard_fills.map Prod.fst).Nodup) :
    map_get (upsert_assign new_vectors shard_fills 0 requests []).2 s 0 =
      map_get shard_fills s 0 := by
  simp only [map_get, upsert_assign_counts new_vectors s shard_fills 0 requests [] hnd]
  split
  · rfl
  · rename_i hmem
    rw [map_find_none_of_not_mem shard_fills s hmem]
    rfl

theorem slices_for_subset (new_vectors : List Vector) (s : Nat) (v : Vector) :
    ∀ (shard_fills : List (Nat × Int)) (offset : Nat),
      v ∈ slices_for new_vectors shard_fills offset s → v ∈ new_vectors := by
  intro shard_fills
  induction shard_fills with
  | nil => intro offset h; simp [slices_for] at h
  | cons q rest ih =>
    intro offset h
    obtain ⟨shard_idx, num_to_fill⟩ := q
    simp only [slices_for, List.mem_append] at h
    rcases h with h | h
    · split at h
      · exact List.mem_of_mem_drop (List.mem_of_mem_take h)
      · simp at h
    · exact ih _ h

theorem slices_for_length (new_vectors : List Vector) (s : Nat) :
    ∀ (shard_fills : List (Nat × Int)) (offset : Nat), (shard_fills.map Prod.fst).Nodup →
      (∀ p ∈ shard_fills, 0 ≤ p.2) →
      offset + (shard_fills.map (fun p => p.2.toNat)).sum ≤ new_vectors.length →
      ((slices_for new_vectors shard_fills offset s).length : Int) =
        map_get shard_fills s 0 := by
  intro shard_fills
  induction shard_fills with
  | nil => intro offset _ _ _; simp [slices_for, map_get, map_find]
  | cons q rest ih =>
    intro offset hnd hpos hlen
    obtain ⟨shard_idx, num_to_fill⟩ := q
    simp only [List.map_cons, List.nodup_cons] at hnd
    simp only [List.map_cons, List.sum_cons] at hlen
    have hc : 0 ≤ num_to_fill := hpos (shard_idx, num_to_fill) (List.mem_cons_self _ _)
    have ih' := ih (offset + num_to_fill.toNat) hnd.2
      (fun p hp => hpos p (List.mem_cons_of_mem _ hp)) (by omega)
    simp only [slices_for, List.length_append, Nat.cast_add]
    rw [ih']
    by_cases h : shard_idx = s
    · subst h
      have hnone : map_get rest shard_idx 0 = 0 := by
        simp [map_get, map_find_none_of_not_mem rest shard_idx hnd.1]
      have hhead : map_get ((shard_idx, num_to_fill) :: rest) shard_idx 0 = num_to_fill := by
        simp [map_get, map_find]
      rw [hnone, hhead, if_pos rfl, List.length_take, List.length_drop]
      have := Int.toNat_of_nonneg hc
      omega
    · have hhead : map_get ((shard_idx, num_to_fill) :: rest) s 0 = map_get rest s 0 := by
        simp [map_get, map_find, h]
      rw [hhead, if_neg h]
      simp

theorem sum_toNat_eq (fills : List (Nat × Int)) (hpos : ∀ p ∈ fills, 0 ≤ p.2) :
    (((fills.map (fun p => p.2.toNat)).sum : Nat) : Int) = (fills.map Prod.snd).sum := by
  induction fills with
  | nil => simp
  | cons p rest ih =>
    simp only [List.map_cons, List.sum_cons, Nat.cast_add]
    have h1 := Int.toNat_of_nonneg (hpos p (List.mem_cons_self _ _))
    have h2 := ih (fun q hq => hpos q (List.mem_cons_of_mem _ hq))
    omega

theorem add_to_shard_size_getD_self (sizes : List Int) (i : Nat) (d : Int)
    (hi : i < sizes.length) :
    (add_to_shard_size sizes i d).getD i 0 = sizes.getD i 0 + d := by
  simp only [add_to_shard_size, List.getD_eq_getElem?_getD, List.getElem?_set]
  simp [hi]

theorem upsert_loop_ok (shard_upsert : ShardRpc) (num_inserted : List (Nat × Int)) :
    ∀ (requests : SentBatches) (self : ShardedIndexServiceImpl) (sent : SentBatches),
      (upsert_loop shard_upsert num_inserted requests self sent).1 = StatusCode.OK →
      (∀ s, self.m_shard_sizes_.length ≤ s → map_get num_inserted s 0 = 0) →
      (upsert_loop shard_upsert num_inserted requests self sent).2.2 = sent ++ requests ∧
      ∀ s, (upsert_loop shard_upsert num_inserted requests self sent).2.1.m_shard_sizes_.getD
          s 0 = self.m_shard_sizes_.getD s 0 +
            ((requests.filter (fun b => b.1 = s)).map
              (fun b => map_get num_inserted b.1 0)).sum := by
  intro requests
  induction requests with
  | nil => intro self sent _ _; simp [upsert_loop]
  | cons p rest ih =>
    intro self sent hok hni
    obtain ⟨shard_idx, request⟩ := p
    simp only [upsert_loop] at hok ⊢
    split at hok
    · simp at hok
    · rename_i hrpc
      rw [if_neg hrpc]
      obtain ⟨h1, h2⟩ := ih _ _ hok (by
        intro s hs
        apply hni s
        simpa [add_to_shard_size_length] using hs)
      refine ⟨by rw [h1]; simp, ?_⟩
      intro s
      rw [h2 s]
      simp only [List.filter_cons]
      by_cases hs : shard_idx = s
      · subst hs
        simp only [decide_True, if_true, List.map_cons, List.sum_cons]
        by_cases hi : shard_idx < self.m_shard_sizes_.length
        · rw [add_to_shard_size_getD_self _ _ _ hi]
          omega
        · have e : add_to_shard_size self.m_shard_sizes_ shard_idx
              (map_get num_inserted shard_idx 0) = self.m_shard_sizes_ := by
            simp only [add_to_shard_size]
            exact List.set_eq_of_length_le (by omega)
          rw [e, hni shard_idx (by omega)]
          omega
      · have hd : decide (shard_idx = s) = false := by simpa using hs
        simp only [hd]
        rw [add_to_shard_size_getD_ne _ _ _ _ (fun e => hs e.symm)]
        simp

end ShardedIndexServiceImpl

namespace ShardedIndexServiceImpl

theorem upsert_requests_keys_nodup (self : ShardedIndexServiceImpl) (vectors : List Vector) :
    ((self.upsert_requests vectors).map Prod.fst).Nodup := by
  simp only [upsert_requests]
  exact upsert_assign_keys_nodup _ _ _ _ _ (upsert_split_keys_nodup _ vectors [] [] (by simp))

theorem upsert_requests_get (self : ShardedIndexServiceImpl) (vectors : List Vector) (s : Nat) :
    map_get (self.upsert_requests vectors) s [] =
      map_get (upsert_split self.m_vector_shard_assignments_ vectors [] []).1 s [] ++
        slices_for (vectors.filter self.unplaced)
          (algo.greedy_fill ((vectors.filter self.unplaced).length : Int)
            self.m_shard_capacity_ self.m_shard_sizes_).2 0 s := by
  have hnew := upsert_split_new self.m_vector_shard_assignments_ vectors [] []
  simp only [List.nil_append] at hnew
  simp only [upsert_requests, upsert_assign_get, hnew]
  rfl

theorem upsert_requests_updates_placed (self : ShardedIndexServiceImpl) (vectors : List Vector)
    (s : Nat) (v : Vector)
    (h : v ∈ map_get (upsert_split self.m_vector_shard_assignments_ vectors [] []).1 s []) :
    v ∈ vectors ∧ map_find self.m_vector_shard_assignments_ (to_int v.id) = some s := by
  rw [upsert_split_mem] at h
  rcases h with h | h
  · simp [map_get, map_find] at h
  · exact h

theorem Upsert_unfold (self : ShardedIndexServiceImpl) (vectors : List Vector)
    (shard_upsert : ShardRpc) (iteration_order : SentBatches → SentBatches) :
    self.Upsert vectors shard_upsert iteration_order =
      if self.upsert_unassigned vectors ≠ 0 then (StatusCode.RESOURCE_EXHAUSTED, self, [])
      else
        upsert_loop shard_upsert
          (upsert_assign (upsert_split self.m_vector_shard_assignments_ vectors [] []).2
            (algo.greedy_fill
              (upsert_split self.m_vector_shard_assignments_ vectors [] []).2.length
              self.m_shard_capacity_ self.m_shard_sizes_).2 0
            (upsert_split self.m_vector_shard_assignments_ vectors [] []).1 []).2
          (iteration_order (self.upsert_requests vectors)) self [] := by
  rfl

theorem upsert_loop_status_ne (shard_upsert : ShardRpc) (num_inserted : List (Nat × Int))
    (requests : SentBatches) (self : ShardedIndexServiceImpl) (sent : SentBatches) :
    (upsert_loop shard_upsert num_inserted requests self sent).1
      ≠ StatusCode.RESOURCE_EXHAUSTED := by
  rcases upsert_loop_status shard_upsert num_inserted requests self sent with h | h
  · rw [h]; simp
  · rw [h]; simp

theorem upsert_loop_ok_all_sent (shard_upsert : ShardRpc) (num_inserted : List (Nat × Int)) :
    ∀ (requests : SentBatches) (self : ShardedIndexServiceImpl) (sent : SentBatches),
      (upsert_loop shard_upsert num_inserted requests self sent).1 = StatusCode.OK →
      (upsert_loop shard_upsert num_inserted requests self sent).2.2 = sent ++ requests := by
  intro requests
  induction requests with
  | nil => intro self sent _; simp [upsert_loop]
  | cons p rest ih =>
    intro self sent hok
    obtain ⟨shard_idx, request⟩ := p
    simp only [upsert_loop] at hok ⊢
    split at hok
    · simp at hok
    · rename_i hrpc
      rw [if_neg hrpc, ih _ _ hok]
      simp

/-- C16: for every router state and every Upsert request that passes the capacity check,
the per-shard upsert batches hold one batch per shard and together exactly the request
vectors, each occurrence once; a request vector whose id has a placement is in the batch of
the shard shard_of[id] and in no batch of another shard; when the Upsert returns OK the
batches sent are these batches. -/
theorem upsert_batches_routing (self : ShardedIndexServiceImpl) (vectors : List Vector)
    (shard_upsert : ShardRpc) (iteration_order : SentBatches → SentBatches)
    (hcap : self.upsert_unassigned vectors = 0) :
    ((self.upsert_requests vectors).map Prod.fst).Nodup ∧
    (((self.upsert_requests vectors).map Prod.snd).flatten).Perm vectors ∧
    (∀ v ∈ vectors, ∀ s, map_find self.m_vector_shard_assignments_ (to_int v.id) = some s →
      v ∈ map_get (self.upsert_requests vectors) s [] ∧
      ∀ b ∈ self.upsert_requests vectors, v ∈ b.2 → b.1 = s) ∧
    ((self.Upsert vectors shard_upsert iteration_order).1 = StatusCode.OK →
      (self.Upsert vectors shard_upsert iteration_order).2.2 =
        iteration_order (self.upsert_requests vectors)) := by
  have hnd := upsert_requests_keys_nodup self vectors
  have hnew := upsert_split_new self.m_vector_shard_assignments_ vectors [] []
  simp only [List.nil_append] at hnew
  refine ⟨hnd, ?_, ?_, ?_⟩
  · have h1 := upsert_assign_perm
      (upsert_split self.m_vector_shard_assignments_ vectors [] []).2
      (algo.greedy_fill (upsert_split self.m_vector_shard_assignments_ vectors [] []).2.length
        self.m_shard_capacity_ self.m_shard_sizes_).2 0
      (upsert_split self.m_vector_shard_assignments_ vectors [] []).1 []
    have hsum := algo.greedy_fill_sum
      (upsert_split self.m_vector_shard_assignments_ vectors [] []).2.length
      self.m_shard_capacity_ self.m_shard_sizes_
    have hge := sum_toNat_ge
      (algo.greedy_fill (upsert_split self.m_vector_shard_assignments_ vectors [] []).2.length
        self.m_shard_capacity_ self.m_shard_sizes_).2
    simp only [upsert_unassigned] at hcap
    rw [List.drop_zero, List.take_of_length_le (by omega)] at h1
    have h2 := upsert_split_perm self.m_vector_shard_assignments_ vectors [] []
    simp only [List.map_nil, List.flatten_nil, List.nil_append] at h2
    exact h1.trans h2
  · intro v hv s hs
    constructor
    · rw [upsert_requests_get, List.mem_append]
      left
      rw [upsert_split_mem]
      exact Or.inr ⟨hv, hs⟩
    · intro b hb hvb
      have hb2 := map_get_of_mem _ hnd b hb []
      rw [← hb2, upsert_requests_get, List.mem_append] at hvb
      rcases hvb with h | h
      · have := (upsert_requests_updates_placed self vectors b.1 v h).2
        rw [hs] at this
        simpa using this.symm
      · have hmem := slices_for_subset _ _ _ _ _ h
        rw [List.mem_filter] at hmem
        have := hmem.2
        simp only [unplaced, hs] at this
        simp at this
  · intro hok
    rw [Upsert_unfold] at hok ⊢
    rw [if_neg (by simpa using hcap)] at hok ⊢
    rw [upsert_loop_ok_all_sent _ _ _ _ _ hok]
    rfl

theorem upsert_batches_routing_witness :
    (ShardedIndexServiceImpl.mk 2 2 [2, 1] [(1, 0), (2, 0), (3, 1)]).upsert_unassigned
      [⟨2, [0, 0]⟩, ⟨4, [0, 0]⟩] = 0 ∧
    (ShardedIndexServiceImpl.mk 2 2 [2, 1] [(1, 0), (2, 0), (3, 1)]).upsert_requests
      [⟨2, [0, 0]⟩, ⟨4, [0, 0]⟩] = [(0, [⟨2, [0, 0]⟩]), (1, [⟨4, [0, 0]⟩])] ∧
    (((ShardedIndexServiceImpl.mk 2 2 [2, 1] [(1, 0), (2, 0), (3, 1)]).upsert_requests
      [⟨2, [0, 0]⟩, ⟨4, [0, 0]⟩]).map Prod.fst).Nodup :=
  ⟨by decide, by decide,
   (upsert_batches_routing (ShardedIndexServiceImpl.mk 2 2 [2, 1] [(1, 0), (2, 0), (3, 1)])
    [⟨2, [0, 0]⟩, ⟨4, [0, 0]⟩] healthy id (by decide)).1⟩

theorem upsert_batch_new_count (self : ShardedIndexServiceImpl) (vectors : List Vector)
    (hinv : ∀ s ∈ self.m_shard_sizes_, s ≤ self.m_shard_capacity_)
    (hcap : self.upsert_unassigned vectors = 0) (b : Nat × List Vector)
    (hb : b ∈ self.upsert_requests vectors) :
    ((b.2.filter self.unplaced).length : Int) =
      map_get (algo.greedy_fill ((vectors.filter self.unplaced).length : Int)
        self.m_shard_capacity_ self.m_shard_sizes_).2 b.1 0 := by
  have hnd := upsert_requests_keys_nodup self vectors
  have hnew := upsert_split_new self.m_vector_shard_assignments_ vectors [] []
  simp only [List.nil_append] at hnew
  have hnew' : (upsert_split self.m_vector_shard_assignments_ vectors [] []).2 =
      vectors.filter self.unplaced := hnew
  have hb2 := map_get_of_mem _ hnd b hb []
  rw [← hb2, upsert_requests_get, List.filter_append]
  have h1 : (map_get (upsert_split self.m_vector_shard_assignments_ vectors [] []).1 b.1
      []).filter self.unplaced = [] := by
    rw [List.filter_eq_nil_iff]
    intro v hv
    have := (upsert_requests_updates_placed self vectors b.1 v hv).2
    simp [unplaced, this]
  have h2 : (slices_for (vectors.filter self.unplaced)
      (algo.greedy_fill ((vectors.filter self.unplaced).length : Int)
        self.m_shard_capacity_ self.m_shard_sizes_).2 0 b.1).filter self.unplaced =
      slices_for (vectors.filter self.unplaced)
      (algo.greedy_fill ((vectors.filter self.unplaced).length : Int)
        self.m_shard_capacity_ self.m_shard_sizes_).2 0 b.1 := by
    rw [List.filter_eq_self]
    intro v hv
    have := slices_for_subset _ _ _ _ _ hv
    rw [List.mem_filter] at this
    exact this.2
  rw [h1, h2, List.nil_append]
  have hpos := algo.greedy_fill_pos ((vectors.filter self.unplaced).length : Int)
    self.m_shard_capacity_ self.m_shard_sizes_ (by omega) hinv
  have hpos' : ∀ p ∈ (algo.greedy_fill ((vectors.filter self.unplaced).length : Int)
      self.m_shard_capacity_ self.m_shard_sizes_).2, 0 ≤ p.2 :=
    fun p hp => le_of_lt (hpos p hp)
  apply slices_for_length _ _ _ 0 (algo.greedy_fill_keys_sorted _ _ _).nodup hpos'
  have hsum := algo.greedy_fill_sum ((vectors.filter self.unplaced).length : Int)
    self.m_shard_capacity_ self.m_shard_sizes_
  have heq := sum_toNat_eq _ hpos'
  simp only [upsert_unassigned, hnew'] at hcap
  omega

/-- C15: for every successful router Upsert on a state whose shard sizes do not exceed the
capacity, shard_sizes[s] grows by exactly the number of request vectors without a prior
placement among the vectors sent to shard s; it is unchanged for every shard that receives
only vectors of already placed ids (or nothing). -/
theorem upsert_sizes_grow_by_new (self : ShardedIndexServiceImpl) (vectors : List Vector)
    (shard_upsert : ShardRpc) (iteration_order : SentBatches → SentBatches)
    (horder : ∀ m, (iteration_order m).Perm m)
    (hinv : ∀ s ∈ self.m_shard_sizes_, s ≤ self.m_shard_capacity_)
    (hok : (self.Upsert vectors shard_upsert iteration_order).1 = StatusCode.OK) :
    (∀ s, (self.Upsert vectors shard_upsert iteration_order).2.1.m_shard_sizes_.getD s 0 =
      self.m_shard_sizes_.getD s 0 +
        self.num_new_routed (self.Upsert vectors shard_upsert iteration_order).2.2 s) ∧
    (∀ s, (∀ b ∈ (self.Upsert vectors shard_upsert iteration_order).2.2, b.1 = s →
        ∀ v ∈ b.2, self.unplaced v = false) →
      (self.Upsert vectors shard_upsert iteration_order).2.1.m_shard_sizes_.getD s 0 =
        self.m_shard_sizes_.getD s 0) := by
  have hmain : ∀ s,
      (self.Upsert vectors shard_upsert iteration_order).2.1.m_shard_sizes_.getD s 0 =
      self.m_shard_sizes_.getD s 0 +
        self.num_new_routed (self.Upsert vectors shard_upsert iteration_order).2.2 s := by
    have hcap : self.upsert_unassigned vectors = 0 := by
      by_contra hne
      rw [Upsert_unfold, if_pos hne] at hok
      simp at hok
    have hnew := upsert_split_new self.m_vector_shard_assignments_ vectors [] []
    simp only [List.nil_append] at hnew
    have hnew' : (upsert_split self.m_vector_shard_assignments_ vectors [] []).2 =
        vectors.filter self.unplaced := hnew
    rw [Upsert_unfold, if_neg (by simpa using hcap)] at hok ⊢
    have hnd := (algo.greedy_fill_keys_sorted
      ((vectors.filter self.unplaced).length : Int) self.m_shard_capacity_
      self.m_shard_sizes_).nodup
    have hni : ∀ s, map_get (upsert_assign
        (upsert_split self.m_vector_shard_assignments_ vectors [] []).2
        (algo.greedy_fill
          (upsert_split self.m_vector_shard_assignments_ vectors [] []).2.length
          self.m_shard_capacity_ self.m_shard_sizes_).2 0
        (upsert_split self.m_vector_shard_assignments_ vectors [] []).1 []).2 s 0 =
        map_get (algo.greedy_fill ((vectors.filter self.unplaced).length : Int)
          self.m_shard_capacity_ self.m_shard_sizes_).2 s 0 := by
      intro s
      rw [hnew']
      exact upsert_assign_count_get _ s _ _ hnd
    obtain ⟨h1, h2⟩ := upsert_loop_ok shard_upsert _ _ self [] hok (by
      intro s hs
      rw [hni s]
      cases hf : map_find (algo.greedy_fill ((vectors.filter self.unplaced).length : Int)
          self.m_shard_capacity_ self.m_shard_sizes_).2 s with
      | none => simp [map_get, hf]
      | some c =>
        exfalso
        have hmem : s ∈ (algo.greedy_fill ((vectors.filter self.unplaced).length : Int)
            self.m_shard_capacity_ self.m_shard_sizes_).2.map Prod.fst := by
          by_contra hnot
          rw [map_find_none_of_not_mem _ s hnot] at hf
          simp at hf
        obtain ⟨p, hp, hp1⟩ := List.mem_map.1 hmem
        have := (algo.greedy_fill_fits _ _ _ p hp).1
        omega)
    intro s
    rw [h2 s, h1]
    simp only [List.nil_append, num_new_routed]
    congr 2
    apply List.map_congr_left
    intro b hb
    have hb' : b ∈ self.upsert_requests vectors :=
      (horder _).subset (List.mem_of_mem_filter hb)
    rw [hni b.1, upsert_batch_new_count self vectors hinv hcap b hb']
  refine ⟨hmain, ?_⟩
  intro s hs
  rw [hmain s]
  have hz : self.num_new_routed (self.Upsert vectors shard_upsert iteration_order).2.2 s
      = 0 := by
    simp only [num_new_routed]
    apply List.sum_eq_zero
    intro x hx
    obtain ⟨b, hb, rfl⟩ := List.mem_map.1 hx
    rw [List.mem_filter] at hb
    have : b.2.filter self.unplaced = [] := by
      rw [List.filter_eq_nil_iff]
      intro v hv
      have := hs b hb.1 (by simpa using hb.2) v hv
      simp [this]
    simp [this]
  rw [hz]
  omega

theorem upsert_sizes_grow_by_new_witness :
    ((ShardedIndexServiceImpl.mk 2 2 [2, 1] [(1, 0), (2, 0), (3, 1)]).Upsert
      [⟨2, [0, 0]⟩, ⟨4, [0, 0]⟩] healthy List.reverse) =
      (StatusCode.OK, ⟨2, 2, [2, 2], [(1, 0), (2, 0), (3, 1), (4, 1)]⟩,
        [(1, [⟨4, [0, 0]⟩]), (0, [⟨2, [0, 0]⟩])]) ∧
    ((ShardedIndexServiceImpl.mk 2 2 [2, 1] [(1, 0), (2, 0), (3, 1)]).Upsert
      [⟨2, [0, 0]⟩, ⟨4, [0, 0]⟩] healthy List.reverse).2.1.m_shard_sizes_.getD 1 0 =
      (ShardedIndexServiceImpl.mk 2 2 [2, 1] [(1, 0), (2, 0), (3, 1)]).m_shard_sizes_.getD 1 0
      + (ShardedIndexServiceImpl.mk 2 2 [2, 1] [(1, 0), (2, 0), (3, 1)]).num_new_routed
        ((ShardedIndexServiceImpl.mk 2 2 [2, 1] [(1, 0), (2, 0), (3, 1)]).Upsert
          [⟨2, [0, 0]⟩, ⟨4, [0, 0]⟩] healthy List.reverse).2.2 1 :=
  ⟨by decide,
   (upsert_sizes_grow_by_new (ShardedIndexServiceImpl.mk 2 2 [2, 1] [(1, 0), (2, 0), (3, 1)])
    [⟨2, [0, 0]⟩, ⟨4, [0, 0]⟩] healthy List.reverse (fun m => List.reverse_perm m)
    (by decide) (by decide)).1 1⟩

end ShardedIndexServiceImpl

/-! ### Insert of new ids: the slices sent and the commits -/

theorem map_find_map_insert_of_none {κ β : Type} [DecidableEq κ] (m : List (κ × β))
    (key key' : κ) (v' : β) (h : map_find m key = none) :
    map_find (map_insert m key' v') key = if key' = key then some v' else none := by
  induction m with
  | nil => simp [map_insert, map_find]
  | cons p rest ih =>
    obtain ⟨k, w⟩ := p
    simp only [map_find] at h
    by_cases hk : k = key
    · rw [if_pos hk] at h
      simp at h
    · rw [if_neg hk] at h
      simp only [map_insert]
      by_cases hk' : k = key'
      · rw [if_pos hk']
        have hne : ¬ key' = key := by rw [← hk']; exact hk
        simp only [map_find, if_neg hk, h, if_neg hne]
      · rw [if_neg hk']
        simp only [map_find, if_neg hk]
        exact ih h

namespace ShardedIndexServiceImpl

theorem record_assignments_find_other (shard_idx : Nat) (key : Int) :
    ∀ (vectors : List Vector) (assignments : List (Int × Nat)),
      map_find assignments key = none →
      key ∉ vectors.map (fun v => to_int v.id) →
      map_find (record_assignments assignments vectors shard_idx) key = none := by
  intro vectors
  induction vectors with
  | nil => intro a h _; exact h
  | cons w rest ih =>
    intro a h hk
    simp only [List.map_cons, List.mem_cons, not_or] at hk
    simp only [record_assignments, List.foldl_cons]
    apply ih
    · rw [map_find_map_insert_of_none a key _ _ h, if_neg (fun e => hk.1 e.symm)]
    · exact hk.2

theorem record_assignments_find_new (shard_idx : Nat) (v : Vector) :
    ∀ (vectors : List Vector) (assignments : List (Int × Nat)),
      map_find assignments (to_int v.id) = none → v ∈ vectors →
      map_find (record_assignments assignments vectors shard_idx) (to_int v.id)
        = some shard_idx := by
  intro vectors
  induction vectors with
  | nil => intro a _ hv; simp at hv
  | cons w rest ih =>
    intro a h hv
    simp only [record_assignments, List.foldl_cons]
    by_cases hk : to_int w.id = to_int v.id
    · have h1 : map_find (map_insert a (to_int w.id) shard_idx) (to_int v.id)
          = some shard_idx := by
        rw [map_find_map_insert_of_none a _ _ _ h, if_pos hk]
      exact record_assignments_find rest shard_idx _ _ _ h1
    · have h1 : map_find (map_insert a (to_int w.id) shard_idx) (to_int v.id) = none := by
        rw [map_find_map_insert_of_none a _ _ _ h, if_neg hk]
      simp only [List.mem_cons] at hv
      rcases hv with rfl | hv
      · exact absurd rfl hk
      · exact ih _ h1 hv

theorem insert_loop_new (vectors : List Vector) :
    ∀ (shard_fills : List (Nat × Int)) (offset : Nat) (self : ShardedIndexServiceImpl)
      (sent : SentBatches),
      (∀ v ∈ vectors.drop offset, self.unplaced v = true) →
      ((vectors.drop offset).map (fun v => to_int v.id)).Nodup →
      offset + (shard_fills.map (fun p => p.2.toNat)).sum ≤ vectors.length →
      (∀ p ∈ shard_fills, 0 < p.2) →
      (∀ p ∈ shard_fills, p.1 < self.m_shard_sizes_.length) →
      (shard_fills.map Prod.fst).Nodup →
      (insert_loop vectors healthy shard_fills offset self sent).1 = StatusCode.OK ∧
      (insert_loop vectors healthy shard_fills offset self sent).2.2 =
        sent ++ insert_slices vectors shard_fills offset ∧
      (∀ s, (insert_loop vectors healthy shard_fills offset self sent).2.1.m_shard_sizes_.getD
        s 0 = self.m_shard_sizes_.getD s 0 + map_get shard_fills s 0) ∧
      (∀ b ∈ insert_slices vectors shard_fills offset, ∀ v ∈ b.2,
        map_find (insert_loop vectors healthy shard_fills offset self
          sent).2.1.m_vector_shard_assignments_ (to_int v.id) = some b.1) := by
  intro shard_fills
  induction shard_fills with
  | nil =>
    intro offset self sent _ _ _ _ _ _
    simp [insert_loop, insert_slices, map_get, map_find]
  | cons p rest ih =>
    intro offset self sent hun hkeys hlen hpos hlt hnd
    obtain ⟨shard_idx, num_to_fill⟩ := p
    simp only [List.map_cons, List.sum_cons] at hlen
    simp only [List.map_cons, List.nodup_cons] at hnd
    have hc : 0 < num_to_fill := hpos (shard_idx, num_to_fill) (List.mem_cons_self _ _)
    have hidx : shard_idx < self.m_shard_sizes_.length :=
      hlt (shard_idx, num_to_fill) (List.mem_cons_self _ _)
    have hsplit : vectors.drop offset =
        (vectors.drop offset).take num_to_fill.toNat ++
          vectors.drop (offset + num_to_fill.toNat) := by
      rw [← List.drop_drop, List.take_append_drop]
    have hfilter : List.filter
        (fun vector => (map_find self.m_vector_shard_assignments_ (to_int vector.id)).isNone)
        (List.take num_to_fill.toNat (List.drop offset vectors)) =
        List.take num_to_fill.toNat (List.drop offset vectors) := by
      rw [List.filter_eq_self]
      intro v hv
      exact hun v (List.mem_of_mem_take hv)
    have hslen : ((List.take num_to_fill.toNat (List.drop offset vectors)).length : Int)
        = num_to_fill := by
      rw [List.length_take, List.length_drop]
      have := Int.toNat_of_nonneg (le_of_lt hc)
      omega
    rw [hsplit, List.map_append, List.nodup_append] at hkeys
    obtain ⟨_, hk2, hdisj⟩ := hkeys
    have hstep := ih (offset + num_to_fill.toNat)
      { self with
        m_shard_sizes_ := add_to_shard_size self.m_shard_sizes_ shard_idx num_to_fill
        m_vector_shard_assignments_ :=
          record_assignments self.m_vector_shard_assignments_
            (List.take num_to_fill.toNat (List.drop offset vectors)) shard_idx }
      (sent ++ [(shard_idx, List.take num_to_fill.toNat (List.drop offset vectors))])
      (by
        intro v hv
        have hv0 : self.unplaced v = true := hun v (by rw [hsplit]; exact List.mem_append_right _ hv)
        simp only [unplaced, Option.isNone_iff_eq_none] at hv0 ⊢
        apply record_assignments_find_other _ _ _ _ hv0
        intro hmem
        exact hdisj hmem (List.mem_map_of_mem (fun v => to_int v.id) hv))
      hk2 (by omega) (fun q hq => hpos q (List.mem_cons_of_mem _ hq))
      (fun q hq => by
        simpa [add_to_shard_size_length] using hlt q (List.mem_cons_of_mem _ hq))
      hnd.2
    have hunfold : insert_loop vectors healthy ((shard_idx, num_to_fill) :: rest) offset self
        sent = insert_loop vectors healthy rest (offset + num_to_fill.toNat)
      { self with
        m_shard_sizes_ := add_to_shard_size self.m_shard_sizes_ shard_idx num_to_fill
        m_vector_shard_assignments_ :=
          record_assignments self.m_vector_shard_assignments_
            (List.take num_to_fill.toNat (List.drop offset vectors)) shard_idx }
      (sent ++ [(shard_idx, List.take num_to_fill.toNat (List.drop offset vectors))]) := by
      simp only [insert_loop, hfilter, hslen]
      rw [if_neg (by simp [healthy]), if_pos (by omega)]
    rw [hunfold]
    obtain ⟨h1, h2, h3, h4⟩ := hstep
    refine ⟨h1, ?_, ?_, ?_⟩
    · rw [h2]
      simp [insert_slices]
    · intro s
      rw [h3 s]
      by_cases hs : shard_idx = s
      · subst hs
        have hnone : map_get rest shard_idx 0 = 0 := by
          simp [map_get, map_find_none_of_not_mem rest shard_idx hnd.1]
        have hhead : map_get ((shard_idx, num_to_fill) :: rest) shard_idx 0
            = num_to_fill := by
          simp [map_get, map_find]
        show (add_to_shard_size self.m_shard_sizes_ shard_idx num_to_fill).getD shard_idx 0
          + _ = _
        rw [add_to_shard_size_getD_self _ _ _ hidx, hnone, hhead]
        omega
      · have hhead : map_get ((shard_idx, num_to_fill) :: rest) s 0 = map_get rest s 0 := by
          simp [map_get, map_find, hs]
        show (add_to_shard_size self.m_shard_sizes_ shard_idx num_to_fill).getD s 0 + _ = _
        rw [add_to_shard_size_getD_ne _ _ _ _ (fun e => hs e.symm), hhead]
    · intro b hb v hv
      simp only [insert_slices, List.mem_cons] at hb
      rcases hb with rfl | hb
      · apply insert_loop_find
        show map_find (record_assignments self.m_vector_shard_assignments_ _ shard_idx)
          (to_int v.id) = some shard_idx
        apply record_assignments_find_new
        · have := hun v (List.mem_of_mem_take hv)
          simpa [unplaced] using this
        · exact hv
      · exact h4 b hb v hv

theorem insert_slices_flatten (vectors : List Vector) :
    ∀ (shard_fills : List (Nat × Int)) (offset : Nat),
      ((insert_slices vectors shard_fills offset).map Prod.snd).flatten =
        (vectors.drop offset).take (shard_fills.map (fun p => p.2.toNat)).sum := by
  intro shard_fills
  induction shard_fills with
  | nil => intro offset; simp [insert_slices]
  | cons p rest ih =>
    intro offset
    obtain ⟨shard_idx, num_to_fill⟩ := p
    simp only [insert_slices, List.map_cons, List.flatten_cons, ih, List.sum_cons,
      List.take_add, List.drop_drop]

/-- Insert of ids that are new and pairwise distinct as keys of the placement table, on a
state within capacity and with healthy shards when the request fits: the batches sent are the
consecutive slices of the request cut by greedy_fill, in ascending shard order; each shard
size grows by its count and each id is placed on the shard of its slice. -/
theorem insert_new_ids (self : ShardedIndexServiceImpl) (vectors : List Vector)
    (hinv : ∀ s ∈ self.m_shard_sizes_, s ≤ self.m_shard_capacity_)
    (hkeys : (vectors.map (fun v => to_int v.id)).Nodup)
    (hnew : ∀ v ∈ vectors, self.unplaced v = true)
    (hfit : (vectors.length : Int) ≤
      algo.total_available self.m_shard_capacity_ self.m_shard_sizes_) :
    (self.Insert vectors healthy).1 = StatusCode.OK ∧
    (self.Insert vectors healthy).2.2 = insert_slices vectors
      (algo.greedy_fill vectors.length self.m_shard_capacity_ self.m_shard_sizes_).2 0 ∧
    (((self.Insert vectors healthy).2.2.map Prod.snd).flatten = vectors) ∧
    (∀ s, (self.Insert vectors healthy).2.1.m_shard_sizes_.getD s 0 =
      self.m_shard_sizes_.getD s 0 +
        map_get (algo.greedy_fill vectors.length self.m_shard_capacity_
          self.m_shard_sizes_).2 s 0) ∧
    (∀ b ∈ (self.Insert vectors healthy).2.2, ∀ v ∈ b.2,
      map_find (self.Insert vectors healthy).2.1.m_vector_shard_assignments_ (to_int v.id)
        = some b.1) := by
  have hleft := algo.greedy_fill_leftover vectors.length self.m_shard_capacity_
    self.m_shard_sizes_ (by omega) hinv
  have hz : (algo.greedy_fill vectors.length self.m_shard_capacity_ self.m_shard_sizes_).1
      = 0 := by
    rw [hleft]; omega
  have hpos := algo.greedy_fill_pos vectors.length self.m_shard_capacity_
    self.m_shard_sizes_ (by omega) hinv
  have hsum := algo.greedy_fill_sum vectors.length self.m_shard_capacity_ self.m_shard_sizes_
  have heq := sum_toNat_eq
    (algo.greedy_fill vectors.length self.m_shard_capacity_ self.m_shard_sizes_).2
    (fun p hp => le_of_lt (hpos p hp))
  obtain ⟨h1, h2, h3, h4⟩ := insert_loop_new vectors
    (algo.greedy_fill vectors.length self.m_shard_capacity_ self.m_shard_sizes_).2 0 self []
    (by simpa using hnew) (by simpa using hkeys) (by omega) hpos
    (fun p hp => (algo.greedy_fill_fits _ _ _ p hp).1)
    (algo.greedy_fill_keys_sorted _ _ _).nodup
  have hI : self.Insert vectors healthy = insert_loop vectors healthy
      (algo.greedy_fill vectors.length self.m_shard_capacity_ self.m_shard_sizes_).2 0
      self [] := by
    simp only [Insert]
    rw [if_neg (by simpa using hz)]
  rw [hI]
  simp only [List.nil_append] at h2
  refine ⟨h1, h2, ?_, h3, ?_⟩
  · rw [h2, insert_slices_flatten, List.drop_zero, List.take_of_length_le (by omega)]
  · rw [h2]
    exact h4

end ShardedIndexServiceImpl

namespace ShardedIndexServiceImpl

theorem search_loop_all_ok (k : Nat) (shard_search : ShardSearch) :
    ∀ (search_shard_idx : List Nat) (best : List Neighbor) (calls : List Nat),
      (∀ i ∈ search_shard_idx, (shard_search i).1 = true) →
      (search_loop k shard_search search_shard_idx best calls).1 = StatusCode.OK ∧
      (search_loop k shard_search search_shard_idx best calls).2.2
        = calls ++ search_shard_idx := by
  intro search_shard_idx
  induction search_shard_idx with
  | nil => intro best calls _; simp [search_loop]
  | cons i rest ih =>
    intro best calls hok
    simp only [search_loop]
    rw [if_neg (by simp [hok i (List.mem_cons_self _ _)])]
    obtain ⟨h1, h2⟩ := ih (merge_shard_neighbors k best (shard_search i).2) (calls ++ [i])
      (fun j hj => hok j (List.mem_cons_of_mem _ hj))
    exact ⟨h1, by rw [h2]; simp⟩

theorem search_loop_failure (k : Nat) (shard_search : ShardSearch) :
    ∀ (search_shard_idx : List Nat) (best : List Neighbor) (calls : List Nat),
      (∃ i ∈ search_shard_idx, (shard_search i).1 = false) →
      (search_loop k shard_search search_shard_idx best calls).1
        = StatusCode.UNAVAILABLE := by
  intro search_shard_idx
  induction search_shard_idx with
  | nil => intro best calls h; simp at h
  | cons i rest ih =>
    intro best calls h
    simp only [search_loop]
    by_cases hi : (shard_search i).1 = false
    · rw [if_pos hi]
    · rw [if_neg hi]
      apply ih
      obtain ⟨j, hj, hjf⟩ := h
      simp only [List.mem_cons] at hj
      rcases hj with rfl | hj
      · exact absurd hjf hi
      · exact ⟨j, hj, hjf⟩

/-- Search fails with UNAVAILABLE when the search RPC to a non-empty shard other than the
first of `get_search_shard_idx` returns a non-ok status. -/
theorem Search_later_failure (self : ShardedIndexServiceImpl) (k : Nat)
    (shard_search : ShardSearch)
    (h : ∃ i ∈ self.get_search_shard_idx.drop 1, (shard_search i).1 = false) :
    (self.Search k shard_search).1 = StatusCode.UNAVAILABLE := by
  simp only [Search]
  split
  · rename_i hlen
    obtain ⟨i, hi, _⟩ := h
    have : self.get_search_shard_idx = [] := List.length_eq_zero.1 hlen
    rw [this] at hi
    simp at hi
  · have := search_loop_failure k shard_search _
      (seed_best_candidates k (shard_search 0).2) [0] h
    rw [if_pos this]

/-- When shard 0 is non-empty and every search RPC returns ok, Search returns OK after one
search RPC to every non-empty shard, in ascending index order. -/
theorem Search_calls_when_shard_zero_non_empty (self : ShardedIndexServiceImpl) (k : Nat)
    (shard_search : ShardSearch) (rest : List Nat)
    (h0 : self.get_search_shard_idx = 0 :: rest)
    (hok : ∀ i ∈ rest, (shard_search i).1 = true) :
    (self.Search k shard_search).1 = StatusCode.OK ∧
    (self.Search k shard_search).2.2 = self.get_search_shard_idx := by
  obtain ⟨h1, h2⟩ := search_loop_all_ok k shard_search rest
    (seed_best_candidates k (shard_search 0).2) [0] hok
  simp only [Search, h0, List.length_cons, List.drop_succ_cons, List.drop_zero]
  rw [if_neg (by omega), if_neg (by rw [h1]; simp)]
  exact ⟨rfl, by rw [h2]; rfl⟩

end ShardedIndexServiceImpl

/-! ### Conservation in greedy_fill, and what heap_replace returns -/

namespace algo

/-- C27: for every n, capacity and sizes, with no precondition on sizes, greedy_fill hands
every element either to a bucket or to the leftover: the assignments are a map (their keys
are strictly ascending, so no bucket occurs twice) and leftover plus the sum of all counts
is n. -/
theorem greedy_fill_conserves (n capacity : Int) (sizes : List Int) :
    ((greedy_fill n capacity sizes).2.map Prod.fst).Nodup ∧
    (greedy_fill n capacity sizes).1 + ((greedy_fill n capacity sizes).2.map Prod.snd).sum
      = n := by
  refine ⟨(greedy_fill_keys_sorted n capacity sizes).nodup, ?_⟩
  simp only [greedy_fill]
  split
  · rename_i h0
    simp [h0]
  · exact greedy_fill_loop_sum capacity sizes 0 n

theorem drop_swap {T : Type} [Inhabited T] (a : List T) (i j size : Nat) (hi : i < size)
    (hj : j < size) : (swap a i j).drop size = a.drop size := by
  simp only [swap]
  rw [List.drop_set_of_lt _ _ hj, List.drop_set_of_lt _ _ hi]

theorem heap_sift_drop {T : Type} [Inhabited T] (compare : T → T → Bool) (size : Nat) :
    ∀ (fuel : Nat) (a : List T) (idx : Nat),
      (heap_sift compare size fuel a idx).drop size = a.drop size := by
  intro fuel
  induction fuel with
  | zero => intro a idx; rfl
  | succ fuel ih =>
    intro a idx
    simp only [heap_sift]
    by_cases hidx : idx < size
    · rw [if_pos hidx]
      by_cases hleaf : idx * 2 + 1 ≥ size ∧ idx * 2 + 2 ≥ size
      · rw [if_pos hleaf]
      · rw [if_neg hleaf]
        have hl : idx * 2 + 1 < size := by omega
        have hm := (min_child_idx_lt compare a size idx hl).1
        split
        · rw [ih, drop_swap a idx _ size hidx hm]
        · rfl
    · rw [if_neg hidx]

/-- C28: called on an array of size at least 1, heap_replace returns the old root a[0]; the
size cells of the array afterwards are a permutation of the cells of a with a[0] replaced by
v, nothing lost or duplicated, and the number of cells and everything past the first size
cells are as before. Called with size 0, it returns v and leaves the array untouched. -/
theorem heap_replace_returns_root {T : Type} [Inhabited T] (a : List T) (size : Nat) (v : T)
    (compare : T → T → Bool) :
    (0 < size → size ≤ a.length →
      (heap_replace a size v compare).1 = a.getD 0 default ∧
      ((heap_replace a size v compare).2.take size).Perm ((a.set 0 v).take size) ∧
      (heap_replace a size v compare).2.length = a.length ∧
      (heap_replace a size v compare).2.drop size = a.drop size) ∧
    heap_replace a 0 v compare = (v, a) := by
  refine ⟨?_, by simp [heap_replace]⟩
  intro hpos hsize
  have hdrop : (heap_replace a size v compare).2.drop size = a.drop size := by
    simp only [heap_replace]
    rw [if_neg (by omega)]
    simp only []
    rw [heap_sift_drop, List.drop_set_of_lt _ _ hpos]
  refine ⟨?_, ?_, heap_replace_length a size v compare, hdrop⟩
  · simp only [heap_replace]
    rw [if_neg (by omega)]
  · have hperm := heap_replace_perm a size v compare hpos hsize
    rw [← List.take_append_drop size (heap_replace a size v compare).2,
      ← List.take_append_drop size (a.set 0 v), hdrop, List.drop_set_of_lt _ _ hpos] at hperm
    exact (List.perm_append_right_iff _).1 hperm

/-- Witness for C28: replacing the root of the min-heap [1, 3, 2] by 5 returns 1 and leaves
a permutation of [5, 3, 2]; with size 0 the value 5 comes back and the array is untouched. -/
theorem heap_replace_returns_root_witness :
    (0 < 3 ∧ 3 ≤ ([1, 3, 2] : List Int).length) ∧
    (heap_replace ([1, 3, 2] : List Int) 3 5 greater).1 = 1 ∧
    (heap_replace ([1, 3, 2] : List Int) 3 5 greater).2 = [2, 3, 5] ∧
    ((heap_replace ([1, 3, 2] : List Int) 3 5 greater).2.take 3).Perm
      ((([1, 3, 2] : List Int).set 0 5).take 3) ∧
    heap_replace ([1, 3, 2] : List Int) 0 5 greater = (5, [1, 3, 2]) :=
  ⟨by decide, by decide, by decide,
    ((heap_replace_returns_root ([1, 3, 2] : List Int) 3 5 greater).1
      (by decide) (by decide)).2.1,
    (heap_replace_returns_root ([1, 3, 2] : List Int) 3 5 greater).2⟩

end algo

namespace ShardedIndexServiceImpl

/-- C26: for a batch of exactly k neighbors sorted by descending score, the seeding step of
Search fills best[j] with batch[k-1-j] and nothing else is done to the array; the array is
then a min-heap by score (no parent has a greater score than its children at 2i+1 and 2i+2,
which is the heap property for the comparator of the merge) and its cell 0 holds a smallest
score. -/
theorem seed_is_min_heap (k : Nat) (batch : List Neighbor) (hlen : batch.length = k)
    (hsorted : batch.Sorted (fun x y => x.score ≥ y.score)) :
    (seed_best_candidates k batch).length = k ∧
    (∀ j < k, (seed_best_candidates k batch).getD j default
      = batch.getD (k - 1 - j) default) ∧
    algo.IsHeap is_score_greater (seed_best_candidates k batch) k ∧
    (∀ i < k,
      (i * 2 + 1 < k → ((seed_best_candidates k batch).getD i default).score ≤
        ((seed_best_candidates k batch).getD (i * 2 + 1) default).score) ∧
      (i * 2 + 2 < k → ((seed_best_candidates k batch).getD i default).score ≤
        ((seed_best_candidates k batch).getD (i * 2 + 2) default).score)) ∧
    (∀ x ∈ seed_best_candidates k batch,
      ((seed_best_candidates k batch).getD 0 default).score ≤ x.score) := by
  have hrev := seed_best_candidates_eq_reverse k batch hlen
  have hheap : algo.IsHeap is_score_greater (seed_best_candidates k batch) k := by
    rw [hrev, ← hlen]
    exact isHeap_reverse_of_sorted batch hsorted
  refine ⟨by rw [hrev, List.length_reverse, hlen], ?_, hheap, ?_, ?_⟩
  · intro j hj
    rw [hrev, List.getD_eq_getElem _ default (by simpa [hlen] using hj),
      List.getElem_reverse, List.getD_eq_getElem _ default (by omega)]
    congr 1
    omega
  · intro i hi
    have := hheap i hi
    simp only [is_score_greater, decide_eq_false_iff_not, not_lt] at this
    exact ⟨fun h => by have := this.1 h; omega, fun h => by have := this.2 h; omega⟩
  · apply heap_root_le
    rw [hrev, List.length_reverse, ← hrev, hlen]
    exact hheap

/-- Witness for C26: the batch with scores 9, 7, 4 (k = 3) is seeded as 4, 7, 9. -/
theorem seed_is_min_heap_witness :
    ([⟨1, 9⟩, ⟨2, 7⟩, ⟨3, 4⟩] : List Neighbor).length = 3 ∧
    seed_best_candidates 3 [⟨1, 9⟩, ⟨2, 7⟩, ⟨3, 4⟩] = [⟨3, 4⟩, ⟨2, 7⟩, ⟨1, 9⟩] ∧
    algo.IsHeap is_score_greater (seed_best_candidates 3 [⟨1, 9⟩, ⟨2, 7⟩, ⟨3, 4⟩]) 3 :=
  ⟨by decide, by decide,
    (seed_is_min_heap 3 [⟨1, 9⟩, ⟨2, 7⟩, ⟨3, 4⟩] (by decide)
      (by simp [List.Sorted])).2.2.1⟩

end ShardedIndexServiceImpl

/-! ### 64-bit ids and the 32-bit keys of the tables; Upsert twice; Upsert on a failed RPC -/

namespace FaissIndexServiceImpl

/-- C21 (defect of the code): the shard looks ids up in a set of 32-bit keys, so a request id
that was not seen and does not occur earlier in the request can still be dropped. On a fresh
shard with D = 2, Insert of ids 1 and 2^32 + 1 adds only id 1 to the index and leaves
ids_seen with the single key 1, although the two ids differ. -/
theorem insert_drops_unseen_id :
    (1 : Int) ≠ 4294967297 ∧
    to_int 4294967297 ∉ (FaissIndexServiceImpl.mk 2 [] []).m_ids_seen_ ∧
    (FaissIndexServiceImpl.mk 2 [] []).Insert [⟨1, [0, 0]⟩, ⟨4294967297, [0, 0]⟩] =
      (StatusCode.OK, ⟨2, [(1, [0, 0])], [1]⟩) := by
  decide

end FaissIndexServiceImpl

namespace ShardedIndexServiceImpl

/-- C22 (defect of the code): the ids 1 and 2^32 + 1 differ but convert to the same 32-bit
key. Once id 1 is placed by the router, the lookup of id 2^32 + 1 finds the entry of id 1 and
an Insert of id 2^32 + 1 sends an empty batch and records nothing; once the shard has seen
id 1, its Insert of id 2^32 + 1 adds nothing to the index. -/
theorem distinct_ids_share_key :
    (1 : Int) ≠ 4294967297 ∧ to_int 4294967297 = to_int 1 ∧
    (init 2 1 2).Insert [⟨1, [0, 0]⟩] healthy =
      (StatusCode.OK, ⟨2, 2, [1], [(1, 0)]⟩, [(0, [⟨1, [0, 0]⟩])]) ∧
    map_find (ShardedIndexServiceImpl.mk 2 2 [1] [(1, 0)]).m_vector_shard_assignments_
      (to_int 4294967297) = some 0 ∧
    (ShardedIndexServiceImpl.mk 2 2 [1] [(1, 0)]).Insert [⟨4294967297, [0, 0]⟩] healthy =
      (StatusCode.OK, ⟨2, 2, [1], [(1, 0)]⟩, [(0, [])]) ∧
    (FaissIndexServiceImpl.mk 2 [] []).Insert [⟨1, [0, 0]⟩] =
      (StatusCode.OK, ⟨2, [(1, [0, 0])], [1]⟩) ∧
    to_int 4294967297 ∈ (FaissIndexServiceImpl.mk 2 [(1, [0, 0])] [1]).m_ids_seen_ ∧
    (FaissIndexServiceImpl.mk 2 [(1, [0, 0])] [1]).Insert [⟨4294967297, [0, 0]⟩] =
      (StatusCode.OK, ⟨2, [(1, [0, 0])], [1]⟩) := by
  decide

/-- C25 (defect of the code): Upsert records the placements of a batch before it looks at
the status of the RPC. From the empty router (one shard of capacity 1), Upsert of id 1 whose
RPC to shard 0 fails returns UNAVAILABLE, leaves shard_sizes = [0] and yet records the
placement 1 -> 0; the same request as an Insert records nothing. -/
theorem upsert_failed_rpc_records_placement :
    (init 2 1 1).Upsert [⟨1, [0, 0]⟩] (fun _ _ => false) id =
      (StatusCode.UNAVAILABLE, ⟨2, 1, [0], [(1, 0)]⟩, [(0, [⟨1, [0, 0]⟩])]) ∧
    map_find (init 2 1 1).m_vector_shard_assignments_ (to_int 1) = none ∧
    map_find ((init 2 1 1).Upsert [⟨1, [0, 0]⟩]
      (fun _ _ => false) id).2.1.m_vector_shard_assignments_ (to_int 1) = some 0 ∧
    (init 2 1 1).Insert [⟨1, [0, 0]⟩] (fun _ _ => false) =
      (StatusCode.UNAVAILABLE, ⟨2, 1, [0], []⟩, [(0, [⟨1, [0, 0]⟩])]) := by
  decide

/-- C29 (defect of the code): two distinct ids that agree modulo 2^32 are counted twice and
placed once. From the empty router (one shard of capacity 2, sum of sizes 0 = 0 placements),
Insert of ids 1 and 2^32 + 1 with a healthy shard, and likewise Upsert, returns OK and
leaves shard_sizes = [2] with a placement table of one entry. -/
theorem distinct_ids_break_sum :
    (1 : Int) ≠ 4294967297 ∧
    (init 2 1 2).m_shard_sizes_.sum = ((init 2 1 2).m_vector_shard_assignments_.length : Int) ∧
    (∀ s ∈ (init 2 1 2).m_shard_sizes_, s ≤ (init 2 1 2).m_shard_capacity_) ∧
    ((init 2 1 2).Insert [⟨1, [0, 0]⟩, ⟨4294967297, [0, 0]⟩] healthy).1 = StatusCode.OK ∧
    ((init 2 1 2).Insert [⟨1, [0, 0]⟩, ⟨4294967297, [0, 0]⟩] healthy).2.1 =
      ⟨2, 2, [2], [(1, 0)]⟩ ∧
    ((init 2 1 2).Upsert [⟨1, [0, 0]⟩, ⟨4294967297, [0, 0]⟩] healthy id).1 = StatusCode.OK ∧
    ((init 2 1 2).Upsert [⟨1, [0, 0]⟩, ⟨4294967297, [0, 0]⟩] healthy id).2.1 =
      ⟨2, 2, [2], [(1, 0)]⟩ ∧
    (ShardedIndexServiceImpl.mk 2 2 [2] [(1, 0)]).m_shard_sizes_.sum ≠
      ((ShardedIndexServiceImpl.mk 2 2 [2] [(1, 0)]).m_vector_shard_assignments_.length
        : Int) := by
  decide

end ShardedIndexServiceImpl

namespace Cluster

/-- C23 (defect of the code): an Upsert that repeats a new id spreads the copies over two
shards, and the second Upsert of the same request sends both copies to the shard of the
placement, which keeps both. From the empty cluster (two shards of capacity 1, D = 2),
Upsert of [id 1, id 1] returns OK and Describe reports 2 vectors; the second Upsert returns
OK and leaves shard_of and shard_sizes as they were, but Describe now reports 3 vectors. -/
theorem upsert_twice_changes_num_vectors :
    ((Cluster.init 2 2 1).Upsert [⟨1, [0, 0]⟩, ⟨1, [5, 5]⟩] id).1 = StatusCode.OK ∧
    ((Cluster.init 2 2 1).Upsert [⟨1, [0, 0]⟩, ⟨1, [5, 5]⟩] id).2 =
      ⟨⟨2, 1, [1, 1], [(1, 0)]⟩, [⟨2, [(1, [0, 0])], [1]⟩, ⟨2, [(1, [5, 5])], [1]⟩]⟩ ∧
    ((Cluster.init 2 2 1).Upsert [⟨1, [0, 0]⟩, ⟨1, [5, 5]⟩] id).2.Describe
      = (StatusCode.OK, 2, 2) ∧
    (((Cluster.init 2 2 1).Upsert [⟨1, [0, 0]⟩, ⟨1, [5, 5]⟩] id).2.Upsert
      [⟨1, [0, 0]⟩, ⟨1, [5, 5]⟩] id).1 = StatusCode.OK ∧
    (((Cluster.init 2 2 1).Upsert [⟨1, [0, 0]⟩, ⟨1, [5, 5]⟩] id).2.Upsert
      [⟨1, [0, 0]⟩, ⟨1, [5, 5]⟩] id).2 =
      ⟨⟨2, 1, [1, 1], [(1, 0)]⟩,
        [⟨2, [(1, [0, 0]), (1, [5, 5])], [1]⟩, ⟨2, [(1, [5, 5])], [1]⟩]⟩ ∧
    (((Cluster.init 2 2 1).Upsert [⟨1, [0, 0]⟩, ⟨1, [5, 5]⟩] id).2.Upsert
      [⟨1, [0, 0]⟩, ⟨1, [5, 5]⟩] id).2.Describe = (StatusCode.OK, 2, 3) ∧
    (((Cluster.init 2 2 1).Upsert [⟨1, [0, 0]⟩, ⟨1, [5, 5]⟩] List.reverse).2.Upsert
      [⟨1, [0, 0]⟩, ⟨1, [5, 5]⟩] List.reverse).2.Describe = (StatusCode.OK, 2, 3) := by
  decide

end Cluster

/-! ### Insert when an RPC fails: the commits of the preceding shards -/

namespace ShardedIndexServiceImpl

theorem insert_loop_sent (vectors : List Vector) (shard_insert : ShardRpc) :
    ∀ (shard_fills : List (Nat × Int)) (offset : Nat) (self : ShardedIndexServiceImpl)
      (sent : SentBatches),
      insert_loop vectors shard_insert shard_fills offset self sent =
        ((insert_loop vectors shard_insert shard_fills offset self []).1,
          (insert_loop vectors shard_insert shard_fills offset self []).2.1,
          sent ++ (insert_loop vectors shard_insert shard_fills offset self []).2.2) := by
  intro shard_fills
  induction shard_fills with
  | nil => intro offset self sent; simp [insert_loop]
  | cons p rest ih =>
    intro offset self sent
    obtain ⟨shard_idx, num_to_fill⟩ := p
    simp only [insert_loop]
    split
    · simp
    · rw [ih _ _ (sent ++ _), ih _ _ ([] ++ _)]
      simp

theorem insert_loop_append (vectors : List Vector) (shard_insert : ShardRpc) :
    ∀ (pre rest : List (Nat × Int)) (offset : Nat) (self : ShardedIndexServiceImpl)
      (sent : SentBatches),
      insert_loop vectors shard_insert (pre ++ rest) offset self sent =
        if (insert_loop vectors shard_insert pre offset self sent).1 = StatusCode.OK then
          insert_loop vectors shard_insert rest
            (offset + (pre.map (fun p => p.2.toNat)).sum)
            (insert_loop vectors shard_insert pre offset self sent).2.1
            (insert_loop vectors shard_insert pre offset self sent).2.2
        else insert_loop vectors shard_insert pre offset self sent := by
  intro pre
  induction pre with
  | nil => intro rest offset self sent; simp [insert_loop]
  | cons p pre ih =>
    intro rest offset self sent
    obtain ⟨shard_idx, num_to_fill⟩ := p
    simp only [List.cons_append, insert_loop, List.map_cons, List.sum_cons, List.append_eq]
    split
    · simp
    · rw [ih, Nat.add_assoc]

theorem insert_loop_same_outcomes (vectors : List Vector) (shard_insert : ShardRpc) :
    ∀ (shard_fills : List (Nat × Int)) (offset : Nat) (self : ShardedIndexServiceImpl),
      (∀ b ∈ (insert_loop vectors healthy shard_fills offset self []).2.2,
        shard_insert b.1 b.2 = true) →
      insert_loop vectors shard_insert shard_fills offset self [] =
        insert_loop vectors healthy shard_fills offset self [] := by
  intro shard_fills
  induction shard_fills with
  | nil => intro offset self _; rfl
  | cons p rest ih =>
    intro offset self h
    obtain ⟨shard_idx, num_to_fill⟩ := p
    have hT : ∀ (a : Nat) (b : List Vector), healthy a b = true := fun _ _ => rfl
    simp only [insert_loop, hT, List.nil_append, reduceCtorEq, ↓reduceIte] at h ⊢
    rw [insert_loop_sent] at h
    have h0 := h _ (List.mem_append_left _ (List.mem_singleton_self _))
    rw [if_neg (by rw [h0]; simp)]
    rw [insert_loop_sent vectors shard_insert, insert_loop_sent vectors healthy]
    rw [ih _ _ (fun b hb => h b (List.mem_append_right _ hb))]

theorem insert_loop_healthy_cons (vectors : List Vector) (shard_idx : Nat) (num_to_fill : Int)
    (rest : List (Nat × Int)) (offset : Nat) (self : ShardedIndexServiceImpl) :
    insert_loop vectors healthy ((shard_idx, num_to_fill) :: rest) offset self [] =
      ((insert_loop vectors healthy rest (offset + num_to_fill.toNat)
          (self.commit_batch shard_idx
            (((vectors.drop offset).take num_to_fill.toNat).filter self.unplaced)) []).1,
        (insert_loop vectors healthy rest (offset + num_to_fill.toNat)
          (self.commit_batch shard_idx
            (((vectors.drop offset).take num_to_fill.toNat).filter self.unplaced)) []).2.1,
        (shard_idx, ((vectors.drop offset).take num_to_fill.toNat).filter self.unplaced) ::
          (insert_loop vectors healthy rest (offset + num_to_fill.toNat)
            (self.commit_batch shard_idx
              (((vectors.drop offset).take num_to_fill.toNat).filter self.unplaced))
            []).2.2) := by
  have hT : ∀ (a : Nat) (b : List Vector), healthy a b = true := fun _ _ => rfl
  simp only [insert_loop, hT, List.nil_append, reduceCtorEq, ↓reduceIte]
  rw [insert_loop_sent]
  rfl

theorem commit_batch_length (self : ShardedIndexServiceImpl) (shard_idx : Nat)
    (request : List Vector) :
    (self.commit_batch shard_idx request).m_shard_sizes_.length = self.m_shard_sizes_.length := by
  simp only [commit_batch]
  split
  · exact add_to_shard_size_length _ _ _
  · rfl

theorem commit_batch_getD_ne (self : ShardedIndexServiceImpl) (shard_idx : Nat)
    (request : List Vector) (i : Nat) (h : i ≠ shard_idx) :
    (self.commit_batch shard_idx request).m_shard_sizes_.getD i 0
      = self.m_shard_sizes_.getD i 0 := by
  simp only [commit_batch]
  split
  · exact add_to_shard_size_getD_ne _ _ _ _ h
  · rfl

theorem commit_batch_getD_self (self : ShardedIndexServiceImpl) (shard_idx : Nat)
    (request : List Vector) (h : shard_idx < self.m_shard_sizes_.length) :
    (self.commit_batch shard_idx request).m_shard_sizes_.getD shard_idx 0
      = self.m_shard_sizes_.getD shard_idx 0 + request.length := by
  simp only [commit_batch]
  split
  · exact add_to_shard_size_getD_self _ _ _ h
  · rename_i h0
    simp only [ne_eq, not_not] at h0
    rw [h0, add_zero]

theorem commit_batch_find_some (self : ShardedIndexServiceImpl) (shard_idx : Nat)
    (request : List Vector) (key : Int) (x : Nat)
    (h : map_find self.m_vector_shard_assignments_ key = some x) :
    map_find (self.commit_batch shard_idx request).m_vector_shard_assignments_ key
      = some x := by
  simp only [commit_batch]
  split
  · exact record_assignments_find _ _ _ key x h
  · exact h

theorem commit_batch_find_new (self : ShardedIndexServiceImpl) (shard_idx : Nat)
    (request : List Vector) (v : Vector) (hv : v ∈ request)
    (h : map_find self.m_vector_shard_assignments_ (to_int v.id) = none) :
    map_find (self.commit_batch shard_idx request).m_vector_shard_assignments_ (to_int v.id)
      = some shard_idx := by
  simp only [commit_batch]
  split
  · exact record_assignments_find_new shard_idx v request _ h hv
  · rename_i h0
    simp only [ne_eq, not_not, Nat.cast_eq_zero, List.length_eq_zero] at h0
    rw [h0] at hv
    simp at hv

theorem commit_batch_find_other (self : ShardedIndexServiceImpl) (shard_idx : Nat)
    (request : List Vector) (key : Int)
    (h : map_find self.m_vector_shard_assignments_ key = none)
    (hk : ∀ v ∈ request, to_int v.id ≠ key) :
    map_find (self.commit_batch shard_idx request).m_vector_shard_assignments_ key = none := by
  simp only [commit_batch]
  split
  · apply record_assignments_find_other shard_idx key request _ h
    intro hmem
    obtain ⟨v, hv, e⟩ := List.mem_map.1 hmem
    exact hk v hv e
  · exact h

theorem insert_loop_commits (vectors : List Vector) :
    ∀ (shard_fills : List (Nat × Int)) (offset : Nat) (self : ShardedIndexServiceImpl),
      (shard_fills.map Prod.fst).Nodup →
      (∀ p ∈ shard_fills, p.1 < self.m_shard_sizes_.length) →
      (insert_loop vectors healthy shard_fills offset self []).1 = StatusCode.OK ∧
      (insert_loop vectors healthy shard_fills offset self []).2.2.map Prod.fst
        = shard_fills.map Prod.fst ∧
      (insert_loop vectors healthy shard_fills offset self []).2.1.m_shard_sizes_.length
        = self.m_shard_sizes_.length ∧
      (∀ i, i ∉ shard_fills.map Prod.fst →
        (insert_loop vectors healthy shard_fills offset self []).2.1.m_shard_sizes_.getD i 0
          = self.m_shard_sizes_.getD i 0) ∧
      (∀ b ∈ (insert_loop vectors healthy shard_fills offset self []).2.2,
        (insert_loop vectors healthy shard_fills offset self []).2.1.m_shard_sizes_.getD b.1 0
          = self.m_shard_sizes_.getD b.1 0 + b.2.length) ∧
      (∀ b ∈ (insert_loop vectors healthy shard_fills offset self []).2.2, ∀ v ∈ b.2,
        self.unplaced v = true ∧
        map_find (insert_loop vectors healthy shard_fills offset
          self []).2.1.m_vector_shard_assignments_ (to_int v.id) = some b.1) ∧
      (∀ key, map_find self.m_vector_shard_assignments_ key = none →
        (∀ b ∈ (insert_loop vectors healthy shard_fills offset self []).2.2, ∀ v ∈ b.2,
          to_int v.id ≠ key) →
        map_find (insert_loop vectors healthy shard_fills offset
          self []).2.1.m_vector_shard_assignments_ key = none) := by
  intro shard_fills
  induction shard_fills with
  | nil =>
    intro offset self _ _
    simp [insert_loop]
  | cons p rest ih =>
    intro offset self hnd hlt
    obtain ⟨shard_idx, num_to_fill⟩ := p
    simp only [List.map_cons, List.nodup_cons] at hnd
    have hidx : shard_idx < self.m_shard_sizes_.length :=
      hlt (shard_idx, num_to_fill) (List.mem_cons_self _ _)
    rw [insert_loop_healthy_cons]
    generalize hreq : ((vectors.drop offset).take num_to_fill.toNat).filter self.unplaced
      = request
    have hreq_new : ∀ v ∈ request, self.unplaced v = true := by
      intro v hv
      rw [← hreq] at hv
      exact (List.mem_filter.1 hv).2
    obtain ⟨h1, h2, h3, h4, h5, h6, h7⟩ := ih (offset + num_to_fill.toNat)
      (self.commit_batch shard_idx request) hnd.2
      (fun p hp => by
        rw [commit_batch_length]
        exact hlt p (List.mem_cons_of_mem _ hp))
    have h8 : ∀ (key : Int) (x : Nat),
        map_find (self.commit_batch shard_idx request).m_vector_shard_assignments_ key
          = some x →
        map_find (insert_loop vectors healthy rest (offset + num_to_fill.toNat)
          (self.commit_batch shard_idx request) []).2.1.m_vector_shard_assignments_ key
          = some x :=
      fun key x h => insert_loop_find vectors healthy key x rest _ _ [] h
    generalize insert_loop vectors healthy rest (offset + num_to_fill.toNat)
      (self.commit_batch shard_idx request) [] = r at h1 h2 h3 h4 h5 h6 h7 h8
    refine ⟨h1, ?_, ?_, ?_, ?_, ?_, ?_⟩
    · simp only [List.map_cons, h2]
    · rw [h3, commit_batch_length]
    · intro i hi
      simp only [List.map_cons, List.mem_cons, not_or] at hi
      rw [h4 i hi.2, commit_batch_getD_ne _ _ _ _ hi.1]
    · intro b hb
      simp only [List.mem_cons] at hb
      rcases hb with rfl | hb
      · rw [h4 _ hnd.1, commit_batch_getD_self _ _ _ hidx]
      · have hb1 : b.1 ∈ rest.map Prod.fst := by
          rw [← h2]
          exact List.mem_map_of_mem _ hb
        have hne : b.1 ≠ shard_idx := fun e => hnd.1 (e ▸ hb1)
        rw [h5 b hb, commit_batch_getD_ne _ _ _ _ hne]
    · intro b hb v hv
      simp only [List.mem_cons] at hb
      rcases hb with rfl | hb
      · refine ⟨hreq_new v hv, ?_⟩
        have hnone : map_find self.m_vector_shard_assignments_ (to_int v.id) = none := by
          simpa [unplaced] using hreq_new v hv
        exact h8 _ _ (commit_batch_find_new self shard_idx request v hv hnone)
      · obtain ⟨hu, hf⟩ := h6 b hb v hv
        refine ⟨?_, hf⟩
        cases hs : map_find self.m_vector_shard_assignments_ (to_int v.id) with
        | none => simp [unplaced, hs]
        | some x =>
          have := commit_batch_find_some self shard_idx request _ x hs
          simp [unplaced, this] at hu
    · intro key hkey hall
      apply h7 key
      · exact commit_batch_find_other self shard_idx request key hkey
          (fun v hv => hall _ (List.mem_cons_self _ _) v hv)
      · exact fun b hb v hv => hall b (List.mem_cons_of_mem _ hb) v hv

/-- C24: a router Insert that passes the capacity check and whose RPC to shard s is the
first to fail. Let pre be the fills of the shards before s (all of a smaller index),
sent_pre the batches built for them and committed the state once these batches are
committed. Then Insert returns UNAVAILABLE in the state committed, after the RPCs for pre in
ascending order and the RPC to s, and no later one. In committed every shard of pre has grown
by the length of its batch and the ids of its batch, all new, are placed on it; all other
sizes, among them the size of s, and the placement of every other id are as before, and no
id of the batch of s is placed. -/
theorem insert_first_failure (self : ShardedIndexServiceImpl) (vectors : List Vector)
    (shard_insert : ShardRpc) (pre post : List (Nat × Int)) (s : Nat) (c : Int)
    (committed : ShardedIndexServiceImpl) (sent_pre : SentBatches) (batch_s : List Vector)
    (hcap : (algo.greedy_fill vectors.length self.m_shard_capacity_ self.m_shard_sizes_).1
      = 0)
    (hfills : (algo.greedy_fill vectors.length self.m_shard_capacity_ self.m_shard_sizes_).2
      = pre ++ (s, c) :: post)
    (hcommitted : insert_loop vectors healthy pre 0 self []
      = (StatusCode.OK, committed, sent_pre))
    (hbatch : batch_s = ((vectors.drop (pre.map (fun p => p.2.toNat)).sum).take
      c.toNat).filter committed.unplaced)
    (hpre : ∀ b ∈ sent_pre, shard_insert b.1 b.2 = true)
    (hs : shard_insert s batch_s = false) :
    self.Insert vectors shard_insert
      = (StatusCode.UNAVAILABLE, committed, sent_pre ++ [(s, batch_s)]) ∧
    sent_pre.map Prod.fst = pre.map Prod.fst ∧
    (∀ p ∈ pre, p.1 < s) ∧ (∀ p ∈ post, s < p.1) ∧
    committed.m_shard_sizes_.length = self.m_shard_sizes_.length ∧
    (∀ b ∈ sent_pre,
      committed.m_shard_sizes_.getD b.1 0 = self.m_shard_sizes_.getD b.1 0 + b.2.length ∧
      ∀ v ∈ b.2, self.unplaced v = true ∧
        map_find committed.m_vector_shard_assignments_ (to_int v.id) = some b.1) ∧
    (∀ i, i ∉ pre.map Prod.fst →
      committed.m_shard_sizes_.getD i 0 = self.m_shard_sizes_.getD i 0) ∧
    (∀ key, (∀ b ∈ sent_pre, ∀ v ∈ b.2, to_int v.id ≠ key) →
      map_find committed.m_vector_shard_assignments_ key
        = map_find self.m_vector_shard_assignments_ key) ∧
    committed.m_shard_sizes_.getD s 0 = self.m_shard_sizes_.getD s 0 ∧
    (∀ v ∈ batch_s, committed.unplaced v = true) := by
  have hsorted := algo.greedy_fill_keys_sorted vectors.length self.m_shard_capacity_
    self.m_shard_sizes_
  rw [hfills] at hsorted
  simp only [List.map_append, List.map_cons, List.Sorted, List.pairwise_append,
    List.pairwise_cons, List.mem_cons, List.mem_map, forall_exists_index, and_imp,
    forall_eq_or_imp] at hsorted
  have hlt_pre : ∀ p ∈ pre, p.1 < s := fun p hp => (hsorted.2.2 p.1 p hp rfl).1
  have hlt_post : ∀ p ∈ post, s < p.1 := fun p hp => hsorted.2.1.1 p.1 p hp rfl
  have hnd : (pre.map Prod.fst).Nodup := by
    have : (pre.map Prod.fst).Pairwise (fun x y => x < y) := hsorted.1
    exact this.imp (fun h => Nat.ne_of_lt h)
  have hfit : ∀ p ∈ pre, p.1 < self.m_shard_sizes_.length := by
    intro p hp
    refine (algo.greedy_fill_fits vectors.length self.m_shard_capacity_ self.m_shard_sizes_
      p ?_).1
    rw [hfills]
    exact List.mem_append_left _ hp
  obtain ⟨-, h2, h3, h4, h5, h6, h7⟩ := insert_loop_commits vectors pre 0 self hnd hfit
  rw [hcommitted] at h2 h3 h4 h5 h6 h7
  simp only at h2 h3 h4 h5 h6 h7
  have hs_pre : s ∉ pre.map Prod.fst := by
    intro hmem
    obtain ⟨p, hp, e⟩ := List.mem_map.1 hmem
    have := hlt_pre p hp
    omega
  have hsame : insert_loop vectors shard_insert pre 0 self []
      = (StatusCode.OK, committed, sent_pre) := by
    rw [insert_loop_same_outcomes vectors shard_insert pre 0 self
      (by rw [hcommitted]; exact hpre), hcommitted]
  refine ⟨?_, h2, hlt_pre, hlt_post, h3, fun b hb => ⟨h5 b hb, h6 b hb⟩, h4, ?_, h4 s hs_pre,
    ?_⟩
  · simp only [Insert]
    rw [if_neg (by simpa using hcap), hfills, insert_loop_append, hsame]
    simp only [if_true, insert_loop, Nat.zero_add]
    have hb : List.filter
        (fun vector => (map_find committed.m_vector_shard_assignments_
          (to_int vector.id)).isNone)
        (List.take c.toNat (List.drop (pre.map (fun p => p.2.toNat)).sum vectors))
        = batch_s := by
      rw [hbatch]
      rfl
    rw [hb, if_pos hs]
  · intro key hkey
    cases hk : map_find self.m_vector_shard_assignments_ key with
    | none => exact h7 key hk hkey
    | some x =>
      have := insert_loop_find vectors healthy key x pre 0 self [] hk
      rw [hcommitted] at this
      exact this
  · intro v hv
    rw [hbatch] at hv
    exact (List.mem_filter.1 hv).2

/-- Witness for C24: three empty shards of capacity 1 and an Insert of ids 1, 2, 3 whose RPC
to shard 1 fails: shard 0 is committed, shard 1 is not, shard 2 is not called. -/
theorem insert_first_failure_witness :
    (init 2 3 1).Insert [⟨1, [0, 0]⟩, ⟨2, [0, 0]⟩, ⟨3, [0, 0]⟩]
        (fun shard_idx _ => decide (shard_idx ≠ 1)) =
      (StatusCode.UNAVAILABLE, ⟨2, 1, [1, 0, 0], [(1, 0)]⟩,
        [(0, [⟨1, [0, 0]⟩])] ++ [(1, [⟨2, [0, 0]⟩])]) :=
  (insert_first_failure (init 2 3 1) [⟨1, [0, 0]⟩, ⟨2, [0, 0]⟩, ⟨3, [0, 0]⟩]
    (fun shard_idx _ => decide (shard_idx ≠ 1)) [(0, 1)] [(2, 1)] 1 1
    ⟨2, 1, [1, 0, 0], [(1, 0)]⟩ [(0, [⟨1, [0, 0]⟩])] [⟨2, [0, 0]⟩]
    (by decide) (by decide) (by decide) (by decide) (by decide) (by decide)).1

end ShardedIndexServiceImpl
